import Mathlib

/-!
# Batched streaming buffer, delim-join planning and result-modifier serialization

A shallow embedding of `src/main/buffered_data/batched_buffered_data.cpp`,
`src/execution/physical_plan/plan_delim_join.cpp` and
`src/storage/serialization/serialize_result_modifier.cpp` of the DuckDB
fragment. For the buffer:

* `idx_t` is a 64-bit unsigned integer: values are natural numbers and every
  addition and subtraction on a counter is reduced modulo `2 ^ 64`.
* `std::map<idx_t, V>` is an association list with strictly increasing keys;
  iteration order is list order.
* `std::deque` and `std::stack` are lists (`push_back` appends at the end,
  a stack pushes and pops at the head).
* The mutex is not modelled: every member function is one atomic step.
* `D_ASSERT` is a debug-only check and has no effect on the state; the
  asserted conditions are studied as properties.
-/

namespace duckdb

/-! ## Machine integers -/

/-- Number of values of `idx_t` (`uint64_t`). -/
def IDX_MOD : Nat := 18446744073709551616

/-- Unsigned 64-bit addition `a += b`. -/
def idxAdd (a b : Nat) : Nat := (a + b) % IDX_MOD

/-- Unsigned 64-bit subtraction `a -= b` (wraps around on underflow). -/
def idxSub (a b : Nat) : Nat := (a + (IDX_MOD - b % IDX_MOD)) % IDX_MOD

/-! ## Ordered map (`std::map<idx_t, V>`) -/

/-- The entries of a `std::map<idx_t, V>` in iteration order. -/
abbrev StdMap (V : Type) := List (Nat × V)

namespace StdMap

variable {V : Type}

/-- Lookup `m.find(key)`; `none` stands for `m.end()`. -/
def find (key : Nat) : StdMap V → Option V
  | [] => none
  | (k, v) :: rest => if k = key then some v else find key rest

/-- Insert-or-assign at `key`, keeping the keys in ascending order. It is how a
write through the reference returned by `m[key]` or by `it->second` is
recorded. -/
def assign (key : Nat) (v : V) : StdMap V → StdMap V
  | [] => [(key, v)]
  | (k, w) :: rest =>
    if key < k then (key, v) :: (k, w) :: rest
    else if key = k then (k, v) :: rest
    else (k, w) :: assign key v rest

/-- Insertion `m.emplace(key, v)`: an existing entry is left as it is. -/
def emplace (key : Nat) (v : V) : StdMap V → StdMap V
  | [] => [(key, v)]
  | (k, w) :: rest =>
    if key < k then (key, v) :: (k, w) :: rest
    else if key = k then (k, w) :: rest
    else (k, w) :: emplace key v rest

/-- Removal `m.erase(key)`. -/
def erase (key : Nat) : StdMap V → StdMap V
  | [] => []
  | (k, w) :: rest => if k = key then rest else (k, w) :: erase key rest

/-- The loop `while (!to_remove.empty()) { m.erase(to_remove.top()); to_remove.pop(); }`. -/
def eraseAll : List Nat → StdMap V → StdMap V
  | [], m => m
  | key :: to_remove, m => eraseAll to_remove (erase key m)

/-- The keys in iteration order. -/
def keys (m : StdMap V) : List Nat := m.map Prod.fst

/-- Well-formedness of the representation: strictly ascending keys. -/
def WF (m : StdMap V) : Prop := (keys m).Pairwise (· < ·)

end StdMap

/-! ## Data model -/

/-- Modelled from the spec: the `DataChunk` class is declared outside the
sources at hand. It is an owned container with a known `size()` in tuples; the
buffer treats the rest of it (`data`) opaquely. -/
structure DataChunk (τ : Type) where
  size : Nat
  data : τ
deriving DecidableEq, Repr

/-- Modelled from the spec: the blocked-sink token (declared in the missing
header) is a suspension record carrying a callback; `state` identifies the
task that firing the callback reschedules. -/
structure BlockedSink where
  state : Nat
deriving DecidableEq, Repr

/-- Modelled from the spec: `InProgressBatch` (declared in the missing header)
is the list of chunks of a future batch plus its `completed` flag; a default
constructed one is empty and not completed. -/
structure InProgressBatch (τ : Type) where
  chunks : List (DataChunk τ) := []
  completed : Bool := false
deriving DecidableEq, Repr

/-- Modelled from the spec: the two buffer-size constants are declared in the
missing header; they are positive configuration values. -/
structure BufferSizes where
  CURRENT_BATCH_BUFFER_SIZE : Nat
  OTHER_BATCHES_BUFFER_SIZE : Nat
deriving DecidableEq, Repr

/-- Modelled from the spec: the member variables of `BatchedBufferedData`
(declared in the missing header), named as the member functions use them.
`context` tells whether the weak handle to the client context still holds a
context; `context.reset()` clears it. -/
structure BatchedBufferedData (τ : Type) where
  context : Bool
  blocked_sinks : StdMap BlockedSink
  batches : List (DataChunk τ)
  in_progress_batches : StdMap (InProgressBatch τ)
  other_batches_tuple_count : Nat
  current_batch_tuple_count : Nat
  min_batch : Nat
deriving DecidableEq, Repr

namespace BatchedBufferedData

variable {τ : Type}

/-- The constructor `BatchedBufferedData(context)`: both counters and
`min_batch` start at `0`, the containers are empty. -/
def construct (τ : Type) : BatchedBufferedData τ :=
  { context := true, blocked_sinks := [], batches := [], in_progress_batches := [],
    other_batches_tuple_count := 0, current_batch_tuple_count := 0, min_batch := 0 }

/-- Modelled from the spec: `Closed()` is defined in the missing base-class
header; the buffer is closed once the client-context handle has been released. -/
def Closed (s : BatchedBufferedData τ) : Bool := !s.context

/-- `BlockSink(blocked_sink, batch)`. -/
def BlockSink (blocked_sink : BlockedSink) (batch : Nat) (s : BatchedBufferedData τ) :
    BatchedBufferedData τ :=
  { s with blocked_sinks := StdMap.emplace batch blocked_sink s.blocked_sinks }

/-- `IsMinBatch(guard, batch)`. -/
def IsMinBatch (s : BatchedBufferedData τ) (batch : Nat) : Bool := s.min_batch = batch

/-- `ShouldBlockBatch(batch)`. -/
def ShouldBlockBatch (cfg : BufferSizes) (s : BatchedBufferedData τ) (batch : Nat) : Bool :=
  let is_minimum := IsMinBatch s batch
  if is_minimum then
    decide (s.current_batch_tuple_count ≥ cfg.CURRENT_BATCH_BUFFER_SIZE)
  else
    decide (s.other_batches_tuple_count ≥ cfg.OTHER_BATCHES_BUFFER_SIZE)

/-- `BufferIsFull()`. -/
def BufferIsFull (cfg : BufferSizes) (s : BatchedBufferedData τ) : Bool :=
  let min_filled := decide (s.current_batch_tuple_count ≥ cfg.CURRENT_BATCH_BUFFER_SIZE)
  let others_filled := decide (s.other_batches_tuple_count ≥ cfg.OTHER_BATCHES_BUFFER_SIZE)
  if s.batches.isEmpty then false else min_filled || others_filled

/-- The first loop of `UnblockSinks`: walks the blocked sinks in key order and
returns the tokens whose callback is fired (in firing order) together with the
stack `to_remove`. -/
def UnblockSinks.walk (cfg : BufferSizes) (s : BatchedBufferedData τ) :
    StdMap BlockedSink → List BlockedSink → List Nat → List BlockedSink × List Nat
  | [], fired, to_remove => (fired, to_remove)
  | (batch, blocked_sink) :: rest, fired, to_remove =>
    let is_minimum := IsMinBatch s batch
    if is_minimum then
      if s.current_batch_tuple_count ≥ cfg.CURRENT_BATCH_BUFFER_SIZE then
        walk cfg s rest fired to_remove
      else
        walk cfg s rest (fired ++ [blocked_sink]) (batch :: to_remove)
    else
      if s.other_batches_tuple_count ≥ cfg.OTHER_BATCHES_BUFFER_SIZE then
        walk cfg s rest fired to_remove
      else
        walk cfg s rest (fired ++ [blocked_sink]) (batch :: to_remove)

/-- `UnblockSinks()`: returns the tokens whose callback was invoked, in order,
and the new state. -/
def UnblockSinks (cfg : BufferSizes) (s : BatchedBufferedData τ) :
    List BlockedSink × BatchedBufferedData τ :=
  let r := UnblockSinks.walk cfg s s.blocked_sinks [] []
  (r.1, { s with blocked_sinks := StdMap.eraseAll r.2 s.blocked_sinks })

/-- The inner loop of `UpdateMinBatchIndex`: moves the chunks of one entry to
the back of `batches`, adding up their sizes in `tuple_count`. -/
def UpdateMinBatchIndex.moveChunks :
    List (DataChunk τ) → Nat → List (DataChunk τ) → Nat × List (DataChunk τ)
  | [], tuple_count, batches => (tuple_count, batches)
  | chunk :: rest, tuple_count, batches =>
    moveChunks rest (idxAdd tuple_count chunk.size) (batches ++ [chunk])

/-- The first loop of `UpdateMinBatchIndex` over the entries of
`in_progress_batches` (`min_batch` has been raised already); returns the state
and the stack `to_remove`. -/
def UpdateMinBatchIndex.walk :
    StdMap (InProgressBatch τ) → BatchedBufferedData τ → List Nat →
      BatchedBufferedData τ × List Nat
  | [], s, to_remove => (s, to_remove)
  | (batch, buffered_chunks) :: rest, s, to_remove =>
    if batch > s.min_batch then (s, to_remove)
    else if batch ≠ s.min_batch ∧ buffered_chunks.completed = false then (s, to_remove)
    else
      let r := UpdateMinBatchIndex.moveChunks buffered_chunks.chunks 0 s.batches
      walk rest
        { s with batches := r.2
                 other_batches_tuple_count := idxSub s.other_batches_tuple_count r.1
                 current_batch_tuple_count := idxAdd s.current_batch_tuple_count r.1 }
        (batch :: to_remove)

/-- `UpdateMinBatchIndex(min_batch_index)`. -/
def UpdateMinBatchIndex (min_batch_index : Nat) (s : BatchedBufferedData τ) :
    BatchedBufferedData τ :=
  let s1 := { s with min_batch := max s.min_batch min_batch_index }
  let r := UpdateMinBatchIndex.walk s1.in_progress_batches s1 []
  { r.1 with in_progress_batches := StdMap.eraseAll r.2 r.1.in_progress_batches }

/-- `CompleteBatch(batch)`. -/
def CompleteBatch (batch : Nat) (s : BatchedBufferedData τ) : BatchedBufferedData τ :=
  match StdMap.find batch s.in_progress_batches with
  | none => s
  | some buffered_chunks =>
    { s with in_progress_batches :=
        StdMap.assign batch { buffered_chunks with completed := true } s.in_progress_batches }

/-- The block `if (!batches.empty()) { chunk = front; pop_front } else { empty = true }`
of `Scan`: the chunk taken, if any, and the state. -/
def Scan.pop (s : BatchedBufferedData τ) : Option (DataChunk τ) × BatchedBufferedData τ :=
  match s.batches with
  | chunk :: rest => (some chunk, { s with batches := rest })
  | [] => (none, s)

/-- `Scan()`: the returned chunk (`none` for `nullptr`) and the new state. -/
def Scan (s : BatchedBufferedData τ) : Option (DataChunk τ) × BatchedBufferedData τ :=
  let r1 := Scan.pop s
  let r2 :=
    if r1.1.isNone then
      match r1.2.in_progress_batches with
      | (batch, chunks) :: _ =>
        let s2 := if chunks.completed then UpdateMinBatchIndex batch r1.2 else r1.2
        Scan.pop s2
      | [] => r1
    else r1
  match r2.1 with
  | none => (none, { r2.2 with context := false })
  | some chunk =>
    (some chunk,
      { r2.2 with current_batch_tuple_count := idxSub r2.2.current_batch_tuple_count chunk.size })

/-- `Append(chunk, batch)`. -/
def Append (chunk : DataChunk τ) (batch : Nat) (s : BatchedBufferedData τ) :
    BatchedBufferedData τ :=
  if batch = s.min_batch then
    { s with current_batch_tuple_count := idxAdd s.current_batch_tuple_count chunk.size
             batches := s.batches ++ [chunk] }
  else
    let buffered_chunks := (StdMap.find batch s.in_progress_batches).getD {}
    { s with in_progress_batches :=
               StdMap.assign batch
                 { chunks := buffered_chunks.chunks ++ [chunk], completed := false }
                 s.in_progress_batches
             other_batches_tuple_count := idxAdd s.other_batches_tuple_count chunk.size }

end BatchedBufferedData

/-! ## Call sequences -/

/-- One call of a member function of the buffer. -/
inductive Op (τ : Type) where
  | Append (chunk : DataChunk τ) (batch : Nat)
  | CompleteBatch (batch : Nat)
  | BlockSink (blocked_sink : BlockedSink) (batch : Nat)
  | UnblockSinks
  | UpdateMinBatchIndex (min_batch_index : Nat)
  | Scan
deriving DecidableEq, Repr

/-- A buffer together with what its callers have observed so far: the results
of the `Scan` calls and the callbacks fired, both in order. -/
structure Run (τ : Type) where
  buf : BatchedBufferedData τ
  scanned : List (Option (DataChunk τ))
  fired : List BlockedSink
deriving DecidableEq, Repr

/-- A freshly constructed buffer on which nothing has been observed. -/
def Run.fresh (τ : Type) : Run τ :=
  { buf := BatchedBufferedData.construct τ, scanned := [], fired := [] }

/-- Performs one call. -/
def Run.step {τ : Type} (cfg : BufferSizes) (r : Run τ) : Op τ → Run τ
  | .Append chunk batch => { r with buf := r.buf.Append chunk batch }
  | .CompleteBatch batch => { r with buf := r.buf.CompleteBatch batch }
  | .BlockSink blocked_sink batch => { r with buf := r.buf.BlockSink blocked_sink batch }
  | .UnblockSinks =>
    let u := r.buf.UnblockSinks cfg
    { r with buf := u.2, fired := r.fired ++ u.1 }
  | .UpdateMinBatchIndex min_batch_index =>
    { r with buf := r.buf.UpdateMinBatchIndex min_batch_index }
  | .Scan =>
    let u := r.buf.Scan
    { r with buf := u.2, scanned := r.scanned ++ [u.1] }

/-- Performs a sequence of calls, first to last. -/
def Run.exec {τ : Type} (cfg : BufferSizes) : Run τ → List (Op τ) → Run τ
  | r, [] => r
  | r, op :: ops => Run.exec cfg (Run.step cfg r op) ops

/-- The chunks handed to the consumer so far (the non-null `Scan` results). -/
def Run.delivered {τ : Type} (r : Run τ) : List (DataChunk τ) :=
  r.scanned.filterMap id

/-- The chunks passed to `Append` in a call sequence, in call order. -/
def appended {τ : Type} : List (Op τ) → List (DataChunk τ)
  | [] => []
  | .Append chunk _ :: ops => chunk :: appended ops
  | _ :: ops => appended ops

/-- The caller-side condition `D_ASSERT(batch >= min_batch)` of `Append`; the
other calls have no condition. -/
def Op.appendOk {τ : Type} (s : BatchedBufferedData τ) : Op τ → Bool
  | .Append _ batch => decide (batch ≥ s.min_batch)
  | _ => true

/-- Caller discipline: `Append` is called with `batch >= min_batch`, and
`UpdateMinBatchIndex(c)` only when every in-progress batch below the new
watermark `max(min_batch, c)` is completed. -/
def Op.disciplined {τ : Type} (s : BatchedBufferedData τ) : Op τ → Bool
  | .Append _ batch => decide (batch ≥ s.min_batch)
  | .UpdateMinBatchIndex c =>
    s.in_progress_batches.all fun e => !decide (e.1 < max s.min_batch c) || e.2.completed
  | _ => true

/-- Every call of the sequence satisfies `ok` in the state it is made in. -/
def Run.admits {τ : Type} (ok : BatchedBufferedData τ → Op τ → Bool) (cfg : BufferSizes) :
    Run τ → List (Op τ) → Bool
  | _, [] => true
  | r, op :: ops => ok r.buf op && Run.admits ok cfg (r.step cfg op) ops

/-- Bookkeeping label of a chunk: the batch index it was appended under and
the position of that `Append` in the call sequence. The buffer never looks at
the data of a chunk, so labelling does not change its behaviour. -/
structure Tagged (τ : Type) where
  batch : Nat
  seq : Nat
  data : τ
deriving DecidableEq, Repr

/-- Labels the chunk of an `Append` call made at position `n`. -/
def Op.tag {τ : Type} (n : Nat) : Op τ → Op (Tagged τ)
  | .Append chunk batch => .Append ⟨chunk.size, ⟨batch, n, chunk.data⟩⟩ batch
  | .CompleteBatch batch => .CompleteBatch batch
  | .BlockSink blocked_sink batch => .BlockSink blocked_sink batch
  | .UnblockSinks => .UnblockSinks
  | .UpdateMinBatchIndex c => .UpdateMinBatchIndex c
  | .Scan => .Scan

/-- Labels a call sequence whose first call has position `n`. -/
def tagCalls {τ : Type} : Nat → List (Op τ) → List (Op (Tagged τ))
  | _, [] => []
  | n, op :: ops => op.tag n :: tagCalls (n + 1) ops

/-- Sizes used by the concrete scenarios. -/
def scenarioSizes : BufferSizes :=
  { CURRENT_BATCH_BUFFER_SIZE := 100, OTHER_BATCHES_BUFFER_SIZE := 100 }

/-- Scenario S2: two future batches are appended and completed. -/
def callsS2 : List (Op String) :=
  [.Append ⟨10, "one"⟩ 1, .Append ⟨10, "two"⟩ 2, .CompleteBatch 1, .CompleteBatch 2]

/-- A watermark update that runs ahead of an incomplete batch. -/
def callsAhead : List (Op String) :=
  [.Append ⟨10, "a"⟩ 1, .Append ⟨10, "b"⟩ 2, .UpdateMinBatchIndex 2, .Append ⟨10, "c"⟩ 2,
   .Scan, .CompleteBatch 1, .Scan, .Scan]

/-- The mathematical sum of the sizes of a list of chunks. -/
def sizes {τ : Type} (l : List (DataChunk τ)) : Nat := (l.map (·.size)).sum

/-- All chunks held in `in_progress_batches`, in key order and, within an
entry, in the order of its deque. -/
def inProgressChunks {τ : Type} (m : StdMap (InProgressBatch τ)) : List (DataChunk τ) :=
  (m.map (·.2.chunks)).flatten

/-- The test the walk of `UpdateMinBatchIndex` applies to an entry: it goes on
only when neither `break` is taken. -/
def promotable {τ : Type} (min_batch : Nat) (e : Nat × InProgressBatch τ) : Bool :=
  decide (e.1 ≤ min_batch) && (decide (e.1 = min_batch) || e.2.completed)

/-- The state in which `Scan` makes its last attempt to take a chunk: when
`batches` is empty and the first in-progress batch is completed, the state
after `UpdateMinBatchIndex` of its key; else the state itself. -/
def BatchedBufferedData.Scan.prepare {τ : Type} (s : BatchedBufferedData τ) :
    BatchedBufferedData τ :=
  match s.batches, s.in_progress_batches with
  | [], (batch, chunks) :: _ =>
    if chunks.completed then BatchedBufferedData.UpdateMinBatchIndex batch s else s
  | _, _ => s

/-- The end of `Scan`: on `nullptr` the context handle is reset, else the size
of the chunk is subtracted from `current_batch_tuple_count`. -/
def BatchedBufferedData.Scan.finish {τ : Type}
    (r : Option (DataChunk τ) × BatchedBufferedData τ) :
    Option (DataChunk τ) × BatchedBufferedData τ :=
  match r.1 with
  | none => (none, { r.2 with context := false })
  | some chunk =>
    (some chunk,
      { r.2 with current_batch_tuple_count := idxSub r.2.current_batch_tuple_count chunk.size })

/-- Consistency of a buffer state: both maps have strictly ascending keys,
each counter holds the 64-bit sum of the sizes of the chunks it accounts for,
and no in-progress entry is without chunks. -/
structure BatchedBufferedData.Consistent {τ : Type} (s : BatchedBufferedData τ) : Prop where
  wf_in_progress : StdMap.WF s.in_progress_batches
  wf_blocked : StdMap.WF s.blocked_sinks
  current : s.current_batch_tuple_count = sizes s.batches % IDX_MOD
  other : s.other_batches_tuple_count = sizes (inProgressChunks s.in_progress_batches) % IDX_MOD
  nonempty : ∀ e ∈ s.in_progress_batches, e.2.chunks ≠ []

/-- Every chunk a run has seen that has not been lost: the delivered ones, the
ones in `batches` and the ones in `in_progress_batches`. -/
def Run.content {τ : Type} (r : Run τ) : List (DataChunk τ) :=
  r.delivered ++ (r.buf.batches ++ inProgressChunks r.buf.in_progress_batches)

/-- Three appends: one to the current batch, two to future batches. -/
def callsHeld : List (Op String) :=
  [.Append ⟨10, "x"⟩ 0, .Append ⟨5, "y"⟩ 1, .Append ⟨7, "z"⟩ 3]

/-- Every key of `in_progress_batches` lies strictly above the watermark. -/
def BatchedBufferedData.KeysAbove {τ : Type} (s : BatchedBufferedData τ) : Prop :=
  ∀ e ∈ s.in_progress_batches, s.min_batch < e.1

/-- A watermark update that runs ahead of an incomplete batch, on its own. -/
def callsStuck : List (Op String) :=
  [.Append ⟨10, "a"⟩ 1, .Append ⟨10, "b"⟩ 2, .UpdateMinBatchIndex 2]

/-- Delivery order on labelled chunks: an earlier batch first and, within a
batch, the chunk appended first. -/
def Tagged.before {τ : Type} (x y : DataChunk (Tagged τ)) : Prop :=
  x.data.batch < y.data.batch ∨ (x.data.batch = y.data.batch ∧ x.data.seq < y.data.seq)

/-- Invariant behind ordered delivery, on labelled chunks. `front` is the list
of chunks delivered so far followed by `batches`, `m` is
`in_progress_batches`, `w` is `min_batch` and `n` bounds the positions of the
appends made so far. -/
structure Orderly {τ : Type} (n : Nat) (front : List (DataChunk (Tagged τ)))
    (m : StdMap (InProgressBatch (Tagged τ))) (w : Nat) : Prop where
  keys : ∀ e ∈ m, w < e.1
  entry_batch : ∀ e ∈ m, ∀ c ∈ e.2.chunks, c.data.batch = e.1
  entry_seq : ∀ e ∈ m, e.2.chunks.Pairwise (fun x y => x.data.seq < y.data.seq)
  seq_entries : ∀ e ∈ m, ∀ c ∈ e.2.chunks, c.data.seq < n
  seq_front : ∀ c ∈ front, c.data.seq < n
  front_le : ∀ c ∈ front, c.data.batch ≤ w
  ordered : front.Pairwise Tagged.before

/-- The ordering invariant of a run on labelled chunks. -/
def Run.Orderly {τ : Type} (n : Nat) (r : Run (Tagged τ)) : Prop :=
  duckdb.Orderly n (r.delivered ++ r.buf.batches) r.buf.in_progress_batches r.buf.min_batch

/-- Scenario S1: two chunks of size 50 appended to batch 0, which is then
completed. -/
def callsS1 : List (Op String) :=
  [.Append ⟨50, "first"⟩ 0, .Append ⟨50, "second"⟩ 0, .CompleteBatch 0]

/-- Two future batches appended, the first one completed. -/
def callsReady : List (Op String) :=
  [.Append ⟨10, "a"⟩ 1, .Append ⟨10, "b"⟩ 2, .CompleteBatch 1]

/-- A buffer closed by the consumer: `Scan` on a fresh buffer returns null and
resets the context handle. -/
def closedBuffer : BatchedBufferedData String :=
  (BatchedBufferedData.construct String).Scan.2

/-- Replaces the data of a chunk, keeping its size. -/
def DataChunk.relabel {α β : Type} (f : α → β) (c : DataChunk α) : DataChunk β :=
  ⟨c.size, f c.data⟩

/-- Replaces the data of every chunk of an in-progress batch. -/
def InProgressBatch.relabel {α β : Type} (f : α → β) (b : InProgressBatch α) :
    InProgressBatch β :=
  ⟨b.chunks.map (DataChunk.relabel f), b.completed⟩

/-- Replaces the data of every chunk held by a buffer. -/
def BatchedBufferedData.relabel {α β : Type} (f : α → β) (s : BatchedBufferedData α) :
    BatchedBufferedData β :=
  { context := s.context
    blocked_sinks := s.blocked_sinks
    batches := s.batches.map (DataChunk.relabel f)
    in_progress_batches := s.in_progress_batches.map fun e => (e.1, e.2.relabel f)
    other_batches_tuple_count := s.other_batches_tuple_count
    current_batch_tuple_count := s.current_batch_tuple_count
    min_batch := s.min_batch }

/-- Replaces the data of the chunk of an `Append` call. -/
def Op.relabel {α β : Type} (f : α → β) : Op α → Op β
  | .Append chunk batch => .Append (chunk.relabel f) batch
  | .CompleteBatch batch => .CompleteBatch batch
  | .BlockSink blocked_sink batch => .BlockSink blocked_sink batch
  | .UnblockSinks => .UnblockSinks
  | .UpdateMinBatchIndex c => .UpdateMinBatchIndex c
  | .Scan => .Scan

/-- Replaces the data of every chunk held or observed in a run. -/
def Run.relabel {α β : Type} (f : α → β) (r : Run α) : Run β :=
  { buf := r.buf.relabel f
    scanned := r.scanned.map (Option.map (DataChunk.relabel f))
    fired := r.fired }

/-- Sizes of scenario S3: the current batch may hold 10 tuples. -/
def sizesS3 : BufferSizes :=
  { CURRENT_BATCH_BUFFER_SIZE := 10, OTHER_BATCHES_BUFFER_SIZE := 100 }

/-- Scenario S3: a chunk of size 10 fills the current batch, a sink blocks on
batch 0, the consumer scans the chunk. -/
def callsS3 : List (Op String) :=
  [.Append ⟨10, "full"⟩ 0, .BlockSink ⟨0⟩ 0, .Scan]

/-- Sizes of scenario S4: the future batches may hold 5 tuples. -/
def sizesS4 : BufferSizes :=
  { CURRENT_BATCH_BUFFER_SIZE := 100, OTHER_BATCHES_BUFFER_SIZE := 5 }

/-- Scenario S4: a chunk of size 5 fills the future batches, a sink blocks on
batch 3, the watermark moves to 3. -/
def callsS4 : List (Op String) :=
  [.Append ⟨5, "ahead"⟩ 3, .BlockSink ⟨3⟩ 3, .UpdateMinBatchIndex 3]

/-- Modelled from the spec: `PendingExecutionResult` is declared in a missing
header; `ReplenishBuffer` names `EXECUTION_ERROR` and `RESULT_READY`, the task
system may also report that the result is not ready yet, that it is blocked or
that no task is available. -/
inductive PendingExecutionResult where
  | RESULT_READY
  | RESULT_NOT_READY
  | EXECUTION_ERROR
  | BLOCKED
  | NO_TASKS_AVAILABLE
deriving DecidableEq, Repr

/-- Modelled from the spec: the task system, whose code is outside the sources,
as `ReplenishBuffer` uses it. `ExecuteTaskInternal` runs one pipeline task,
which may change the buffer (sinks append chunks, complete batches, register
tokens), and reports a status; `IsFinished` is
`PendingQueryResult::IsFinished`. -/
structure TaskSystem (τ : Type) where
  ExecuteTaskInternal : BatchedBufferedData τ → PendingExecutionResult × BatchedBufferedData τ
  IsFinished : PendingExecutionResult → Bool

/-- What a call of `ReplenishBuffer` did: the status returned, the buffer left
behind, the callbacks fired (in order) and the number of tasks executed. -/
structure ReplenishOutcome (τ : Type) where
  result : PendingExecutionResult
  buf : BatchedBufferedData τ
  fired : List BlockedSink
  executed : Nat
deriving DecidableEq, Repr

/-- The `while (!IsFinished(res))` loop of `ReplenishBuffer`; it may go on for
ever, so it runs on fuel (one unit per iteration that executes a task) and
yields `none` when the fuel runs out. -/
def BatchedBufferedData.ReplenishBuffer.loop {τ : Type} (ts : TaskSystem τ) (cfg : BufferSizes) :
    Nat → PendingExecutionResult → BatchedBufferedData τ → List BlockedSink → Nat →
      Option (ReplenishOutcome τ)
  | 0, res, s, fired, n =>
    if ts.IsFinished res then some ⟨res, s, fired, n⟩
    else if s.BufferIsFull cfg then some ⟨res, s, fired, n⟩
    else none
  | fuel + 1, res, s, fired, n =>
    if ts.IsFinished res then some ⟨res, s, fired, n⟩
    else if s.BufferIsFull cfg then some ⟨res, s, fired, n⟩
    else
      let u := s.UnblockSinks cfg
      let t := ts.ExecuteTaskInternal u.2
      loop ts cfg fuel t.1 t.2 (fired ++ u.1) (n + 1)

/-- `ReplenishBuffer(result, context_lock)`. -/
def BatchedBufferedData.ReplenishBuffer {τ : Type} (ts : TaskSystem τ) (cfg : BufferSizes)
    (fuel : Nat) (s : BatchedBufferedData τ) : Option (ReplenishOutcome τ) :=
  if s.Closed then some ⟨.EXECUTION_ERROR, s, [], 0⟩
  else if s.BufferIsFull cfg then some ⟨.RESULT_READY, s, [], 0⟩
  else
    let u := s.UnblockSinks cfg
    let t := ts.ExecuteTaskInternal u.2
    BatchedBufferedData.ReplenishBuffer.loop ts cfg fuel t.1 t.2 u.1 1

/-- A task system whose every task appends one chunk of size 1 to batch 0 and
reports that the result is not ready. -/
def busyTasks : TaskSystem String :=
  { ExecuteTaskInternal := fun s => (.RESULT_NOT_READY, s.Append ⟨1, "t"⟩ 0)
    IsFinished := fun res => decide (res = .RESULT_READY ∨ res = .EXECUTION_ERROR) }

/-- The call `Append(chunk, batch)` stores its chunk into the entry of batch
`k` of `in_progress_batches` (it takes the `else` branch, with `batch == k`). -/
def Op.storesInto {τ : Type} (k : Nat) (s : BatchedBufferedData τ) : Op τ → Bool
  | .Append _ batch => decide (batch = k) && !decide (batch = s.min_batch)
  | _ => false

/-- No call of the sequence, made from the run `r` on, stores a chunk into the
entry of batch `k`. -/
def Run.noStore {τ : Type} (cfg : BufferSizes) (k : Nat) : Run τ → List (Op τ) → Bool
  | _, [] => true
  | r, op :: ops => !Op.storesInto k r.buf op && Run.noStore cfg k (r.step cfg op) ops

/-- Along the calls `ops` made from the run `r` on, `CompleteBatch(k)` has been
called after the most recent `Append` that stored a chunk into the entry of
batch `k`: some call is `CompleteBatch(k)` and no later call stores into that
entry. -/
def Run.CompletedSince {τ : Type} (cfg : BufferSizes) (k : Nat) (r : Run τ)
    (ops : List (Op τ)) : Prop :=
  ∃ pre post, ops = pre ++ Op.CompleteBatch k :: post ∧
    Run.noStore cfg k (Run.exec cfg r (pre ++ [Op.CompleteBatch k])) post = true

/-- The flag that the entry of batch `k` carries after one call made in state
`s`, if it carried `f` before: a storing `Append` resets it, `CompleteBatch(k)`
sets it, every other call keeps it. -/
def Op.flagAfter {τ : Type} (k : Nat) (s : BatchedBufferedData τ) (f : Bool) : Op τ → Bool
  | .Append _ batch => if batch = k ∧ batch ≠ s.min_batch then false else f
  | .CompleteBatch batch => if batch = k then true else f
  | _ => f

/-- A watermark update far ahead of two batches, the first of which is then
completed. -/
def callsLate : List (Op String) :=
  [.Append ⟨10, "a"⟩ 1, .Append ⟨10, "b"⟩ 2, .UpdateMinBatchIndex 5, .CompleteBatch 1]

/-! ## Delim-join planning (`src/execution/physical_plan/plan_delim_join.cpp`) -/

/-- Modelled from the spec: the `JoinType` enumeration is declared in a missing
header; these are the join types the planner and the spec name, plus `INVALID`. -/
inductive JoinType where
  | INVALID
  | LEFT
  | RIGHT
  | INNER
  | OUTER
  | SEMI
  | ANTI
  | MARK
  | SINGLE
  | RIGHT_SEMI
  | RIGHT_ANTI
deriving DecidableEq, Repr

/-- Modelled from the spec: a logical type, opaque to the planner. -/
inductive LogicalType where
  | INTEGER
  | VARCHAR
  | BOOLEAN
  | OTHER (id : Nat)
deriving DecidableEq, Repr

/-- Modelled from the spec: a bound column reference, a `(type, index)` pair. -/
structure BoundReferenceExpression where
  return_type : LogicalType
  index : Nat
deriving DecidableEq, Repr

/-- Modelled from the spec: the physical operator types the planner and the
spec name (the enumeration is declared in a missing header). -/
inductive PhysicalOperatorType where
  | DELIM_SCAN
  | CROSS_PRODUCT
  | HASH_JOIN
  | HASH_GROUP_BY
  | LEFT_DELIM_JOIN
  | RIGHT_DELIM_JOIN
  | TABLE_SCAN
  | PROJECTION
deriving DecidableEq, Repr

/-- Modelled from the spec: a physical operator tree, as far as the planner
looks at it: the operator type, the output types, the estimated cardinality and
the children. -/
inductive PhysicalOperator where
  | mk (type : PhysicalOperatorType) (types : List LogicalType) (estimated_cardinality : Nat)
      (children : List PhysicalOperator)
deriving Repr

/-- The member `op.type`. -/
def PhysicalOperator.type : PhysicalOperator → PhysicalOperatorType
  | .mk type _ _ _ => type

/-- The member `op.children`. -/
def PhysicalOperator.children : PhysicalOperator → List PhysicalOperator
  | .mk _ _ _ children => children

/-- Modelled from the spec: a logical operator below the join, opaque to the
planner. -/
structure LogicalOperator where
  id : Nat
deriving DecidableEq, Repr

/-- Modelled from the spec: the logical comparison join handed to the planner
(declared in a missing header): join type, children, duplicate-eliminated
columns (each a bound column reference), output types and estimated
cardinality. -/
structure LogicalComparisonJoin where
  join_type : JoinType
  children : List LogicalOperator
  duplicate_eliminated_columns : List BoundReferenceExpression
  types : List LogicalType
  estimated_cardinality : Nat
deriving DecidableEq, Repr

/-- Modelled from the spec: `LogicalJoin::FlipChildren(op, type)` is defined
outside the sources; it flips the two children and sets the join type. -/
def LogicalJoin.FlipChildren (op : LogicalComparisonJoin) (inverse : JoinType) :
    LogicalComparisonJoin :=
  { op with
    children := match op.children with
      | left :: right :: rest => right :: left :: rest
      | other => other
    join_type := inverse }

/-- Modelled from the spec: the hash aggregate built as the distinct producer
(`PhysicalHashAggregate(context, types, expressions, groups, cardinality)`). -/
structure PhysicalHashAggregate where
  types : List LogicalType
  expressions : List BoundReferenceExpression
  groups : List BoundReferenceExpression
  estimated_cardinality : Nat
deriving DecidableEq, Repr

/-- Modelled from the spec: a physical delim-join node
(`PhysicalLeftDelimJoin` / `PhysicalRightDelimJoin (types, join, delim_scans,
cardinality)` with its member `distinct`): it carries the join plan, the
delim-scans found in it and the distinct producer. -/
structure PhysicalDelimJoin where
  types : List LogicalType
  join : PhysicalOperator
  delim_scans : List PhysicalOperator
  estimated_cardinality : Nat
  distinct : PhysicalHashAggregate
deriving Repr

/-- What the planner returns: the plain join plan, or a left or right
delim-join node wrapping it. -/
inductive PlannedJoin where
  | plain (plan : PhysicalOperator)
  | LeftDelimJoin (node : PhysicalDelimJoin)
  | RightDelimJoin (node : PhysicalDelimJoin)
deriving Repr

/-- The exceptions of the planner: `NotImplementedException` of `PlanDelimJoin`,
and the internal exception of a checked `children[i]` out of range. -/
inductive PlanError where
  | NotImplemented (join_type : JoinType)
  | IndexOutOfRange (index : Nat)
deriving DecidableEq, Repr

/-- Modelled from the spec: the part of `PhysicalPlanGenerator` that the delim
join planner calls, `PlanComparisonJoin`, whose code is outside the sources. -/
structure PhysicalPlanGenerator where
  PlanComparisonJoin : LogicalComparisonJoin → PhysicalOperator

mutual
/-- `GatherDelimScans(op, delim_scans)`: returns the list after the call. -/
def GatherDelimScans : PhysicalOperator → List PhysicalOperator → List PhysicalOperator
  | .mk type types estimated_cardinality children, delim_scans =>
    GatherDelimScans.loop children
      (if type = PhysicalOperatorType.DELIM_SCAN then
        delim_scans ++ [PhysicalOperator.mk type types estimated_cardinality children]
      else delim_scans)
/-- The loop `for (auto &child : op.children)` of `GatherDelimScans`. -/
def GatherDelimScans.loop : List PhysicalOperator → List PhysicalOperator → List PhysicalOperator
  | [], delim_scans => delim_scans
  | child :: rest, delim_scans => GatherDelimScans.loop rest (GatherDelimScans child delim_scans)
end

mutual
/-- The operators of a tree in pre-order: a node before its children, the
children left to right. -/
def PhysicalOperator.preorder : PhysicalOperator → List PhysicalOperator
  | .mk type types estimated_cardinality children =>
    PhysicalOperator.mk type types estimated_cardinality children ::
      PhysicalOperator.preorderAll children
/-- The operators of a list of trees in pre-order, tree after tree. -/
def PhysicalOperator.preorderAll : List PhysicalOperator → List PhysicalOperator
  | [] => []
  | child :: rest => child.preorder ++ PhysicalOperator.preorderAll rest
end

/-- The loop over `op.duplicate_eliminated_columns` in `PlanLeftDelimJoin` and
`PlanRightDelimJoin`: returns `delim_types` and `distinct_groups`. -/
def PhysicalPlanGenerator.distinctGroups :
    List BoundReferenceExpression → List LogicalType → List BoundReferenceExpression →
      List LogicalType × List BoundReferenceExpression
  | [], delim_types, distinct_groups => (delim_types, distinct_groups)
  | bound_ref :: rest, delim_types, distinct_groups =>
    distinctGroups rest (delim_types ++ [bound_ref.return_type])
      (distinct_groups ++ [⟨bound_ref.return_type, bound_ref.index⟩])

/-- The part common to `PlanLeftDelimJoin` and `PlanRightDelimJoin` after the
delim-scans have been gathered: builds the delim-join node and its distinct
producer. -/
def PhysicalPlanGenerator.delimJoinNode (op : LogicalComparisonJoin) (plan : PhysicalOperator)
    (delim_scans : List PhysicalOperator) : PhysicalDelimJoin :=
  let r := PhysicalPlanGenerator.distinctGroups op.duplicate_eliminated_columns [] []
  { types := op.types
    join := plan
    delim_scans := delim_scans
    estimated_cardinality := op.estimated_cardinality
    distinct :=
      { types := r.1, expressions := [], groups := r.2,
        estimated_cardinality := op.estimated_cardinality } }

/-- `PhysicalPlanGenerator::PlanLeftDelimJoin(op)`. -/
def PhysicalPlanGenerator.PlanLeftDelimJoin (gen : PhysicalPlanGenerator)
    (op : LogicalComparisonJoin) : Except PlanError PlannedJoin :=
  let plan := gen.PlanComparisonJoin op
  match plan.children[1]? with
  | none => .error (.IndexOutOfRange 1)
  | some child =>
    let delim_scans := GatherDelimScans child []
    if delim_scans.isEmpty then .ok (.plain plan)
    else .ok (.LeftDelimJoin (PhysicalPlanGenerator.delimJoinNode op plan delim_scans))

/-- `PhysicalPlanGenerator::PlanRightDelimJoin(op)`. -/
def PhysicalPlanGenerator.PlanRightDelimJoin (gen : PhysicalPlanGenerator)
    (op : LogicalComparisonJoin) : Except PlanError PlannedJoin :=
  let plan := gen.PlanComparisonJoin op
  match plan.children[0]? with
  | none => .error (.IndexOutOfRange 0)
  | some child =>
    let delim_scans := GatherDelimScans child []
    if delim_scans.isEmpty then .ok (.plain plan)
    else .ok (.RightDelimJoin (PhysicalPlanGenerator.delimJoinNode op plan delim_scans))

/-- `PhysicalPlanGenerator::PlanDelimJoin(op)`. -/
def PhysicalPlanGenerator.PlanDelimJoin (gen : PhysicalPlanGenerator)
    (op : LogicalComparisonJoin) : Except PlanError PlannedJoin :=
  match op.join_type with
  | .SINGLE => gen.PlanLeftDelimJoin op
  | .MARK => gen.PlanLeftDelimJoin op
  | .INNER => gen.PlanRightDelimJoin (LogicalJoin.FlipChildren op op.join_type)
  | .OUTER => gen.PlanRightDelimJoin (LogicalJoin.FlipChildren op op.join_type)
  | .LEFT => gen.PlanRightDelimJoin (LogicalJoin.FlipChildren op .RIGHT)
  | .RIGHT => gen.PlanRightDelimJoin (LogicalJoin.FlipChildren op .LEFT)
  | .SEMI => gen.PlanRightDelimJoin (LogicalJoin.FlipChildren op .RIGHT_SEMI)
  | .ANTI => gen.PlanRightDelimJoin (LogicalJoin.FlipChildren op .RIGHT_ANTI)
  | other => .error (.NotImplemented other)

/-- A delim-scan placeholder. -/
def exampleDelimScan : PhysicalOperator := .mk .DELIM_SCAN [.INTEGER] 10 []

/-- A plain table scan. -/
def exampleTableScan : PhysicalOperator := .mk .TABLE_SCAN [.INTEGER] 100 []

/-- Scenario S5: a plan generator whose comparison join is a hash join with a
delim-scan (under a projection) in its left subtree. -/
def generatorS5 : PhysicalPlanGenerator :=
  { PlanComparisonJoin := fun op =>
      .mk .HASH_JOIN op.types op.estimated_cardinality
        [.mk .PROJECTION [.INTEGER] 10 [exampleDelimScan], exampleTableScan] }

/-- Scenario S6: a plan generator whose comparison join has no delim-scan. -/
def generatorS6 : PhysicalPlanGenerator :=
  { PlanComparisonJoin := fun op =>
      .mk .HASH_JOIN op.types op.estimated_cardinality [exampleTableScan, exampleTableScan] }

/-- Scenarios S5 and S6: a `SEMI` join with one duplicate-eliminated column
`(INTEGER, 0)`. -/
def joinS5 : LogicalComparisonJoin :=
  { join_type := .SEMI, children := [⟨1⟩, ⟨2⟩],
    duplicate_eliminated_columns := [⟨.INTEGER, 0⟩], types := [.INTEGER, .VARCHAR],
    estimated_cardinality := 42 }

/-! ## Result-modifier serialization
(`src/storage/serialization/serialize_result_modifier.cpp`) -/

/-- Modelled from the spec: a parsed expression, opaque to the result
modifiers. -/
structure ParsedExpression where
  id : Nat
deriving DecidableEq, Repr

/-- Modelled from the spec: an order spec of an `ORDER` modifier (order type,
null order and the expression ordered by). -/
structure OrderByNode where
  order_type : Nat
  null_order : Nat
  expression : ParsedExpression
deriving DecidableEq, Repr

/-- Modelled from the spec: the `type` tag of a result modifier, drawn from the
closed enumeration `DISTINCT`, `LIMIT`, `LIMIT_PERCENT`, `ORDER` (declared in a
missing header); `UNKNOWN` stands for any other tag value found in a stream. -/
inductive ResultModifierType where
  | LIMIT_MODIFIER
  | ORDER_MODIFIER
  | DISTINCT_MODIFIER
  | LIMIT_PERCENT_MODIFIER
  | UNKNOWN (raw : Nat)
deriving DecidableEq, Repr

/-- Modelled from the spec: `LimitModifier` carries optional `limit` and `offset`. -/
structure LimitModifier where
  limit : Option ParsedExpression
  offset : Option ParsedExpression
deriving DecidableEq, Repr

/-- Modelled from the spec: `DistinctModifier` carries a list of targets. -/
structure DistinctModifier where
  distinct_on_targets : List ParsedExpression
deriving DecidableEq, Repr

/-- Modelled from the spec: `OrderModifier` carries a list of order specs. -/
structure OrderModifier where
  orders : List OrderByNode
deriving DecidableEq, Repr

/-- Modelled from the spec: `LimitPercentModifier` carries optional `limit` and
`offset`. -/
structure LimitPercentModifier where
  limit : Option ParsedExpression
  offset : Option ParsedExpression
deriving DecidableEq, Repr

/-- Modelled from the spec: a result modifier is of one of the four kinds (the
subclasses of `ResultModifier`, declared in a missing header). -/
inductive ResultModifier where
  | Limit (m : LimitModifier)
  | Order (m : OrderModifier)
  | Distinct (m : DistinctModifier)
  | LimitPercent (m : LimitPercentModifier)
deriving DecidableEq, Repr

/-- The member `type`, set by the constructor of each subclass. -/
def ResultModifier.type : ResultModifier → ResultModifierType
  | .Limit _ => .LIMIT_MODIFIER
  | .Order _ => .ORDER_MODIFIER
  | .Distinct _ => .DISTINCT_MODIFIER
  | .LimitPercent _ => .LIMIT_PERCENT_MODIFIER

/-- Modelled from the spec: the values a property of a result modifier holds in
the serialized form. -/
inductive PropertyValue where
  | modifierType (t : ResultModifierType)
  | optionalExpression (e : Option ParsedExpression)
  | expressions (l : List ParsedExpression)
  | orders (l : List OrderByNode)
deriving DecidableEq, Repr

/-- Modelled from the spec: a named property of the serialized form. -/
structure Property where
  name : String
  value : PropertyValue
deriving DecidableEq, Repr

/-- Modelled from the spec: the serialized form written so far
(`FormatSerializer`, defined outside the sources): the properties in the order
they were written. -/
abbrev FormatSerializer := List Property

/-- Modelled from the spec: the serialized form still to be read
(`FormatDeserializer`, defined outside the sources). -/
abbrev FormatDeserializer := List Property

/-- The exceptions of deserialization: an unsupported `type` tag, or a property
that is missing or of the wrong kind. -/
inductive SerializationError where
  | UnsupportedType
  | MissingProperty (name : String)
deriving DecidableEq, Repr

/-- Modelled from the spec: `serializer.WriteProperty(name, value)` and
`WriteOptionalProperty` append the named property. -/
def FormatSerializer.WriteProperty (serializer : FormatSerializer) (name : String)
    (value : PropertyValue) : FormatSerializer :=
  serializer ++ [⟨name, value⟩]

/-- Modelled from the spec: `deserializer.ReadProperty(name)` and
`ReadOptionalProperty` take the next property, which must carry that name. -/
def FormatDeserializer.ReadProperty (deserializer : FormatDeserializer) (name : String) :
    Except SerializationError (PropertyValue × FormatDeserializer) :=
  match deserializer with
  | p :: rest => if p.name = name then .ok (p.value, rest) else .error (.MissingProperty name)
  | [] => .error (.MissingProperty name)

/-- `ResultModifier::FormatSerialize(serializer)`, the base-class part. -/
def ResultModifier.FormatSerializeBase (type : ResultModifierType)
    (serializer : FormatSerializer) : FormatSerializer :=
  serializer.WriteProperty "type" (.modifierType type)

/-- `LimitModifier::FormatSerialize(serializer)`. -/
def LimitModifier.FormatSerialize (m : LimitModifier) (serializer : FormatSerializer) :
    FormatSerializer :=
  ((ResultModifier.FormatSerializeBase .LIMIT_MODIFIER serializer).WriteProperty "limit"
    (.optionalExpression m.limit)).WriteProperty "offset" (.optionalExpression m.offset)

/-- `LimitModifier::FormatDeserialize(deserializer)`. -/
def LimitModifier.FormatDeserialize (deserializer : FormatDeserializer) :
    Except SerializationError (ResultModifier × FormatDeserializer) :=
  match deserializer.ReadProperty "limit" with
  | .ok (.optionalExpression limit, d1) =>
    match d1.ReadProperty "offset" with
    | .ok (.optionalExpression offset, d2) => .ok (.Limit ⟨limit, offset⟩, d2)
    | .ok _ => .error (.MissingProperty "offset")
    | .error e => .error e
  | .ok _ => .error (.MissingProperty "limit")
  | .error e => .error e

/-- `DistinctModifier::FormatSerialize(serializer)`. -/
def DistinctModifier.FormatSerialize (m : DistinctModifier) (serializer : FormatSerializer) :
    FormatSerializer :=
  (ResultModifier.FormatSerializeBase .DISTINCT_MODIFIER serializer).WriteProperty
    "distinct_on_targets" (.expressions m.distinct_on_targets)

/-- `DistinctModifier::FormatDeserialize(deserializer)`. -/
def DistinctModifier.FormatDeserialize (deserializer : FormatDeserializer) :
    Except SerializationError (ResultModifier × FormatDeserializer) :=
  match deserializer.ReadProperty "distinct_on_targets" with
  | .ok (.expressions targets, d1) => .ok (.Distinct ⟨targets⟩, d1)
  | .ok _ => .error (.MissingProperty "distinct_on_targets")
  | .error e => .error e

/-- `OrderModifier::FormatSerialize(serializer)`. -/
def OrderModifier.FormatSerialize (m : OrderModifier) (serializer : FormatSerializer) :
    FormatSerializer :=
  (ResultModifier.FormatSerializeBase .ORDER_MODIFIER serializer).WriteProperty "orders"
    (.orders m.orders)

/-- `OrderModifier::FormatDeserialize(deserializer)`. -/
def OrderModifier.FormatDeserialize (deserializer : FormatDeserializer) :
    Except SerializationError (ResultModifier × FormatDeserializer) :=
  match deserializer.ReadProperty "orders" with
  | .ok (.orders orders, d1) => .ok (.Order ⟨orders⟩, d1)
  | .ok _ => .error (.MissingProperty "orders")
  | .error e => .error e

/-- `LimitPercentModifier::FormatSerialize(serializer)`. -/
def LimitPercentModifier.FormatSerialize (m : LimitPercentModifier)
    (serializer : FormatSerializer) : FormatSerializer :=
  ((ResultModifier.FormatSerializeBase .LIMIT_PERCENT_MODIFIER serializer).WriteProperty "limit"
    (.optionalExpression m.limit)).WriteProperty "offset" (.optionalExpression m.offset)

/-- `LimitPercentModifier::FormatDeserialize(deserializer)`. -/
def LimitPercentModifier.FormatDeserialize (deserializer : FormatDeserializer) :
    Except SerializationError (ResultModifier × FormatDeserializer) :=
  match deserializer.ReadProperty "limit" with
  | .ok (.optionalExpression limit, d1) =>
    match d1.ReadProperty "offset" with
    | .ok (.optionalExpression offset, d2) => .ok (.LimitPercent ⟨limit, offset⟩, d2)
    | .ok _ => .error (.MissingProperty "offset")
    | .error e => .error e
  | .ok _ => .error (.MissingProperty "limit")
  | .error e => .error e

/-- The virtual call `m.FormatSerialize(serializer)`. -/
def ResultModifier.FormatSerialize (m : ResultModifier) (serializer : FormatSerializer) :
    FormatSerializer :=
  match m with
  | .Limit l => l.FormatSerialize serializer
  | .Order o => o.FormatSerialize serializer
  | .Distinct d => d.FormatSerialize serializer
  | .LimitPercent l => l.FormatSerialize serializer

/-- `ResultModifier::FormatDeserialize(deserializer)`. -/
def ResultModifier.FormatDeserialize (deserializer : FormatDeserializer) :
    Except SerializationError (ResultModifier × FormatDeserializer) :=
  match deserializer.ReadProperty "type" with
  | .ok (.modifierType type, d1) =>
    match type with
    | .DISTINCT_MODIFIER => DistinctModifier.FormatDeserialize d1
    | .LIMIT_MODIFIER => LimitModifier.FormatDeserialize d1
    | .LIMIT_PERCENT_MODIFIER => LimitPercentModifier.FormatDeserialize d1
    | .ORDER_MODIFIER => OrderModifier.FormatDeserialize d1
    | _ => .error .UnsupportedType
  | .ok _ => .error (.MissingProperty "type")
  | .error e => .error e

/-- Two appends to the current batch whose sizes add up to `2 ^ 64`. -/
def callsOverflow : List (Op String) :=
  [.Append ⟨18446744073709551615, "big"⟩ 0, .Append ⟨1, "one"⟩ 0]

/-- A plan generator whose comparison join is a hash join with a delim-scan
(under a projection) in its right subtree. -/
def generatorRight : PhysicalPlanGenerator :=
  { PlanComparisonJoin := fun op =>
      .mk .HASH_JOIN op.types op.estimated_cardinality
        [exampleTableScan, .mk .PROJECTION [.INTEGER] 10 [exampleDelimScan]] }

/-- A `SINGLE` join with one duplicate-eliminated column `(INTEGER, 0)`. -/
def joinSingle : LogicalComparisonJoin :=
  { join_type := .SINGLE, children := [⟨1⟩, ⟨2⟩],
    duplicate_eliminated_columns := [⟨.INTEGER, 0⟩], types := [.INTEGER, .VARCHAR],
    estimated_cardinality := 42 }

/-- A projection over a delim-scan placeholder. -/
def exampleProjection : PhysicalOperator := .mk .PROJECTION [.INTEGER] 10 [exampleDelimScan]

/-! ## Theorems -/

/-! ### Machine arithmetic -/

theorem idxAdd_mod (x b : Nat) : idxAdd (x % IDX_MOD) b = (x + b) % IDX_MOD := by
  unfold idxAdd IDX_MOD; omega

theorem idxSub_mod (x b : Nat) : idxSub ((x + b) % IDX_MOD) b = x % IDX_MOD := by
  unfold idxSub IDX_MOD; omega

theorem idxSub_mod_left (x b : Nat) : idxSub ((b + x) % IDX_MOD) b = x % IDX_MOD := by
  unfold idxSub IDX_MOD; omega

theorem idxAdd_congr (a t u : Nat) (h : t % IDX_MOD = u % IDX_MOD) : idxAdd a t = idxAdd a u := by
  unfold idxAdd IDX_MOD at *; omega

theorem idxSub_congr (a t u : Nat) (h : t % IDX_MOD = u % IDX_MOD) : idxSub a t = idxSub a u := by
  unfold idxSub; rw [h]

theorem idxSub_exact (a b : Nat) (ha : a < IDX_MOD) (hb : b ≤ a) : idxSub a b = a - b := by
  unfold idxSub IDX_MOD at *; omega

/-! ### The ordered map -/

namespace StdMap

variable {V : Type}

theorem WF_cons {k : Nat} {v : V} {m : StdMap V} :
    WF ((k, v) :: m) ↔ (∀ k2 ∈ keys m, k < k2) ∧ WF m := by
  simp [WF, keys]

theorem WF_nil : WF ([] : StdMap V) := by simp [WF, keys]

theorem mem_keys_of_mem {k : Nat} {v : V} {m : StdMap V} (h : (k, v) ∈ m) : k ∈ keys m :=
  List.mem_map.2 ⟨(k, v), h, rfl⟩

theorem mem_assign {key : Nat} {v : V} {m : StdMap V} {e : Nat × V}
    (h : e ∈ assign key v m) : e = (key, v) ∨ e ∈ m := by
  induction m with
  | nil => simpa [assign] using h
  | cons a rest ih =>
    obtain ⟨k, w⟩ := a
    unfold assign at h
    split_ifs at h with h1 h2
    · simpa using h
    · rcases List.mem_cons.1 h with h | h
      · left; rw [h, h2]
      · right; exact List.mem_cons_of_mem _ h
    · rcases List.mem_cons.1 h with h | h
      · right; rw [h]; exact List.mem_cons_self _ _
      · rcases ih h with h | h
        · left; exact h
        · right; exact List.mem_cons_of_mem _ h

theorem mem_keys_assign {key : Nat} {v : V} {m : StdMap V} {k : Nat}
    (h : k ∈ keys (assign key v m)) : k = key ∨ k ∈ keys m := by
  obtain ⟨e, he, rfl⟩ := List.mem_map.1 h
  rcases mem_assign he with h | h
  · left; rw [h]
  · right; exact List.mem_map.2 ⟨e, h, rfl⟩

theorem WF_assign {key : Nat} {v : V} {m : StdMap V} (h : WF m) : WF (assign key v m) := by
  induction m with
  | nil => simp [assign, WF, keys]
  | cons a rest ih =>
    obtain ⟨k, w⟩ := a
    rw [WF_cons] at h
    unfold assign
    split_ifs with h1 h2
    · rw [WF_cons]
      refine ⟨?_, WF_cons.2 h⟩
      intro k2 hk2
      rcases List.mem_cons.1 hk2 with h3 | h3
      · rw [h3]; exact h1
      · exact lt_trans h1 (h.1 k2 h3)
    · rw [WF_cons]; exact h
    · rw [WF_cons]
      refine ⟨?_, ih h.2⟩
      intro k2 hk2
      rcases mem_keys_assign hk2 with h3 | h3
      · omega
      · exact h.1 k2 h3

theorem mem_of_mem_erase {key : Nat} {m : StdMap V} {e : Nat × V} (h : e ∈ erase key m) :
    e ∈ m := by
  induction m with
  | nil => simp [erase] at h
  | cons a rest ih =>
    obtain ⟨k, w⟩ := a
    unfold erase at h
    split_ifs at h with h1
    · exact List.mem_cons_of_mem _ h
    · rcases List.mem_cons.1 h with h | h
      · rw [h]; exact List.mem_cons_self _ _
      · exact List.mem_cons_of_mem _ (ih h)

theorem find_eq_none {key : Nat} {m : StdMap V} : find key m = none ↔ key ∉ keys m := by
  induction m with
  | nil => simp [find, keys]
  | cons a rest ih =>
    obtain ⟨k, w⟩ := a
    unfold find
    split_ifs with h1
    · simp [keys, h1]
    · rw [ih]
      simp only [keys, List.map_cons, List.mem_cons, not_or]
      constructor
      · intro h; exact ⟨fun h2 => h1 h2.symm, h⟩
      · intro h; exact h.2

theorem mem_of_find {key : Nat} {v : V} {m : StdMap V} (h : find key m = some v) :
    (key, v) ∈ m := by
  induction m with
  | nil => simp [find] at h
  | cons a rest ih =>
    obtain ⟨k, w⟩ := a
    unfold find at h
    split_ifs at h with h1
    · simp only [Option.some.injEq] at h
      rw [← h, ← h1]; exact List.mem_cons_self _ _
    · exact List.mem_cons_of_mem _ (ih h)

/-- Shape of a well-formed map after an assignment: the entry at `key` is the
new one, everything else is as before. -/
theorem assign_decomp (key : Nat) (v : V) {m : StdMap V} (h : WF m) :
    ∃ pre post, assign key v m = pre ++ (key, v) :: post ∧
      ((find key m = none ∧ m = pre ++ post) ∨
        ∃ w, find key m = some w ∧ m = pre ++ (key, w) :: post) := by
  induction m with
  | nil => exact ⟨[], [], by simp [assign], Or.inl ⟨by simp [find], by simp⟩⟩
  | cons a rest ih =>
    obtain ⟨k, w⟩ := a
    rw [WF_cons] at h
    by_cases h1 : key < k
    · refine ⟨[], (k, w) :: rest, by simp [assign, h1], Or.inl ⟨?_, by simp⟩⟩
      rw [find_eq_none]
      simp only [keys, List.map_cons, List.mem_cons, not_or]
      refine ⟨by omega, fun h2 => ?_⟩
      have := h.1 key h2
      omega
    · by_cases h2 : key = k
      · subst h2
        exact ⟨[], rest, by simp [assign], Or.inr ⟨w, by simp [find], by simp⟩⟩
      · obtain ⟨pre, post, e1, e2⟩ := ih h.2
        refine ⟨(k, w) :: pre, post, by simp [assign, h1, h2, e1], ?_⟩
        have h3 : ¬ k = key := fun h => h2 h.symm
        rcases e2 with ⟨e2, e3⟩ | ⟨w2, e2, e3⟩
        · exact Or.inl ⟨by simp [find, h3, e2], by simp [e3]⟩
        · exact Or.inr ⟨w2, by simp [find, h3, e2], by simp [e3]⟩

theorem erase_mid {k : Nat} {v : V} {pre post : StdMap V} (h : WF (pre ++ (k, v) :: post)) :
    erase k (pre ++ (k, v) :: post) = pre ++ post := by
  induction pre with
  | nil => simp [erase]
  | cons a rest ih =>
    obtain ⟨k2, w⟩ := a
    rw [List.cons_append, WF_cons] at h
    have h1 : k2 < k := h.1 k (by simp [keys])
    have h2 : ¬ k2 = k := by omega
    simp [erase, h2, ih h.2]

theorem WF_append_left {pre post : StdMap V} (h : WF (pre ++ post)) : WF pre := by
  unfold WF keys at *
  rw [List.map_append, List.pairwise_append] at h
  exact h.1

theorem WF_append_right {pre post : StdMap V} (h : WF (pre ++ post)) : WF post := by
  unfold WF keys at *
  rw [List.map_append, List.pairwise_append] at h
  exact h.2.1

theorem WF_drop_mid {e : Nat × V} {pre post : StdMap V} (h : WF (pre ++ e :: post)) :
    WF (pre ++ post) := by
  unfold WF keys at *
  refine List.Pairwise.sublist ?_ h
  exact List.Sublist.map _ (List.Sublist.append (List.Sublist.refl _) (List.sublist_cons_self _ _))

/-- Erasing the keys of a prefix, last key first, leaves the rest of the map. -/
theorem eraseAll_prefix (pre post : StdMap V) (h : WF (pre ++ post)) :
    eraseAll (keys pre).reverse (pre ++ post) = post := by
  induction pre using List.reverseRecOn with
  | nil => simp [keys, eraseAll]
  | append_singleton pre a ih =>
    obtain ⟨k, v⟩ := a
    have h2 : WF (pre ++ (k, v) :: post) := by simpa using h
    simp only [keys, List.map_append, List.map_cons, List.map_nil, List.reverse_append,
      List.reverse_cons, List.reverse_nil, List.nil_append, List.singleton_append, eraseAll,
      List.append_assoc]
    rw [erase_mid h2]
    exact ih (WF_drop_mid h2)

theorem mem_emplace {key : Nat} {v : V} {m : StdMap V} {e : Nat × V}
    (h : e ∈ emplace key v m) : e = (key, v) ∨ e ∈ m := by
  induction m with
  | nil => simpa [emplace] using h
  | cons a rest ih =>
    obtain ⟨k, w⟩ := a
    unfold emplace at h
    split_ifs at h with h1 h2
    · simpa using h
    · exact Or.inr h
    · rcases List.mem_cons.1 h with h | h
      · right; rw [h]; exact List.mem_cons_self _ _
      · rcases ih h with h | h
        · left; exact h
        · right; exact List.mem_cons_of_mem _ h

theorem WF_emplace {key : Nat} {v : V} {m : StdMap V} (h : WF m) : WF (emplace key v m) := by
  induction m with
  | nil => simp [emplace, WF, keys]
  | cons a rest ih =>
    obtain ⟨k, w⟩ := a
    have h0 := h
    rw [WF_cons] at h
    unfold emplace
    split_ifs with h1 h2
    · rw [WF_cons]
      refine ⟨?_, h0⟩
      intro k2 hk2
      rcases List.mem_cons.1 hk2 with h3 | h3
      · rw [h3]; exact h1
      · exact lt_trans h1 (h.1 k2 h3)
    · exact h0
    · rw [WF_cons]
      refine ⟨?_, ih h.2⟩
      intro k2 hk2
      obtain ⟨e, he, rfl⟩ := List.mem_map.1 hk2
      rcases mem_emplace he with h3 | h3
      · rw [h3]; simp only; omega
      · exact h.1 _ (List.mem_map.2 ⟨e, h3, rfl⟩)

theorem erase_sublist (key : Nat) (m : StdMap V) : (erase key m).Sublist m := by
  induction m with
  | nil => simp [erase]
  | cons a rest ih =>
    obtain ⟨k, w⟩ := a
    unfold erase
    split_ifs with h1
    · exact List.sublist_cons_self _ _
    · exact List.Sublist.cons₂ _ ih

theorem eraseAll_sublist (ks : List Nat) (m : StdMap V) : (eraseAll ks m).Sublist m := by
  induction ks generalizing m with
  | nil => simp [eraseAll]
  | cons k rest ih => exact (ih _).trans (erase_sublist k m)

theorem WF_of_sublist {m1 m2 : StdMap V} (hs : m1.Sublist m2) (h : WF m2) : WF m1 := by
  unfold WF keys at *
  exact List.Pairwise.sublist (List.Sublist.map _ hs) h

theorem find_assign (key : Nat) (v : V) (m : StdMap V) : find key (assign key v m) = some v := by
  induction m with
  | nil => simp [assign, find]
  | cons a rest ih =>
    obtain ⟨k, w⟩ := a
    unfold assign
    split_ifs with h1 h2
    · simp [find]
    · simp [find, h2]
    · have h3 : ¬ k = key := fun h => h2 h.symm
      simp [find, h3, ih]

end StdMap

/-! ### Sums and chunk lists -/

section sums

variable {τ : Type}

@[simp] theorem sizes_nil : sizes ([] : List (DataChunk τ)) = 0 := rfl

@[simp] theorem sizes_cons (c : DataChunk τ) (l : List (DataChunk τ)) :
    sizes (c :: l) = c.size + sizes l := by
  simp [sizes]

@[simp] theorem sizes_append (l1 l2 : List (DataChunk τ)) :
    sizes (l1 ++ l2) = sizes l1 + sizes l2 := by
  simp [sizes]

@[simp] theorem inProgressChunks_nil : inProgressChunks ([] : StdMap (InProgressBatch τ)) = [] := rfl

@[simp] theorem inProgressChunks_cons (e : Nat × InProgressBatch τ)
    (m : StdMap (InProgressBatch τ)) :
    inProgressChunks (e :: m) = e.2.chunks ++ inProgressChunks m := by
  simp [inProgressChunks]

@[simp] theorem inProgressChunks_append (m1 m2 : StdMap (InProgressBatch τ)) :
    inProgressChunks (m1 ++ m2) = inProgressChunks m1 ++ inProgressChunks m2 := by
  simp [inProgressChunks]

theorem sizes_perm {l1 l2 : List (DataChunk τ)} (h : l1.Perm l2) : sizes l1 = sizes l2 := by
  unfold sizes
  exact (h.map _).sum_eq

end sums

/-! ### `UpdateMinBatchIndex` -/

namespace BatchedBufferedData

variable {τ : Type}

theorem moveChunks_snd (l : List (DataChunk τ)) (tc : Nat) (b : List (DataChunk τ)) :
    (UpdateMinBatchIndex.moveChunks l tc b).2 = b ++ l := by
  induction l generalizing tc b with
  | nil => simp [UpdateMinBatchIndex.moveChunks]
  | cons c rest ih => simp [UpdateMinBatchIndex.moveChunks, ih]

theorem moveChunks_fst (l : List (DataChunk τ)) (tc : Nat) (b : List (DataChunk τ)) :
    (UpdateMinBatchIndex.moveChunks l tc b).1 % IDX_MOD = (tc + sizes l) % IDX_MOD := by
  induction l generalizing tc b with
  | nil => simp [UpdateMinBatchIndex.moveChunks]
  | cons c rest ih =>
    simp only [UpdateMinBatchIndex.moveChunks, ih, sizes_cons]
    unfold idxAdd IDX_MOD
    omega

/-- What the walk of `UpdateMinBatchIndex` leaves alone, and what it promotes:
exactly the longest prefix of promotable entries. -/
theorem walk_frame (m : StdMap (InProgressBatch τ)) (s : BatchedBufferedData τ)
    (tr : List Nat) :
    (UpdateMinBatchIndex.walk m s tr).1.min_batch = s.min_batch ∧
    (UpdateMinBatchIndex.walk m s tr).1.in_progress_batches = s.in_progress_batches ∧
    (UpdateMinBatchIndex.walk m s tr).1.blocked_sinks = s.blocked_sinks ∧
    (UpdateMinBatchIndex.walk m s tr).1.context = s.context ∧
    (UpdateMinBatchIndex.walk m s tr).1.batches =
      s.batches ++ inProgressChunks (m.takeWhile (promotable s.min_batch)) ∧
    (UpdateMinBatchIndex.walk m s tr).2 =
      (StdMap.keys (m.takeWhile (promotable s.min_batch))).reverse ++ tr := by
  induction m generalizing s tr with
  | nil => simp [UpdateMinBatchIndex.walk, StdMap.keys]
  | cons a rest ih =>
    obtain ⟨batch, bc⟩ := a
    unfold UpdateMinBatchIndex.walk
    split_ifs with h1 h2
    · have hp : promotable s.min_batch (batch, bc) = false := by
        simp [promotable]; omega
      simp [List.takeWhile, hp, StdMap.keys]
    · have hp : promotable s.min_batch (batch, bc) = false := by
        simp [promotable, h2.1, h2.2]
      simp [List.takeWhile, hp, StdMap.keys]
    · have hp : promotable s.min_batch (batch, bc) = true := by
        simp only [promotable, Bool.and_eq_true, Bool.or_eq_true, decide_eq_true_eq]
        refine ⟨by omega, ?_⟩
        by_cases h3 : batch = s.min_batch
        · exact Or.inl h3
        · right
          cases hc : bc.completed
          · exact absurd ⟨h3, hc⟩ h2
          · rfl
      obtain ⟨i1, i2, i3, i4, i5, i6⟩ := ih
        { s with batches := (UpdateMinBatchIndex.moveChunks bc.chunks 0 s.batches).2
                 other_batches_tuple_count :=
                   idxSub s.other_batches_tuple_count
                     (UpdateMinBatchIndex.moveChunks bc.chunks 0 s.batches).1
                 current_batch_tuple_count :=
                   idxAdd s.current_batch_tuple_count
                     (UpdateMinBatchIndex.moveChunks bc.chunks 0 s.batches).1 }
        (batch :: tr)
      refine ⟨i1, i2, i3, i4, ?_, ?_⟩
      · rw [i5]
        simp [List.takeWhile, hp, moveChunks_snd]
      · rw [i6]
        simp [List.takeWhile, hp, StdMap.keys]

/-- The counters after the walk of `UpdateMinBatchIndex`, in 64-bit arithmetic:
the promoted sizes move from the counter of the other batches to the counter
of the current batch. -/
theorem walk_counts (m : StdMap (InProgressBatch τ)) (s : BatchedBufferedData τ)
    (tr : List Nat) (A B : Nat)
    (hc : s.current_batch_tuple_count = A % IDX_MOD)
    (ho : s.other_batches_tuple_count =
      (B + sizes (inProgressChunks (m.takeWhile (promotable s.min_batch)))) % IDX_MOD) :
    (UpdateMinBatchIndex.walk m s tr).1.current_batch_tuple_count =
      (A + sizes (inProgressChunks (m.takeWhile (promotable s.min_batch)))) % IDX_MOD ∧
    (UpdateMinBatchIndex.walk m s tr).1.other_batches_tuple_count = B % IDX_MOD := by
  induction m generalizing s tr A B with
  | nil => simpa [UpdateMinBatchIndex.walk] using ⟨hc, ho⟩
  | cons a rest ih =>
    obtain ⟨batch, bc⟩ := a
    unfold UpdateMinBatchIndex.walk
    split_ifs with h1 h2
    · have hp : promotable s.min_batch (batch, bc) = false := by
        simp [promotable]; omega
      simp only [List.takeWhile, hp, inProgressChunks_nil, sizes_nil, Nat.add_zero] at ho ⊢
      exact ⟨hc, ho⟩
    · have hp : promotable s.min_batch (batch, bc) = false := by
        simp [promotable, h2.1, h2.2]
      simp only [List.takeWhile, hp, inProgressChunks_nil, sizes_nil, Nat.add_zero] at ho ⊢
      exact ⟨hc, ho⟩
    · have hp : promotable s.min_batch (batch, bc) = true := by
        simp only [promotable, Bool.and_eq_true, Bool.or_eq_true, decide_eq_true_eq]
        refine ⟨by omega, ?_⟩
        by_cases h3 : batch = s.min_batch
        · exact Or.inl h3
        · right
          cases hc : bc.completed
          · exact absurd ⟨h3, hc⟩ h2
          · rfl
      have hm := moveChunks_fst bc.chunks 0 s.batches
      simp only [List.takeWhile, hp, inProgressChunks_cons, sizes_append] at ho ⊢
      have := ih
        { s with batches := (UpdateMinBatchIndex.moveChunks bc.chunks 0 s.batches).2
                 other_batches_tuple_count :=
                   idxSub s.other_batches_tuple_count
                     (UpdateMinBatchIndex.moveChunks bc.chunks 0 s.batches).1
                 current_batch_tuple_count :=
                   idxAdd s.current_batch_tuple_count
                     (UpdateMinBatchIndex.moveChunks bc.chunks 0 s.batches).1 }
        (batch :: tr) (A + sizes bc.chunks)
        B
        (by
          simp only
          rw [hc]
          unfold idxAdd IDX_MOD at *
          omega)
        (by
          simp only
          rw [ho]
          unfold idxSub IDX_MOD at *
          omega)
      simp only at this
      rw [this.1, this.2]
      exact ⟨by rw [Nat.add_assoc], rfl⟩

theorem UpdateMinBatchIndex_min_batch (c : Nat) (s : BatchedBufferedData τ) :
    (UpdateMinBatchIndex c s).min_batch = max s.min_batch c := by
  unfold UpdateMinBatchIndex
  exact (walk_frame _ _ _).1

theorem UpdateMinBatchIndex_blocked_sinks (c : Nat) (s : BatchedBufferedData τ) :
    (UpdateMinBatchIndex c s).blocked_sinks = s.blocked_sinks := by
  unfold UpdateMinBatchIndex
  exact (walk_frame _ _ _).2.2.1

theorem UpdateMinBatchIndex_context (c : Nat) (s : BatchedBufferedData τ) :
    (UpdateMinBatchIndex c s).context = s.context := by
  unfold UpdateMinBatchIndex
  exact (walk_frame _ _ _).2.2.2.1

theorem UpdateMinBatchIndex_batches (c : Nat) (s : BatchedBufferedData τ) :
    (UpdateMinBatchIndex c s).batches =
      s.batches ++
        inProgressChunks (s.in_progress_batches.takeWhile (promotable (max s.min_batch c))) := by
  unfold UpdateMinBatchIndex
  exact (walk_frame _ _ _).2.2.2.2.1

theorem UpdateMinBatchIndex_in_progress (c : Nat) (s : BatchedBufferedData τ)
    (h : StdMap.WF s.in_progress_batches) :
    (UpdateMinBatchIndex c s).in_progress_batches =
      s.in_progress_batches.dropWhile (promotable (max s.min_batch c)) := by
  unfold UpdateMinBatchIndex
  obtain ⟨-, h2, -, -, -, h6⟩ := walk_frame s.in_progress_batches
    { s with min_batch := max s.min_batch c } []
  simp only [h2, h6, List.append_nil]
  have h3 := StdMap.eraseAll_prefix
    (s.in_progress_batches.takeWhile (promotable (max s.min_batch c)))
    (s.in_progress_batches.dropWhile (promotable (max s.min_batch c)))
    (by rw [List.takeWhile_append_dropWhile]; exact h)
  rw [List.takeWhile_append_dropWhile] at h3
  exact h3

theorem UpdateMinBatchIndex_counts (c : Nat) (s : BatchedBufferedData τ)
    (hc : s.current_batch_tuple_count = sizes s.batches % IDX_MOD)
    (ho : s.other_batches_tuple_count =
      sizes (inProgressChunks s.in_progress_batches) % IDX_MOD) :
    (UpdateMinBatchIndex c s).current_batch_tuple_count =
      (sizes s.batches + sizes (inProgressChunks
        (s.in_progress_batches.takeWhile (promotable (max s.min_batch c))))) % IDX_MOD ∧
    (UpdateMinBatchIndex c s).other_batches_tuple_count =
      sizes (inProgressChunks
        (s.in_progress_batches.dropWhile (promotable (max s.min_batch c)))) % IDX_MOD := by
  unfold UpdateMinBatchIndex
  refine walk_counts s.in_progress_batches { s with min_batch := max s.min_batch c } []
    _ _ hc ?_
  simp only
  rw [ho, Nat.add_comm, ← sizes_append, ← inProgressChunks_append,
    List.takeWhile_append_dropWhile]

/-! ### `Scan`, `Append` and `CompleteBatch` -/

theorem Scan_eq (s : BatchedBufferedData τ) : Scan s = Scan.finish (Scan.pop (Scan.prepare s)) := by
  unfold Scan Scan.finish Scan.prepare
  cases hb : s.batches with
  | cons c rest => simp [Scan.pop, hb]
  | nil =>
    cases hi : s.in_progress_batches with
    | nil => simp [Scan.pop, hb, hi]
    | cons a rest =>
      obtain ⟨batch, chunks⟩ := a
      simp [Scan.pop, hb, hi]

theorem Append_current (chunk : DataChunk τ) (batch : Nat) (s : BatchedBufferedData τ)
    (h : batch = s.min_batch) :
    Append chunk batch s =
      { s with current_batch_tuple_count := idxAdd s.current_batch_tuple_count chunk.size
               batches := s.batches ++ [chunk] } := by
  simp [Append, h]

/-- Shape of `in_progress_batches` after an `Append` to a batch other than the
current one: the entry of that batch holds its former chunks followed by the
new one and is not completed; nothing else changes. -/
theorem Append_other (chunk : DataChunk τ) (batch : Nat) (s : BatchedBufferedData τ)
    (h : batch ≠ s.min_batch) (hwf : StdMap.WF s.in_progress_batches) :
    ∃ pre post old,
      Append chunk batch s =
        { s with in_progress_batches := pre ++ (batch, ⟨old ++ [chunk], false⟩) :: post
                 other_batches_tuple_count :=
                   idxAdd s.other_batches_tuple_count chunk.size } ∧
      ((s.in_progress_batches = pre ++ post ∧ old = []) ∨
        ∃ f, s.in_progress_batches = pre ++ (batch, ⟨old, f⟩) :: post) := by
  obtain ⟨pre, post, e1, e2⟩ := StdMap.assign_decomp batch
    (⟨((StdMap.find batch s.in_progress_batches).getD {}).chunks ++ [chunk], false⟩ :
      InProgressBatch τ) hwf
  refine ⟨pre, post, ((StdMap.find batch s.in_progress_batches).getD {}).chunks, ?_, ?_⟩
  · simp [Append, h, e1]
  · rcases e2 with ⟨e2, e3⟩ | ⟨w, e2, e3⟩
    · exact Or.inl ⟨e3, by simp [e2]⟩
    · refine Or.inr ⟨w.completed, ?_⟩
      rw [e2]
      exact e3

/-- Shape of `in_progress_batches` after `CompleteBatch`: either nothing
changes, or the flag of the entry of that batch is set. -/
theorem CompleteBatch_shape (batch : Nat) (s : BatchedBufferedData τ)
    (hwf : StdMap.WF s.in_progress_batches) :
    CompleteBatch batch s = s ∨
      ∃ pre post bc, s.in_progress_batches = pre ++ (batch, bc) :: post ∧
        CompleteBatch batch s =
          { s with in_progress_batches := pre ++ (batch, { bc with completed := true }) :: post } := by
  unfold CompleteBatch
  cases hf : StdMap.find batch s.in_progress_batches with
  | none => exact Or.inl rfl
  | some bc =>
    right
    obtain ⟨pre, post, e1, e2⟩ := StdMap.assign_decomp batch
      ({ bc with completed := true } : InProgressBatch τ) hwf
    rcases e2 with ⟨e2, -⟩ | ⟨w, e2, e3⟩
    · rw [hf] at e2; exact absurd e2 (by simp)
    · rw [hf] at e2
      simp only [Option.some.injEq] at e2
      subst e2
      exact ⟨pre, post, bc, e3, by simp [e1]⟩

/-! ### Consistency is an invariant -/

theorem Consistent_construct : (construct τ).Consistent :=
  ⟨StdMap.WF_nil, StdMap.WF_nil, rfl, rfl, by simp [construct]⟩

theorem Consistent_Append (chunk : DataChunk τ) (batch : Nat) {s : BatchedBufferedData τ}
    (h : s.Consistent) : (Append chunk batch s).Consistent := by
  by_cases hb : batch = s.min_batch
  · rw [Append_current _ _ _ hb]
    refine ⟨h.wf_in_progress, h.wf_blocked, ?_, h.other, h.nonempty⟩
    simp only [sizes_append, sizes_cons, sizes_nil, Nat.add_zero]
    rw [h.current, idxAdd_mod]
  · obtain ⟨pre, post, old, e1, e2⟩ := Append_other chunk batch s hb h.wf_in_progress
    have hwf : StdMap.WF (Append chunk batch s).in_progress_batches := by
      unfold Append
      simp only [hb, if_false]
      exact StdMap.WF_assign h.wf_in_progress
    have hne : ∀ e ∈ (Append chunk batch s).in_progress_batches, e.2.chunks ≠ [] := by
      unfold Append
      simp only [hb, if_false]
      intro e he
      rcases StdMap.mem_assign he with h1 | h1
      · rw [h1]; simp
      · exact h.nonempty e h1
    refine ⟨hwf, ?_, ?_, ?_, hne⟩
    · rw [e1]; exact h.wf_blocked
    · rw [e1]; exact h.current
    · rw [e1]
      simp only
      rw [h.other, idxAdd_mod]
      rcases e2 with ⟨e2, e3⟩ | ⟨f, e2⟩
      · rw [e2, e3]
        simp only [inProgressChunks_append, inProgressChunks_cons, sizes_append, sizes_cons,
          sizes_nil, List.nil_append]
        congr 1; omega
      · rw [e2]
        simp only [inProgressChunks_append, inProgressChunks_cons, sizes_append, sizes_cons,
          sizes_nil]
        congr 1; omega

theorem Consistent_CompleteBatch (batch : Nat) {s : BatchedBufferedData τ}
    (h : s.Consistent) : (CompleteBatch batch s).Consistent := by
  rcases CompleteBatch_shape batch s h.wf_in_progress with e | ⟨pre, post, bc, e1, e2⟩
  · rw [e]; exact h
  · have hwf := h.wf_in_progress
    have ho := h.other
    have hne := h.nonempty
    rw [e1] at hwf ho hne
    rw [e2]
    refine ⟨?_, h.wf_blocked, h.current, ?_, ?_⟩
    · simpa [StdMap.WF, StdMap.keys] using hwf
    · simpa using ho
    · intro e he
      simp only [List.mem_append, List.mem_cons] at he
      rcases he with he | he | he
      · exact hne e (by simp [he])
      · rw [he]; exact hne (batch, bc) (by simp)
      · exact hne e (by simp [he])

theorem Consistent_BlockSink (blocked_sink : BlockedSink) (batch : Nat)
    {s : BatchedBufferedData τ} (h : s.Consistent) :
    (BlockSink blocked_sink batch s).Consistent :=
  ⟨h.wf_in_progress, StdMap.WF_emplace h.wf_blocked, h.current, h.other, h.nonempty⟩

theorem Consistent_UnblockSinks (cfg : BufferSizes) {s : BatchedBufferedData τ}
    (h : s.Consistent) : (UnblockSinks cfg s).2.Consistent :=
  ⟨h.wf_in_progress, StdMap.WF_of_sublist (StdMap.eraseAll_sublist _ _) h.wf_blocked,
    h.current, h.other, h.nonempty⟩

theorem Consistent_UpdateMinBatchIndex (c : Nat) {s : BatchedBufferedData τ}
    (h : s.Consistent) : (UpdateMinBatchIndex c s).Consistent := by
  have hc := UpdateMinBatchIndex_counts c s h.current h.other
  refine ⟨?_, ?_, ?_, ?_, ?_⟩
  · rw [UpdateMinBatchIndex_in_progress c s h.wf_in_progress]
    exact StdMap.WF_of_sublist (List.dropWhile_sublist _) h.wf_in_progress
  · rw [UpdateMinBatchIndex_blocked_sinks]; exact h.wf_blocked
  · rw [hc.1, UpdateMinBatchIndex_batches, sizes_append]
  · rw [hc.2, UpdateMinBatchIndex_in_progress c s h.wf_in_progress]
  · rw [UpdateMinBatchIndex_in_progress c s h.wf_in_progress]
    intro e he
    exact h.nonempty e ((List.dropWhile_sublist _).subset he)

theorem Consistent_prepare {s : BatchedBufferedData τ} (h : s.Consistent) :
    (Scan.prepare s).Consistent := by
  unfold Scan.prepare
  split
  · split_ifs
    · exact Consistent_UpdateMinBatchIndex _ h
    · exact h
  · exact h

theorem Consistent_Scan {s : BatchedBufferedData τ} (h : s.Consistent) :
    (Scan s).2.Consistent := by
  have hp := Consistent_prepare h
  rw [Scan_eq]
  cases hb : (Scan.prepare s).batches with
  | nil =>
    simp only [Scan.pop, Scan.finish, hb]
    refine ⟨hp.wf_in_progress, hp.wf_blocked, ?_, hp.other, hp.nonempty⟩
    simp only
    rw [hp.current, hb]
  | cons c rest =>
    simp only [Scan.pop, Scan.finish, hb]
    refine ⟨hp.wf_in_progress, hp.wf_blocked, ?_, hp.other, hp.nonempty⟩
    simp only
    rw [hp.current, hb, sizes_cons, idxSub_mod_left]

end BatchedBufferedData

/-! ### Runs -/

section runs

variable {τ : Type}

theorem Consistent_step (cfg : BufferSizes) (r : Run τ) (op : Op τ) (h : r.buf.Consistent) :
    (r.step cfg op).buf.Consistent := by
  cases op with
  | Append chunk batch => exact BatchedBufferedData.Consistent_Append chunk batch h
  | CompleteBatch batch => exact BatchedBufferedData.Consistent_CompleteBatch batch h
  | BlockSink b batch => exact BatchedBufferedData.Consistent_BlockSink b batch h
  | UnblockSinks => exact BatchedBufferedData.Consistent_UnblockSinks cfg h
  | UpdateMinBatchIndex c => exact BatchedBufferedData.Consistent_UpdateMinBatchIndex c h
  | Scan => exact BatchedBufferedData.Consistent_Scan h

theorem Consistent_exec (cfg : BufferSizes) (r : Run τ) (ops : List (Op τ))
    (h : r.buf.Consistent) : (Run.exec cfg r ops).buf.Consistent := by
  induction ops generalizing r with
  | nil => exact h
  | cons op ops ih => exact ih _ (Consistent_step cfg r op h)

theorem Consistent_fresh (cfg : BufferSizes) (ops : List (Op τ)) :
    (Run.exec cfg (Run.fresh τ) ops).buf.Consistent :=
  Consistent_exec cfg _ ops BatchedBufferedData.Consistent_construct

theorem appended_cons (op : Op τ) (ops : List (Op τ)) :
    appended (op :: ops) = appended [op] ++ appended ops := by
  cases op <;> simp [appended]

theorem UpdateMinBatchIndex_content (c : Nat) (s : BatchedBufferedData τ)
    (h : StdMap.WF s.in_progress_batches) :
    (s.UpdateMinBatchIndex c).batches ++
        inProgressChunks (s.UpdateMinBatchIndex c).in_progress_batches =
      s.batches ++ inProgressChunks s.in_progress_batches := by
  rw [BatchedBufferedData.UpdateMinBatchIndex_batches,
    BatchedBufferedData.UpdateMinBatchIndex_in_progress c s h, List.append_assoc,
    ← inProgressChunks_append, List.takeWhile_append_dropWhile]

theorem prepare_content (s : BatchedBufferedData τ) (h : StdMap.WF s.in_progress_batches) :
    (BatchedBufferedData.Scan.prepare s).batches ++
        inProgressChunks (BatchedBufferedData.Scan.prepare s).in_progress_batches =
      s.batches ++ inProgressChunks s.in_progress_batches := by
  unfold BatchedBufferedData.Scan.prepare
  split
  · split_ifs
    · exact UpdateMinBatchIndex_content _ s h
    · rfl
  · rfl

/-- What `Scan` returns and leaves behind, in terms of the state in which it
makes its last attempt. -/
theorem Scan_result (s : BatchedBufferedData τ) :
    (s.Scan).1 = (BatchedBufferedData.Scan.prepare s).batches.head? ∧
    (s.Scan).2.batches = (BatchedBufferedData.Scan.prepare s).batches.tail ∧
    (s.Scan).2.in_progress_batches = (BatchedBufferedData.Scan.prepare s).in_progress_batches ∧
    (s.Scan).2.min_batch = (BatchedBufferedData.Scan.prepare s).min_batch ∧
    (s.Scan).2.blocked_sinks = (BatchedBufferedData.Scan.prepare s).blocked_sinks := by
  rw [BatchedBufferedData.Scan_eq]
  cases hb : (BatchedBufferedData.Scan.prepare s).batches with
  | nil => simp [BatchedBufferedData.Scan.pop, BatchedBufferedData.Scan.finish, hb]
  | cons c rest => simp [BatchedBufferedData.Scan.pop, BatchedBufferedData.Scan.finish, hb]

theorem Run.delivered_Scan (cfg : BufferSizes) (r : Run τ) :
    (r.step cfg .Scan).delivered ++ (r.step cfg .Scan).buf.batches =
      r.delivered ++ (BatchedBufferedData.Scan.prepare r.buf).batches := by
  obtain ⟨h1, h2, -⟩ := Scan_result r.buf
  simp only [Run.step, Run.delivered, List.filterMap_append, h1, h2]
  cases (BatchedBufferedData.Scan.prepare r.buf).batches with
  | nil => simp
  | cons c rest => simp

theorem content_step (cfg : BufferSizes) (r : Run τ) (op : Op τ) (h : r.buf.Consistent) :
    (r.step cfg op).content.Perm (r.content ++ appended [op]) := by
  cases op with
  | Append chunk batch =>
    by_cases hb : batch = r.buf.min_batch
    · simp only [Run.content, Run.step, Run.delivered, appended,
        BatchedBufferedData.Append_current _ _ _ hb]
      simp only [List.append_assoc]
      refine List.Perm.append_left _ (List.Perm.append_left _ ?_)
      exact List.perm_append_comm
    · obtain ⟨pre, post, old, e1, e2⟩ :=
        BatchedBufferedData.Append_other chunk batch r.buf hb h.wf_in_progress
      simp only [Run.content, Run.step, Run.delivered, appended, e1]
      simp only [List.append_assoc]
      refine List.Perm.append_left _ (List.Perm.append_left _ ?_)
      rcases e2 with ⟨e2, e3⟩ | ⟨f, e2⟩
      · rw [e2, e3]
        simp only [inProgressChunks_append, inProgressChunks_cons, List.nil_append,
          List.append_assoc]
        refine List.Perm.append_left _ ?_
        exact @List.perm_append_comm _ [chunk] _
      · rw [e2]
        simp only [inProgressChunks_append, inProgressChunks_cons, List.append_assoc]
        refine List.Perm.append_left _ (List.Perm.append_left _ ?_)
        exact @List.perm_append_comm _ [chunk] _
  | CompleteBatch batch =>
    rcases BatchedBufferedData.CompleteBatch_shape batch r.buf h.wf_in_progress with
      e | ⟨pre, post, bc, e1, e2⟩
    · simp [Run.content, Run.step, Run.delivered, appended, e]
    · simp [Run.content, Run.step, Run.delivered, appended, e1, e2]
  | BlockSink b batch =>
    simp [Run.content, Run.step, Run.delivered, appended, BatchedBufferedData.BlockSink]
  | UnblockSinks =>
    simp [Run.content, Run.step, Run.delivered, appended, BatchedBufferedData.UnblockSinks]
  | UpdateMinBatchIndex c =>
    simp only [Run.content, Run.step, Run.delivered, appended, List.append_nil]
    rw [UpdateMinBatchIndex_content c r.buf h.wf_in_progress]
  | Scan =>
    have h1 := Run.delivered_Scan cfg r
    have h2 := prepare_content r.buf h.wf_in_progress
    have h3 : (r.step cfg .Scan).buf.in_progress_batches =
        (BatchedBufferedData.Scan.prepare r.buf).in_progress_batches := (Scan_result r.buf).2.2.1
    simp only [Run.content, appended, List.append_nil]
    rw [← List.append_assoc, h1, h3, List.append_assoc, h2]

/-- Conservation of chunks: whatever was appended is delivered or still held. -/
theorem content_exec (cfg : BufferSizes) (r : Run τ) (ops : List (Op τ))
    (h : r.buf.Consistent) :
    (Run.exec cfg r ops).content.Perm (r.content ++ appended ops) := by
  induction ops generalizing r with
  | nil => simp [Run.exec, appended]
  | cons op ops ih =>
    rw [appended_cons, Run.exec]
    refine (ih _ (Consistent_step cfg r op h)).trans ?_
    rw [← List.append_assoc]
    exact List.Perm.append_right _ (content_step cfg r op h)

theorem content_fresh (cfg : BufferSizes) (ops : List (Op τ)) :
    (Run.exec cfg (Run.fresh τ) ops).content.Perm (appended ops) := by
  have := content_exec cfg (Run.fresh τ) ops BatchedBufferedData.Consistent_construct
  simpa [Run.content, Run.fresh, Run.delivered, BatchedBufferedData.construct] using this

/-- The chunks held by a buffer never amount to more than what was appended. -/
theorem held_le_appended (cfg : BufferSizes) (ops : List (Op τ)) :
    sizes (Run.exec cfg (Run.fresh τ) ops).buf.batches +
        sizes (inProgressChunks (Run.exec cfg (Run.fresh τ) ops).buf.in_progress_batches) ≤
      sizes (appended ops) := by
  have := sizes_perm (content_fresh cfg ops)
  simp only [Run.content, sizes_append] at this
  omega

theorem Run.exec_append (cfg : BufferSizes) (r : Run τ) (ops1 ops2 : List (Op τ)) :
    Run.exec cfg r (ops1 ++ ops2) = Run.exec cfg (Run.exec cfg r ops1) ops2 := by
  induction ops1 generalizing r with
  | nil => rfl
  | cons op ops ih => simp [Run.exec, ih]

theorem prepare_min_batch_le (s : BatchedBufferedData τ) :
    s.min_batch ≤ (BatchedBufferedData.Scan.prepare s).min_batch := by
  unfold BatchedBufferedData.Scan.prepare
  split
  · split_ifs
    · rw [BatchedBufferedData.UpdateMinBatchIndex_min_batch]
      exact le_max_left _ _
    · exact le_refl _
  · exact le_refl _

theorem step_min_batch_le (cfg : BufferSizes) (r : Run τ) (op : Op τ) :
    r.buf.min_batch ≤ (r.step cfg op).buf.min_batch := by
  cases op with
  | Append chunk batch =>
    simp only [Run.step, BatchedBufferedData.Append]
    split_ifs <;> exact le_refl _
  | CompleteBatch batch =>
    simp only [Run.step, BatchedBufferedData.CompleteBatch]
    split <;> exact le_refl _
  | BlockSink b batch => exact le_refl _
  | UnblockSinks => exact le_refl _
  | UpdateMinBatchIndex c =>
    simp only [Run.step, BatchedBufferedData.UpdateMinBatchIndex_min_batch]
    exact le_max_left _ _
  | Scan =>
    simp only [Run.step, (Scan_result r.buf).2.2.2.1]
    exact prepare_min_batch_le _

theorem exec_min_batch_le (cfg : BufferSizes) (r : Run τ) (ops : List (Op τ)) :
    r.buf.min_batch ≤ (Run.exec cfg r ops).buf.min_batch := by
  induction ops generalizing r with
  | nil => exact le_refl _
  | cons op ops ih => exact le_trans (step_min_batch_le cfg r op) (ih _)

theorem prepare_of_completed {s : BatchedBufferedData τ} {k : Nat} {b : InProgressBatch τ}
    {rest : StdMap (InProgressBatch τ)} (hb : s.batches = [])
    (hi : s.in_progress_batches = (k, b) :: rest) (hc : b.completed = true) :
    BatchedBufferedData.Scan.prepare s = s.UpdateMinBatchIndex k := by
  unfold BatchedBufferedData.Scan.prepare
  rw [hb, hi]
  simp [hc]

theorem prepare_of_batches {s : BatchedBufferedData τ} {c : DataChunk τ}
    {rest : List (DataChunk τ)} (hb : s.batches = c :: rest) :
    BatchedBufferedData.Scan.prepare s = s := by
  unfold BatchedBufferedData.Scan.prepare
  rw [hb]

/-- The counter of the current batch after `Scan`, in terms of the state in
which the last attempt is made. -/
theorem Scan_current (s : BatchedBufferedData τ) (chunk : DataChunk τ)
    (h : (s.Scan).1 = some chunk) :
    (s.Scan).2.current_batch_tuple_count =
      idxSub (BatchedBufferedData.Scan.prepare s).current_batch_tuple_count chunk.size := by
  rw [BatchedBufferedData.Scan_eq] at h ⊢
  cases hb : (BatchedBufferedData.Scan.prepare s).batches with
  | nil => simp [BatchedBufferedData.Scan.pop, BatchedBufferedData.Scan.finish, hb] at h
  | cons c rest =>
    simp only [BatchedBufferedData.Scan.pop, BatchedBufferedData.Scan.finish, hb,
      Option.some.injEq] at h ⊢
    rw [h]

/-! ### Keys above the watermark -/

theorem disciplined_UpdateMinBatchIndex {s : BatchedBufferedData τ} {c : Nat}
    (h : Op.disciplined s (.UpdateMinBatchIndex c) = true) :
    ∀ e ∈ s.in_progress_batches, e.1 < max s.min_batch c → e.2.completed = true := by
  intro e he hlt
  simp only [Op.disciplined, List.all_eq_true, Bool.or_eq_true, Bool.not_eq_true',
    decide_eq_false_iff_not] at h
  rcases h e he with h1 | h1
  · exact absurd hlt h1
  · exact h1

/-- Under the discipline the promotable entries are those at or below the new
watermark. -/
theorem promotable_of_disciplined {m : StdMap (InProgressBatch τ)} {w : Nat}
    (hd : ∀ e ∈ m, e.1 < w → e.2.completed = true) {e : Nat × InProgressBatch τ} (he : e ∈ m) :
    promotable w e = decide (e.1 ≤ w) := by
  unfold promotable
  by_cases h1 : e.1 ≤ w
  · by_cases h2 : e.1 = w
    · simp [h1, h2]
    · have := hd e he (by omega)
      simp [h1, this]
  · simp [h1]

theorem dropWhile_keys_above {m : StdMap (InProgressBatch τ)} {w : Nat} (hwf : StdMap.WF m)
    (hd : ∀ e ∈ m, e.1 < w → e.2.completed = true) :
    ∀ e ∈ m.dropWhile (promotable w), w < e.1 := by
  induction m with
  | nil => simp
  | cons a rest ih =>
    have hwf2 := StdMap.WF_cons.1 hwf
    by_cases hp : promotable w a = true
    · rw [List.dropWhile_cons_of_pos hp]
      exact ih hwf2.2 (fun e he => hd e (List.mem_cons_of_mem _ he))
    · rw [List.dropWhile_cons_of_neg hp]
      have ha : w < a.1 := by
        rw [promotable_of_disciplined hd (List.mem_cons_self _ _)] at hp
        simpa using hp
      intro e he
      rcases List.mem_cons.1 he with h1 | h1
      · rw [h1]; exact ha
      · exact lt_trans ha (hwf2.1 e.1 (List.mem_map.2 ⟨e, h1, rfl⟩))

theorem mem_takeWhile_of_le {m : StdMap (InProgressBatch τ)} {w : Nat} (hwf : StdMap.WF m)
    (hd : ∀ e ∈ m, e.1 < w → e.2.completed = true) {e : Nat × InProgressBatch τ}
    (he : e ∈ m) (hle : e.1 ≤ w) : e ∈ m.takeWhile (promotable w) := by
  induction m with
  | nil => simp at he
  | cons a rest ih =>
    have hwf2 := StdMap.WF_cons.1 hwf
    have hpa : promotable w a = true := by
      rw [promotable_of_disciplined hd (List.mem_cons_self _ _)]
      rcases List.mem_cons.1 he with h1 | h1
      · rw [← h1]; simpa using hle
      · have := hwf2.1 e.1 (List.mem_map.2 ⟨e, h1, rfl⟩)
        simp only [decide_eq_true_eq]
        omega
    rw [List.takeWhile_cons_of_pos hpa]
    rcases List.mem_cons.1 he with h1 | h1
    · rw [h1]; exact List.mem_cons_self _ _
    · exact List.mem_cons_of_mem _
        (ih hwf2.2 (fun e he => hd e (List.mem_cons_of_mem _ he)) h1)

/-- In a list with strictly ascending keys all at most `w`, an entry with key
`w` is the last one. -/
theorem last_of_max_key {V : Type} {l : StdMap V} {w : Nat} {b : V} (hwf : StdMap.WF l)
    (hle : ∀ e ∈ l, e.1 ≤ w) (hm : (w, b) ∈ l) : ∃ pre, l = pre ++ [(w, b)] := by
  induction l with
  | nil => simp at hm
  | cons a rest ih =>
    have hwf2 := StdMap.WF_cons.1 hwf
    rcases List.mem_cons.1 hm with h1 | h1
    · cases rest with
      | nil => exact ⟨[], by rw [h1]; rfl⟩
      | cons a2 rest2 =>
        have h2 := hwf2.1 a2.1 (by simp [StdMap.keys])
        have h3 := hle a2 (by simp)
        rw [← h1] at h2
        simp only at h2
        omega
    · obtain ⟨pre, hpre⟩ := ih hwf2.2 (fun e he => hle e (List.mem_cons_of_mem _ he)) h1
      exact ⟨a :: pre, by rw [hpre]; rfl⟩

theorem KeysAbove_UpdateMinBatchIndex {s : BatchedBufferedData τ} {c : Nat}
    (hwf : StdMap.WF s.in_progress_batches)
    (hd : ∀ e ∈ s.in_progress_batches, e.1 < max s.min_batch c → e.2.completed = true) :
    (s.UpdateMinBatchIndex c).KeysAbove := by
  unfold BatchedBufferedData.KeysAbove
  rw [BatchedBufferedData.UpdateMinBatchIndex_in_progress c s hwf,
    BatchedBufferedData.UpdateMinBatchIndex_min_batch]
  exact dropWhile_keys_above hwf hd

theorem KeysAbove_Append {s : BatchedBufferedData τ} (chunk : DataChunk τ) {batch : Nat}
    (h : s.KeysAbove) (hb : s.min_batch ≤ batch) : (s.Append chunk batch).KeysAbove := by
  unfold BatchedBufferedData.KeysAbove BatchedBufferedData.Append
  split_ifs with h1
  · exact h
  · intro e he
    rcases StdMap.mem_assign he with h2 | h2
    · rw [h2]; simp only
      omega
    · exact h e h2

theorem KeysAbove_CompleteBatch {s : BatchedBufferedData τ} (batch : Nat) (h : s.KeysAbove) :
    (s.CompleteBatch batch).KeysAbove := by
  unfold BatchedBufferedData.KeysAbove BatchedBufferedData.CompleteBatch
  cases hf : StdMap.find batch s.in_progress_batches with
  | none => exact h
  | some bc =>
    intro e he
    rcases StdMap.mem_assign he with h2 | h2
    · rw [h2]
      exact h (batch, bc) (StdMap.mem_of_find hf)
    · exact h e h2

/-- The call of `UpdateMinBatchIndex` that `Scan` makes keeps to the discipline. -/
theorem prepare_disciplined {s : BatchedBufferedData τ} {k : Nat} {b : InProgressBatch τ}
    {rest : StdMap (InProgressBatch τ)} (hwf : StdMap.WF s.in_progress_batches)
    (h : s.KeysAbove) (hi : s.in_progress_batches = (k, b) :: rest) :
    ∀ e ∈ s.in_progress_batches, e.1 < max s.min_batch k → e.2.completed = true := by
  intro e he hlt
  have hk : s.min_batch < k := h (k, b) (by rw [hi]; exact List.mem_cons_self _ _)
  rw [max_eq_right (le_of_lt hk)] at hlt
  rw [hi] at hwf he
  have hwf2 := StdMap.WF_cons.1 hwf
  rcases List.mem_cons.1 he with h1 | h1
  · rw [h1] at hlt; simp only at hlt; omega
  · have := hwf2.1 e.1 (List.mem_map.2 ⟨e, h1, rfl⟩)
    omega

theorem KeysAbove_prepare {s : BatchedBufferedData τ} (hwf : StdMap.WF s.in_progress_batches)
    (h : s.KeysAbove) : (BatchedBufferedData.Scan.prepare s).KeysAbove := by
  unfold BatchedBufferedData.Scan.prepare
  split
  · rename_i batch chunks rest hb hi
    split_ifs
    · exact KeysAbove_UpdateMinBatchIndex hwf (prepare_disciplined hwf h hi)
    · exact h
  · exact h

theorem KeysAbove_Scan {s : BatchedBufferedData τ} (hwf : StdMap.WF s.in_progress_batches)
    (h : s.KeysAbove) : (s.Scan).2.KeysAbove := by
  have hp := KeysAbove_prepare hwf h
  obtain ⟨-, -, r3, r4, -⟩ := Scan_result s
  unfold BatchedBufferedData.KeysAbove at *
  rw [r3, r4]
  exact hp

theorem KeysAbove_step (cfg : BufferSizes) (r : Run τ) (op : Op τ) (hc : r.buf.Consistent)
    (h : r.buf.KeysAbove) (hd : Op.disciplined r.buf op = true) :
    (r.step cfg op).buf.KeysAbove := by
  cases op with
  | Append chunk batch =>
    exact KeysAbove_Append chunk h (by simpa [Op.disciplined] using hd)
  | CompleteBatch batch => exact KeysAbove_CompleteBatch batch h
  | BlockSink b batch => exact h
  | UnblockSinks => exact h
  | UpdateMinBatchIndex c =>
    exact KeysAbove_UpdateMinBatchIndex hc.wf_in_progress (disciplined_UpdateMinBatchIndex hd)
  | Scan => exact KeysAbove_Scan hc.wf_in_progress h

theorem KeysAbove_exec (cfg : BufferSizes) (r : Run τ) (ops : List (Op τ))
    (hc : r.buf.Consistent) (h : r.buf.KeysAbove)
    (hd : Run.admits Op.disciplined cfg r ops = true) :
    (Run.exec cfg r ops).buf.KeysAbove := by
  induction ops generalizing r with
  | nil => exact h
  | cons op ops ih =>
    simp only [Run.admits, Bool.and_eq_true] at hd
    exact ih _ (Consistent_step cfg r op hc) (KeysAbove_step cfg r op hc h hd.1) hd.2

/-! ### The buffer does not look at the data of a chunk -/

section relabel

variable {α β : Type} (f : α → β)

theorem find_relabel (key : Nat) (m : StdMap (InProgressBatch α)) :
    StdMap.find key (m.map fun e => (e.1, e.2.relabel f)) =
      (StdMap.find key m).map (InProgressBatch.relabel f) := by
  induction m with
  | nil => rfl
  | cons a rest ih =>
    obtain ⟨k, w⟩ := a
    simp only [List.map_cons, StdMap.find]
    split_ifs
    · rfl
    · exact ih

theorem assign_relabel (key : Nat) (v : InProgressBatch α) (m : StdMap (InProgressBatch α)) :
    (StdMap.assign key v m).map (fun e => (e.1, e.2.relabel f)) =
      StdMap.assign key (v.relabel f) (m.map fun e => (e.1, e.2.relabel f)) := by
  induction m with
  | nil => rfl
  | cons a rest ih =>
    obtain ⟨k, w⟩ := a
    simp only [List.map_cons, StdMap.assign]
    split_ifs
    · rfl
    · rfl
    · simp only [List.map_cons, ih]

theorem erase_relabel (key : Nat) (m : StdMap (InProgressBatch α)) :
    (StdMap.erase key m).map (fun e => (e.1, e.2.relabel f)) =
      StdMap.erase key (m.map fun e => (e.1, e.2.relabel f)) := by
  induction m with
  | nil => rfl
  | cons a rest ih =>
    obtain ⟨k, w⟩ := a
    simp only [List.map_cons, StdMap.erase]
    split_ifs
    · rfl
    · simp only [List.map_cons, ih]

theorem eraseAll_relabel (ks : List Nat) (m : StdMap (InProgressBatch α)) :
    (StdMap.eraseAll ks m).map (fun e => (e.1, e.2.relabel f)) =
      StdMap.eraseAll ks (m.map fun e => (e.1, e.2.relabel f)) := by
  induction ks generalizing m with
  | nil => rfl
  | cons k rest ih => simp only [StdMap.eraseAll, ih, erase_relabel]

theorem moveChunks_relabel (l : List (DataChunk α)) (tc : Nat) (b : List (DataChunk α)) :
    BatchedBufferedData.UpdateMinBatchIndex.moveChunks (l.map (DataChunk.relabel f)) tc
        (b.map (DataChunk.relabel f)) =
      ((BatchedBufferedData.UpdateMinBatchIndex.moveChunks l tc b).1,
        (BatchedBufferedData.UpdateMinBatchIndex.moveChunks l tc b).2.map
          (DataChunk.relabel f)) := by
  induction l generalizing tc b with
  | nil => rfl
  | cons c rest ih =>
    simp only [List.map_cons, BatchedBufferedData.UpdateMinBatchIndex.moveChunks]
    have := ih (idxAdd tc c.size) (b ++ [c])
    simp only [List.map_append, List.map_cons, List.map_nil] at this
    exact this

theorem walk_relabel (m : StdMap (InProgressBatch α)) (s : BatchedBufferedData α)
    (tr : List Nat) :
    BatchedBufferedData.UpdateMinBatchIndex.walk (m.map fun e => (e.1, e.2.relabel f))
        (s.relabel f) tr =
      ((BatchedBufferedData.UpdateMinBatchIndex.walk m s tr).1.relabel f,
        (BatchedBufferedData.UpdateMinBatchIndex.walk m s tr).2) := by
  induction m generalizing s tr with
  | nil => rfl
  | cons a rest ih =>
    obtain ⟨batch, bc⟩ := a
    simp only [List.map_cons, BatchedBufferedData.UpdateMinBatchIndex.walk]
    have hmin : (s.relabel f).min_batch = s.min_batch := rfl
    have hcomp : (bc.relabel f).completed = bc.completed := rfl
    rw [hmin, hcomp]
    split_ifs
    · rfl
    · rfl
    · have hmv := moveChunks_relabel f bc.chunks 0 s.batches
      have := ih
        { s with batches := (BatchedBufferedData.UpdateMinBatchIndex.moveChunks bc.chunks 0
                   s.batches).2
                 other_batches_tuple_count :=
                   idxSub s.other_batches_tuple_count
                     (BatchedBufferedData.UpdateMinBatchIndex.moveChunks bc.chunks 0 s.batches).1
                 current_batch_tuple_count :=
                   idxAdd s.current_batch_tuple_count
                     (BatchedBufferedData.UpdateMinBatchIndex.moveChunks bc.chunks 0 s.batches).1 }
        (batch :: tr)
      rw [← this]
      simp only [BatchedBufferedData.relabel, InProgressBatch.relabel, hmv]

theorem UpdateMinBatchIndex_relabel (c : Nat) (s : BatchedBufferedData α) :
    (s.relabel f).UpdateMinBatchIndex c = (s.UpdateMinBatchIndex c).relabel f := by
  unfold BatchedBufferedData.UpdateMinBatchIndex
  have h := walk_relabel f s.in_progress_batches { s with min_batch := max s.min_batch c } []
  simp only [BatchedBufferedData.relabel] at h ⊢
  rw [h]
  simp only [eraseAll_relabel]

theorem Append_relabel (chunk : DataChunk α) (batch : Nat) (s : BatchedBufferedData α) :
    (s.relabel f).Append (chunk.relabel f) batch = (s.Append chunk batch).relabel f := by
  unfold BatchedBufferedData.Append
  have hmin : (s.relabel f).min_batch = s.min_batch := rfl
  rw [hmin]
  split_ifs
  · simp [BatchedBufferedData.relabel, DataChunk.relabel]
  · simp only [BatchedBufferedData.relabel, assign_relabel, find_relabel]
    cases StdMap.find batch s.in_progress_batches <;>
      simp [InProgressBatch.relabel, DataChunk.relabel]

theorem CompleteBatch_relabel (batch : Nat) (s : BatchedBufferedData α) :
    (s.relabel f).CompleteBatch batch = (s.CompleteBatch batch).relabel f := by
  unfold BatchedBufferedData.CompleteBatch
  have h : (s.relabel f).in_progress_batches =
      s.in_progress_batches.map fun e => (e.1, e.2.relabel f) := rfl
  rw [h, find_relabel]
  cases StdMap.find batch s.in_progress_batches with
  | none => rfl
  | some bc =>
    simp only [Option.map_some', BatchedBufferedData.relabel]
    rw [assign_relabel]
    rfl

theorem pop_relabel (s : BatchedBufferedData α) :
    BatchedBufferedData.Scan.pop (s.relabel f) =
      ((BatchedBufferedData.Scan.pop s).1.map (DataChunk.relabel f),
        (BatchedBufferedData.Scan.pop s).2.relabel f) := by
  unfold BatchedBufferedData.Scan.pop
  cases hb : s.batches with
  | nil => simp [BatchedBufferedData.relabel, hb]
  | cons c rest => simp [BatchedBufferedData.relabel, hb]

theorem prepare_relabel (s : BatchedBufferedData α) :
    BatchedBufferedData.Scan.prepare (s.relabel f) =
      (BatchedBufferedData.Scan.prepare s).relabel f := by
  unfold BatchedBufferedData.Scan.prepare
  cases hb : s.batches with
  | cons c rest => simp [BatchedBufferedData.relabel, hb]
  | nil =>
    cases hi : s.in_progress_batches with
    | nil => simp [BatchedBufferedData.relabel, hb, hi]
    | cons a rest =>
      obtain ⟨k, b⟩ := a
      have h1 : (s.relabel f).batches = [] := by simp [BatchedBufferedData.relabel, hb]
      have h2 : (s.relabel f).in_progress_batches =
          (k, b.relabel f) :: rest.map fun e => (e.1, e.2.relabel f) := by
        simp [BatchedBufferedData.relabel, hi]
      rw [h1, h2]
      simp only [InProgressBatch.relabel]
      split_ifs
      · exact UpdateMinBatchIndex_relabel f k s
      · rfl

theorem Scan_relabel (s : BatchedBufferedData α) :
    (s.relabel f).Scan = ((s.Scan).1.map (DataChunk.relabel f), (s.Scan).2.relabel f) := by
  rw [BatchedBufferedData.Scan_eq, BatchedBufferedData.Scan_eq, prepare_relabel, pop_relabel]
  cases hb : (BatchedBufferedData.Scan.prepare s).batches with
  | nil =>
    simp [BatchedBufferedData.Scan.pop, BatchedBufferedData.Scan.finish, hb,
      BatchedBufferedData.relabel]
  | cons c rest =>
    simp [BatchedBufferedData.Scan.pop, BatchedBufferedData.Scan.finish, hb,
      BatchedBufferedData.relabel, DataChunk.relabel]

theorem UnblockSinks_walk_relabel (cfg : BufferSizes) (s : BatchedBufferedData α)
    (m : StdMap BlockedSink) (fired : List BlockedSink) (tr : List Nat) :
    BatchedBufferedData.UnblockSinks.walk cfg (s.relabel f) m fired tr =
      BatchedBufferedData.UnblockSinks.walk cfg s m fired tr := by
  induction m generalizing fired tr with
  | nil => rfl
  | cons a rest ih =>
    obtain ⟨batch, sink⟩ := a
    simp only [BatchedBufferedData.UnblockSinks.walk, ih]
    rfl

theorem UnblockSinks_relabel (cfg : BufferSizes) (s : BatchedBufferedData α) :
    (s.relabel f).UnblockSinks cfg = ((s.UnblockSinks cfg).1, (s.UnblockSinks cfg).2.relabel f) := by
  unfold BatchedBufferedData.UnblockSinks
  rw [UnblockSinks_walk_relabel]
  rfl

theorem all_relabel (p : Nat → Bool → Bool) (m : StdMap (InProgressBatch α)) :
    ((m.map fun e => (e.1, e.2.relabel f)).all fun e => p e.1 e.2.completed) =
      m.all fun e => p e.1 e.2.completed := by
  induction m with
  | nil => rfl
  | cons a rest ih =>
    simp only [List.map_cons, List.all_cons, ih]
    rfl

theorem step_relabel (cfg : BufferSizes) (r : Run α) (op : Op α) :
    (r.relabel f).step cfg (op.relabel f) = (r.step cfg op).relabel f := by
  cases op with
  | Append chunk batch =>
    simp only [Op.relabel, Run.step, Run.relabel, Append_relabel]
  | CompleteBatch batch =>
    simp only [Op.relabel, Run.step, Run.relabel, CompleteBatch_relabel]
  | BlockSink b batch => rfl
  | UnblockSinks =>
    simp only [Op.relabel, Run.step, Run.relabel, UnblockSinks_relabel]
  | UpdateMinBatchIndex c =>
    simp only [Op.relabel, Run.step, Run.relabel, UpdateMinBatchIndex_relabel]
  | Scan =>
    simp only [Op.relabel, Run.step, Run.relabel, Scan_relabel, List.map_append, List.map_cons,
      List.map_nil]

theorem exec_relabel (cfg : BufferSizes) (r : Run α) (ops : List (Op α)) :
    Run.exec cfg (r.relabel f) (ops.map (Op.relabel f)) = (Run.exec cfg r ops).relabel f := by
  induction ops generalizing r with
  | nil => rfl
  | cons op ops ih =>
    simp only [List.map_cons, Run.exec, step_relabel, ih]

theorem disciplined_relabel (s : BatchedBufferedData α) (op : Op α) :
    Op.disciplined (s.relabel f) (op.relabel f) = Op.disciplined s op := by
  cases op with
  | UpdateMinBatchIndex c =>
    exact all_relabel f (fun k done => !decide (k < max s.min_batch c) || done)
      s.in_progress_batches
  | _ => rfl

theorem admits_relabel (cfg : BufferSizes) (r : Run α) (ops : List (Op α)) :
    Run.admits Op.disciplined cfg (r.relabel f) (ops.map (Op.relabel f)) =
      Run.admits Op.disciplined cfg r ops := by
  induction ops generalizing r with
  | nil => rfl
  | cons op ops ih =>
    simp only [List.map_cons, Run.admits, step_relabel, ih]
    congr 1
    exact disciplined_relabel f r.buf op

end relabel

theorem tagCalls_relabel (n : Nat) (ops : List (Op τ)) :
    (tagCalls n ops).map (Op.relabel Tagged.data) = ops := by
  induction ops generalizing n with
  | nil => rfl
  | cons op ops ih =>
    simp only [tagCalls, List.map_cons, ih]
    cases op <;> rfl

/-- Labels are bookkeeping only: forgetting them turns the run of the labelled
calls into the run of the calls themselves. -/
theorem exec_tagCalls (cfg : BufferSizes) (ops : List (Op τ)) :
    (Run.exec cfg (Run.fresh (Tagged τ)) (tagCalls 0 ops)).relabel Tagged.data =
      Run.exec cfg (Run.fresh τ) ops := by
  rw [← exec_relabel, tagCalls_relabel]
  rfl

theorem admits_tagCalls (cfg : BufferSizes) (ops : List (Op τ)) :
    Run.admits Op.disciplined cfg (Run.fresh (Tagged τ)) (tagCalls 0 ops) =
      Run.admits Op.disciplined cfg (Run.fresh τ) ops := by
  rw [← admits_relabel Tagged.data, tagCalls_relabel]
  rfl

/-! ### Ordered delivery -/

theorem Orderly.mono {n n2 : Nat} {front : List (DataChunk (Tagged τ))}
    {m : StdMap (InProgressBatch (Tagged τ))} {w : Nat} (h : Orderly n front m w)
    (hn : n ≤ n2) : Orderly n2 front m w :=
  ⟨h.keys, h.entry_batch, h.entry_seq,
    fun e he c hc => lt_of_lt_of_le (h.seq_entries e he c hc) hn,
    fun c hc => lt_of_lt_of_le (h.seq_front c hc) hn, h.front_le, h.ordered⟩

/-- Appending to the current batch. -/
theorem Orderly.push_current {n : Nat} {front : List (DataChunk (Tagged τ))}
    {m : StdMap (InProgressBatch (Tagged τ))} {w : Nat} (h : Orderly n front m w)
    (size : Nat) (data : τ) :
    Orderly (n + 1) (front ++ [⟨size, ⟨w, n, data⟩⟩]) m w := by
  refine ⟨h.keys, h.entry_batch, h.entry_seq,
    fun e he c hc => Nat.lt_succ_of_lt (h.seq_entries e he c hc), ?_, ?_, ?_⟩
  · intro c hc
    rcases List.mem_append.1 hc with h1 | h1
    · exact Nat.lt_succ_of_lt (h.seq_front c h1)
    · simp only [List.mem_singleton] at h1
      rw [h1]; exact Nat.lt_succ_self n
  · intro c hc
    rcases List.mem_append.1 hc with h1 | h1
    · exact h.front_le c h1
    · simp only [List.mem_singleton] at h1
      rw [h1]
  · rw [List.pairwise_append]
    refine ⟨h.ordered, List.pairwise_singleton _ _, ?_⟩
    intro x hx y hy
    simp only [List.mem_singleton] at hy
    rw [hy]
    have h1 := h.front_le x hx
    have h2 := h.seq_front x hx
    unfold Tagged.before
    simp only
    omega

/-- Appending to a future batch `b`: the new map has the entries of the old
one, except that the entry of `b` holds its former chunks `old` followed by
the new chunk. -/
theorem Orderly.push_other {n : Nat} {front : List (DataChunk (Tagged τ))}
    {m m2 : StdMap (InProgressBatch (Tagged τ))} {w : Nat} (h : Orderly n front m w)
    (b : Nat) (old : List (DataChunk (Tagged τ))) (hb : w < b)
    (size : Nat) (data : τ)
    (hold : old = [] ∨ ∃ f, (b, ⟨old, f⟩) ∈ m)
    (hm : ∀ e ∈ m2, e ∈ m ∨ (e.1 = b ∧ e.2.chunks = old ++ [⟨size, ⟨b, n, data⟩⟩])) :
    Orderly (n + 1) front m2 w := by
  have hob : ∀ c ∈ old, c.data.batch = b := by
    rcases hold with h1 | ⟨f, h1⟩
    · rw [h1]; simp
    · exact h.entry_batch _ h1
  have hos : ∀ c ∈ old, c.data.seq < n := by
    rcases hold with h1 | ⟨f, h1⟩
    · rw [h1]; simp
    · exact h.seq_entries _ h1
  have hop : old.Pairwise (fun x y => x.data.seq < y.data.seq) := by
    rcases hold with h1 | ⟨f, h1⟩
    · rw [h1]; exact List.Pairwise.nil
    · exact h.entry_seq _ h1
  refine ⟨?_, ?_, ?_, ?_, fun c hc => Nat.lt_succ_of_lt (h.seq_front c hc), h.front_le,
    h.ordered⟩
  · intro e he
    rcases hm e he with h1 | ⟨h1, -⟩
    · exact h.keys e h1
    · rw [h1]; exact hb
  · intro e he c hc
    rcases hm e he with h1 | ⟨h1, h2⟩
    · exact h.entry_batch e h1 c hc
    · rw [h2] at hc
      rw [h1]
      rcases List.mem_append.1 hc with h3 | h3
      · exact hob c h3
      · simp only [List.mem_singleton] at h3
        rw [h3]
  · intro e he
    rcases hm e he with h1 | ⟨-, h2⟩
    · exact h.entry_seq e h1
    · rw [h2, List.pairwise_append]
      refine ⟨hop, List.pairwise_singleton _ _, ?_⟩
      intro x hx y hy
      simp only [List.mem_singleton] at hy
      rw [hy]
      exact hos x hx
  · intro e he c hc
    rcases hm e he with h1 | ⟨-, h2⟩
    · exact Nat.lt_succ_of_lt (h.seq_entries e h1 c hc)
    · rw [h2] at hc
      rcases List.mem_append.1 hc with h3 | h3
      · exact Nat.lt_succ_of_lt (hos c h3)
      · simp only [List.mem_singleton] at h3
        rw [h3]; exact Nat.lt_succ_self n

/-- Changing flags only: every entry of the new map has the key and the chunks
of an entry of the old one. -/
theorem Orderly.same_chunks {n : Nat} {front : List (DataChunk (Tagged τ))}
    {m m2 : StdMap (InProgressBatch (Tagged τ))} {w : Nat} (h : Orderly n front m w)
    (hm : ∀ e2 ∈ m2, ∃ e ∈ m, e.1 = e2.1 ∧ e.2.chunks = e2.2.chunks) :
    Orderly n front m2 w := by
  refine ⟨?_, ?_, ?_, ?_, h.seq_front, h.front_le, h.ordered⟩
  · intro e2 he2
    obtain ⟨e, he, h1, -⟩ := hm e2 he2
    rw [← h1]; exact h.keys e he
  · intro e2 he2
    obtain ⟨e, he, h1, h2⟩ := hm e2 he2
    rw [← h1, ← h2]; exact h.entry_batch e he
  · intro e2 he2
    obtain ⟨e, he, -, h2⟩ := hm e2 he2
    rw [← h2]; exact h.entry_seq e he
  · intro e2 he2
    obtain ⟨e, he, -, h2⟩ := hm e2 he2
    rw [← h2]; exact h.seq_entries e he

/-- The chunks of a well-formed map, read in key order, are in delivery order. -/
theorem inProgressChunks_ordered {m : StdMap (InProgressBatch (Tagged τ))} (hwf : StdMap.WF m)
    (hb : ∀ e ∈ m, ∀ c ∈ e.2.chunks, c.data.batch = e.1)
    (hs : ∀ e ∈ m, e.2.chunks.Pairwise (fun x y => x.data.seq < y.data.seq)) :
    (inProgressChunks m).Pairwise Tagged.before := by
  induction m with
  | nil => simp
  | cons a rest ih =>
    have hwf2 := StdMap.WF_cons.1 hwf
    rw [inProgressChunks_cons, List.pairwise_append]
    refine ⟨?_, ih hwf2.2 (fun e he => hb e (List.mem_cons_of_mem _ he))
      (fun e he => hs e (List.mem_cons_of_mem _ he)), ?_⟩
    · have h1 := hs a (List.mem_cons_self _ _)
      have h2 := hb a (List.mem_cons_self _ _)
      refine List.Pairwise.imp_of_mem ?_ h1
      intro x y hx hy hxy
      right
      exact ⟨by rw [h2 x hx, h2 y hy], hxy⟩
    · intro x hx y hy
      simp only [inProgressChunks, List.mem_flatten, List.mem_map] at hy
      obtain ⟨l, ⟨e, he, rfl⟩, hy⟩ := hy
      left
      rw [hb a (List.mem_cons_self _ _) x hx, hb e (List.mem_cons_of_mem _ he) y hy]
      exact hwf2.1 e.1 (List.mem_map.2 ⟨e, he, rfl⟩)

theorem mem_inProgressChunks {m : StdMap (InProgressBatch τ)} {c : DataChunk τ}
    (h : c ∈ inProgressChunks m) : ∃ e ∈ m, c ∈ e.2.chunks := by
  simp only [inProgressChunks, List.mem_flatten, List.mem_map] at h
  obtain ⟨l, ⟨e, he, rfl⟩, hc⟩ := h
  exact ⟨e, he, hc⟩

/-- Promotion by a disciplined `UpdateMinBatchIndex` to the watermark `w2`. -/
theorem Orderly.promote {n : Nat} {front : List (DataChunk (Tagged τ))}
    {m : StdMap (InProgressBatch (Tagged τ))} {w w2 : Nat} (h : Orderly n front m w)
    (hwf : StdMap.WF m) (hw : w ≤ w2)
    (hd : ∀ e ∈ m, e.1 < w2 → e.2.completed = true) :
    Orderly n (front ++ inProgressChunks (m.takeWhile (promotable w2)))
      (m.dropWhile (promotable w2)) w2 := by
  have hsub1 : (m.takeWhile (promotable w2)).Sublist m := List.takeWhile_sublist _
  have hsub2 : (m.dropWhile (promotable w2)).Sublist m := List.dropWhile_sublist _
  refine ⟨dropWhile_keys_above hwf hd, fun e he => h.entry_batch e (hsub2.subset he),
    fun e he => h.entry_seq e (hsub2.subset he),
    fun e he => h.seq_entries e (hsub2.subset he), ?_, ?_, ?_⟩
  · intro c hc
    rcases List.mem_append.1 hc with h1 | h1
    · exact h.seq_front c h1
    · obtain ⟨e, he, hce⟩ := mem_inProgressChunks h1
      exact h.seq_entries e (hsub1.subset he) c hce
  · intro c hc
    rcases List.mem_append.1 hc with h1 | h1
    · exact le_trans (h.front_le c h1) hw
    · obtain ⟨e, he, hce⟩ := mem_inProgressChunks h1
      rw [h.entry_batch e (hsub1.subset he) c hce]
      have := List.mem_takeWhile_imp he
      simp only [promotable, Bool.and_eq_true, decide_eq_true_eq] at this
      exact this.1
  · rw [List.pairwise_append]
    refine ⟨h.ordered, ?_, ?_⟩
    · exact inProgressChunks_ordered (StdMap.WF_of_sublist hsub1 hwf)
        (fun e he => h.entry_batch e (hsub1.subset he))
        (fun e he => h.entry_seq e (hsub1.subset he))
    · intro x hx y hy
      obtain ⟨e, he, hye⟩ := mem_inProgressChunks hy
      left
      rw [h.entry_batch e (hsub1.subset he) y hye]
      exact lt_of_le_of_lt (h.front_le x hx) (h.keys e (hsub1.subset he))

theorem Orderly_prepare {n : Nat} {d : List (DataChunk (Tagged τ))}
    {s : BatchedBufferedData (Tagged τ)} (hc : s.Consistent)
    (h : Orderly n (d ++ s.batches) s.in_progress_batches s.min_batch) :
    Orderly n (d ++ (BatchedBufferedData.Scan.prepare s).batches)
      (BatchedBufferedData.Scan.prepare s).in_progress_batches
      (BatchedBufferedData.Scan.prepare s).min_batch := by
  unfold BatchedBufferedData.Scan.prepare
  split
  · rename_i batch chunks rest hb hi
    split_ifs
    · rw [BatchedBufferedData.UpdateMinBatchIndex_batches,
        BatchedBufferedData.UpdateMinBatchIndex_in_progress _ _ hc.wf_in_progress,
        BatchedBufferedData.UpdateMinBatchIndex_min_batch, ← List.append_assoc]
      exact h.promote hc.wf_in_progress (le_max_left _ _)
        (prepare_disciplined hc.wf_in_progress h.keys hi)
    · exact h
  · exact h

theorem Orderly_step (cfg : BufferSizes) (n : Nat) (r : Run (Tagged τ)) (op : Op τ)
    (hc : r.buf.Consistent) (h : r.Orderly n)
    (hd : Op.disciplined r.buf (op.tag n) = true) :
    (r.step cfg (op.tag n)).Orderly (n + 1) := by
  unfold Run.Orderly at *
  cases op with
  | Append chunk batch =>
    have hle : r.buf.min_batch ≤ batch := by simpa [Op.disciplined, Op.tag] using hd
    by_cases hb : batch = r.buf.min_batch
    · simp only [Op.tag, Run.step, Run.delivered, BatchedBufferedData.Append_current _ _ _ hb]
      rw [← List.append_assoc, hb]
      exact h.push_current chunk.size chunk.data
    · obtain ⟨pre, post, old, e1, e2⟩ := BatchedBufferedData.Append_other
        (⟨chunk.size, ⟨batch, n, chunk.data⟩⟩ : DataChunk (Tagged τ)) batch r.buf hb
        hc.wf_in_progress
      simp only [Op.tag, Run.step, Run.delivered, e1]
      refine h.push_other batch old (by omega) chunk.size chunk.data ?_ ?_
      · rcases e2 with ⟨-, e3⟩ | ⟨f, e2⟩
        · exact Or.inl e3
        · exact Or.inr ⟨f, by rw [e2]; simp⟩
      · intro e he
        simp only [List.mem_append, List.mem_cons] at he
        rcases e2 with ⟨e2, -⟩ | ⟨f, e2⟩
        · rw [e2]
          rcases he with he | he | he
          · exact Or.inl (by simp [he])
          · exact Or.inr (by rw [he]; exact ⟨rfl, rfl⟩)
          · exact Or.inl (by simp [he])
        · rw [e2]
          rcases he with he | he | he
          · exact Or.inl (by simp [he])
          · exact Or.inr (by rw [he]; exact ⟨rfl, rfl⟩)
          · exact Or.inl (by simp [he])
  | CompleteBatch batch =>
    simp only [Op.tag, Run.step, Run.delivered]
    rcases BatchedBufferedData.CompleteBatch_shape batch r.buf hc.wf_in_progress with
      e | ⟨pre, post, bc, e1, e2⟩
    · rw [e]; exact h.mono (Nat.le_succ n)
    · rw [e2]
      simp only
      refine (h.mono (Nat.le_succ n)).same_chunks ?_
      intro e2 he2
      simp only [List.mem_append, List.mem_cons] at he2
      rw [e1]
      rcases he2 with he | he | he
      · exact ⟨e2, by simp [he], rfl, rfl⟩
      · exact ⟨(batch, bc), by simp, by rw [he], by rw [he]⟩
      · exact ⟨e2, by simp [he], rfl, rfl⟩
  | BlockSink b batch => exact h.mono (Nat.le_succ n)
  | UnblockSinks => exact h.mono (Nat.le_succ n)
  | UpdateMinBatchIndex c =>
    simp only [Op.tag, Run.step, Run.delivered]
    rw [BatchedBufferedData.UpdateMinBatchIndex_batches,
      BatchedBufferedData.UpdateMinBatchIndex_in_progress _ _ hc.wf_in_progress,
      BatchedBufferedData.UpdateMinBatchIndex_min_batch, ← List.append_assoc]
    exact (h.promote hc.wf_in_progress (le_max_left _ _)
      (disciplined_UpdateMinBatchIndex hd)).mono (Nat.le_succ n)
  | Scan =>
    have h1 := Run.delivered_Scan cfg r
    obtain ⟨-, -, r3, r4, -⟩ := Scan_result r.buf
    simp only [Op.tag] at h1 ⊢
    rw [h1]
    simp only [Run.step]
    rw [r3, r4]
    exact (Orderly_prepare hc h).mono (Nat.le_succ n)

theorem Orderly_exec (cfg : BufferSizes) (n : Nat) (r : Run (Tagged τ)) (ops : List (Op τ))
    (hc : r.buf.Consistent) (h : r.Orderly n)
    (hd : Run.admits Op.disciplined cfg r (tagCalls n ops) = true) :
    (Run.exec cfg r (tagCalls n ops)).Orderly (n + ops.length) := by
  induction ops generalizing r n with
  | nil => exact h
  | cons op ops ih =>
    simp only [tagCalls, Run.admits, Bool.and_eq_true] at hd
    simp only [tagCalls, Run.exec, List.length_cons]
    have := ih (n + 1) _ (Consistent_step cfg r (op.tag n) hc) (Orderly_step cfg n r op hc h hd.1)
      hd.2
    rw [Nat.add_assoc, Nat.add_comm 1 ops.length] at this
    exact this

/-- The chunks delivered by a disciplined run on a fresh buffer are in
delivery order. -/
theorem delivered_ordered (cfg : BufferSizes) (ops : List (Op τ))
    (hd : Run.admits Op.disciplined cfg (Run.fresh (Tagged τ)) (tagCalls 0 ops) = true) :
    (Run.exec cfg (Run.fresh (Tagged τ)) (tagCalls 0 ops)).delivered.Pairwise Tagged.before := by
  have h0 : (Run.fresh (Tagged τ)).Orderly 0 := by
    unfold Run.Orderly
    refine ⟨?_, ?_, ?_, ?_, ?_, ?_, ?_⟩ <;>
      simp [Run.fresh, Run.delivered, BatchedBufferedData.construct]
  have h := Orderly_exec cfg 0 (Run.fresh (Tagged τ)) ops
    BatchedBufferedData.Consistent_construct h0 hd
  exact List.Pairwise.sublist (List.sublist_append_left _ _) h.ordered

/-! ### Draining -/

theorem prepare_in_progress_sublist {s : BatchedBufferedData τ}
    (hwf : StdMap.WF s.in_progress_batches) :
    (BatchedBufferedData.Scan.prepare s).in_progress_batches.Sublist s.in_progress_batches := by
  unfold BatchedBufferedData.Scan.prepare
  split
  · split_ifs
    · rw [BatchedBufferedData.UpdateMinBatchIndex_in_progress _ _ hwf]
      exact List.dropWhile_sublist _
    · exact List.Sublist.refl _
  · exact List.Sublist.refl _

/-- When every in-progress batch is completed, `Scan` finds a chunk as long as
the buffer holds one. -/
theorem prepare_batches_ne_nil {s : BatchedBufferedData τ} (hc : s.Consistent)
    (hall : ∀ e ∈ s.in_progress_batches, e.2.completed = true)
    (hne : s.batches ++ inProgressChunks s.in_progress_batches ≠ []) :
    (BatchedBufferedData.Scan.prepare s).batches ≠ [] := by
  cases hb : s.batches with
  | cons c rest =>
    rw [prepare_of_batches hb, hb]
    simp
  | nil =>
    cases hi : s.in_progress_batches with
    | nil => rw [hb, hi] at hne; simp at hne
    | cons a rest =>
      obtain ⟨k, b⟩ := a
      have hcomp : b.completed = true := hall (k, b) (by rw [hi]; exact List.mem_cons_self _ _)
      have hbne : b.chunks ≠ [] :=
        hc.nonempty (k, b) (by rw [hi]; exact List.mem_cons_self _ _)
      rw [prepare_of_completed hb hi hcomp, BatchedBufferedData.UpdateMinBatchIndex_batches,
        hb, hi]
      have hprom : promotable (max s.min_batch k) (k, b) = true := by
        simp [promotable, hcomp]
      simp [List.takeWhile, hprom, hbne]

/-- Draining: when every in-progress batch is completed, repeated `Scan` calls
return the chunks of `batches` and then those of `in_progress_batches` in key
order, and the call after the last chunk returns null. -/
theorem drain (cfg : BufferSizes) (held : List (DataChunk τ)) (r : Run τ)
    (hc : r.buf.Consistent) (hall : ∀ e ∈ r.buf.in_progress_batches, e.2.completed = true)
    (hheld : held = r.buf.batches ++ inProgressChunks r.buf.in_progress_batches) :
    (Run.exec cfg r (List.replicate (held.length + 1) .Scan)).scanned =
      r.scanned ++ held.map some ++ [none] := by
  induction held generalizing r with
  | nil =>
    obtain ⟨r1, -⟩ := Scan_result r.buf
    have hcont := prepare_content r.buf hc.wf_in_progress
    rw [← hheld] at hcont
    have hb : (BatchedBufferedData.Scan.prepare r.buf).batches = [] :=
      (List.append_eq_nil.1 hcont).1
    rw [hb] at r1
    simp [Run.exec, Run.step, r1]
  | cons c rest ih =>
    obtain ⟨r1, r2, r3, -⟩ := Scan_result r.buf
    have hcont := prepare_content r.buf hc.wf_in_progress
    rw [← hheld] at hcont
    have hne := prepare_batches_ne_nil hc hall (by rw [← hheld]; simp)
    obtain ⟨c2, rest2, hb⟩ := List.exists_cons_of_ne_nil hne
    rw [hb] at hcont r1 r2
    simp only [List.cons_append, List.cons.injEq] at hcont
    obtain ⟨hc2, hrest⟩ := hcont
    subst hc2
    have hstep := ih (r.step cfg .Scan) (Consistent_step cfg r .Scan hc)
      (by
        intro e he
        simp only [Run.step] at he
        rw [r3] at he
        exact hall e ((prepare_in_progress_sublist hc.wf_in_progress).subset he))
      (by
        simp only [Run.step]
        rw [r2, r3]
        exact hrest.symm)
    simp only [List.length_cons, List.replicate_succ, Run.exec] at hstep ⊢
    rw [hstep]
    simp [Run.step, r1]

/-! ### `UnblockSinks` -/

theorem erase_eq_filter {V : Type} (key : Nat) {m : StdMap V} (h : StdMap.WF m) :
    StdMap.erase key m = m.filter fun e => !decide (e.1 = key) := by
  induction m with
  | nil => rfl
  | cons a rest ih =>
    obtain ⟨k, w⟩ := a
    have h2 := StdMap.WF_cons.1 h
    unfold StdMap.erase
    split_ifs with h1
    · subst h1
      have hrest : (rest.filter fun e => !decide (e.1 = k)) = rest := by
        rw [List.filter_eq_self]
        intro e he
        have := h2.1 e.1 (List.mem_map.2 ⟨e, he, rfl⟩)
        simp only [Bool.not_eq_true', decide_eq_false_iff_not]
        omega
      simp [List.filter_cons, hrest]
    · simp only [List.filter_cons, h1, decide_False, Bool.not_false, if_true, ih h2.2]

theorem eraseAll_eq_filter {V : Type} (ks : List Nat) {m : StdMap V} (h : StdMap.WF m) :
    StdMap.eraseAll ks m = m.filter fun e => !decide (e.1 ∈ ks) := by
  induction ks generalizing m with
  | nil => simp [StdMap.eraseAll]
  | cons k rest ih =>
    simp only [StdMap.eraseAll]
    rw [ih (StdMap.WF_of_sublist (StdMap.erase_sublist k m) h), erase_eq_filter k h,
      List.filter_filter]
    apply List.filter_congr
    intro e _
    by_cases h1 : e.1 = k <;> by_cases h2 : e.1 ∈ rest <;> simp [h1, h2]

/-- The first loop of `UnblockSinks` fires, in key order, the tokens whose batch
should not block, and stacks their keys. -/
theorem UnblockSinks_walk_eq (cfg : BufferSizes) (s : BatchedBufferedData τ)
    (m : StdMap BlockedSink) (fired : List BlockedSink) (tr : List Nat) :
    BatchedBufferedData.UnblockSinks.walk cfg s m fired tr =
      (fired ++ (m.filter fun e => !s.ShouldBlockBatch cfg e.1).map Prod.snd,
        (StdMap.keys (m.filter fun e => !s.ShouldBlockBatch cfg e.1)).reverse ++ tr) := by
  induction m generalizing fired tr with
  | nil => simp [BatchedBufferedData.UnblockSinks.walk, StdMap.keys]
  | cons a rest ih =>
    obtain ⟨batch, sink⟩ := a
    by_cases h1 : s.IsMinBatch batch = true
    · by_cases h2 : s.current_batch_tuple_count ≥ cfg.CURRENT_BATCH_BUFFER_SIZE
      · have hsb : s.ShouldBlockBatch cfg batch = true := by
          simp [BatchedBufferedData.ShouldBlockBatch, h1, h2]
        simp only [BatchedBufferedData.UnblockSinks.walk, h1, h2, if_true, List.filter_cons, hsb,
          Bool.not_true, Bool.false_eq_true, if_false]
        exact ih fired tr
      · have hsb : s.ShouldBlockBatch cfg batch = false := by
          simp [BatchedBufferedData.ShouldBlockBatch, h1, h2]
        simp only [BatchedBufferedData.UnblockSinks.walk, h1, h2, if_true, if_false,
          List.filter_cons, hsb, Bool.not_false, Bool.false_eq_true]
        rw [ih (fired ++ [sink]) (batch :: tr)]
        simp only [StdMap.keys, List.map_cons, List.reverse_cons, List.append_assoc,
          List.singleton_append]
    · by_cases h2 : s.other_batches_tuple_count ≥ cfg.OTHER_BATCHES_BUFFER_SIZE
      · have hsb : s.ShouldBlockBatch cfg batch = true := by
          simp [BatchedBufferedData.ShouldBlockBatch, h1, h2]
        simp only [BatchedBufferedData.UnblockSinks.walk, h1, h2, if_true, List.filter_cons, hsb,
          Bool.not_true, Bool.false_eq_true, if_false]
        exact ih fired tr
      · have hsb : s.ShouldBlockBatch cfg batch = false := by
          simp [BatchedBufferedData.ShouldBlockBatch, h1, h2]
        simp only [BatchedBufferedData.UnblockSinks.walk, h1, h2, if_true, if_false,
          List.filter_cons, hsb, Bool.not_false, Bool.false_eq_true]
        rw [ih (fired ++ [sink]) (batch :: tr)]
        simp only [StdMap.keys, List.map_cons, List.reverse_cons, List.append_assoc,
          List.singleton_append]

theorem UnblockSinks_eq (cfg : BufferSizes) (s : BatchedBufferedData τ)
    (hwf : StdMap.WF s.blocked_sinks) :
    s.UnblockSinks cfg =
      ((s.blocked_sinks.filter fun e => !s.ShouldBlockBatch cfg e.1).map Prod.snd,
        { s with blocked_sinks := s.blocked_sinks.filter fun e => s.ShouldBlockBatch cfg e.1 }) := by
  unfold BatchedBufferedData.UnblockSinks
  rw [UnblockSinks_walk_eq]
  simp only [List.nil_append, List.append_nil]
  rw [eraseAll_eq_filter _ hwf]
  congr 2
  apply List.filter_congr
  intro e he
  cases hb : s.ShouldBlockBatch cfg e.1
  · simp only [Bool.not_eq_eq_eq_not, Bool.not_false, decide_eq_true_eq, List.mem_reverse]
    exact List.mem_map.2 ⟨e, List.mem_filter.2 ⟨he, by simp [hb]⟩, rfl⟩
  · simp only [Bool.not_eq_eq_eq_not, Bool.not_true, decide_eq_false_iff_not, List.mem_reverse]
    intro hmem
    obtain ⟨e2, he2, heq⟩ := List.mem_map.1 hmem
    have := (List.mem_filter.1 he2).2
    rw [heq, hb] at this
    simp at this

/-! ### The completion flag -/

theorem unique_of_WF {V : Type} {m : StdMap V} (h : StdMap.WF m) {k : Nat} {v1 v2 : V}
    (h1 : (k, v1) ∈ m) (h2 : (k, v2) ∈ m) : v1 = v2 := by
  induction m with
  | nil => simp at h1
  | cons a rest ih =>
    have hwf := StdMap.WF_cons.1 h
    rcases List.mem_cons.1 h1 with e1 | e1 <;> rcases List.mem_cons.1 h2 with e2 | e2
    · rw [← e1] at e2
      exact (Prod.mk.inj e2).2.symm
    · have := hwf.1 k (StdMap.mem_keys_of_mem e2)
      rw [← e1] at this
      simp only at this
      omega
    · have := hwf.1 k (StdMap.mem_keys_of_mem e1)
      rw [← e2] at this
      simp only at this
      omega
    · exact ih hwf.2 e1 e2

theorem mem_assign_self {V : Type} (key : Nat) (v : V) (m : StdMap V) :
    (key, v) ∈ StdMap.assign key v m :=
  StdMap.mem_of_find (StdMap.find_assign key v m)

theorem eq_of_mem_assign {V : Type} {key : Nat} {v b : V} {m : StdMap V} (h : StdMap.WF m)
    (hb : (key, b) ∈ StdMap.assign key v m) : b = v :=
  unique_of_WF (StdMap.WF_assign h) hb (mem_assign_self key v m)

theorem mem_of_mem_assign_ne {V : Type} {key k : Nat} {v b : V} {m : StdMap V} (hk : k ≠ key)
    (hb : (k, b) ∈ StdMap.assign key v m) : (k, b) ∈ m := by
  rcases StdMap.mem_assign hb with h | h
  · exact absurd (Prod.mk.inj h).1 hk
  · exact h

/-- One call changes the flag of the entry of batch `k` as `Op.flagAfter` says. -/
theorem flag_step (cfg : BufferSizes) (k : Nat) (r : Run τ) (op : Op τ) (f : Bool)
    (hc : r.buf.Consistent)
    (hf : ∀ b, (k, b) ∈ r.buf.in_progress_batches → b.completed = f) :
    ∀ b, (k, b) ∈ (r.step cfg op).buf.in_progress_batches →
      b.completed = Op.flagAfter k r.buf f op := by
  intro b hb
  cases op with
  | Append chunk batch =>
    simp only [Run.step, BatchedBufferedData.Append] at hb
    simp only [Op.flagAfter]
    by_cases h1 : batch = r.buf.min_batch
    · rw [if_pos h1] at hb
      rw [if_neg (fun h => h.2 h1)]
      exact hf b hb
    · rw [if_neg h1] at hb
      by_cases h2 : batch = k
      · subst h2
        rw [if_pos ⟨rfl, h1⟩, eq_of_mem_assign hc.wf_in_progress hb]
      · have h3 : k ≠ batch := fun h => h2 h.symm
        rw [if_neg (fun h => h2 h.1)]
        exact hf b (mem_of_mem_assign_ne h3 hb)
  | CompleteBatch batch =>
    simp only [Run.step, BatchedBufferedData.CompleteBatch] at hb
    simp only [Op.flagAfter]
    cases hfind : StdMap.find batch r.buf.in_progress_batches with
    | none =>
      rw [hfind] at hb
      by_cases h2 : batch = k
      · subst h2
        exact absurd (StdMap.mem_keys_of_mem hb) (StdMap.find_eq_none.1 hfind)
      · rw [if_neg h2]; exact hf b hb
    | some bc =>
      rw [hfind] at hb
      simp only at hb
      by_cases h2 : batch = k
      · subst h2
        rw [if_pos rfl, eq_of_mem_assign hc.wf_in_progress hb]
      · have h3 : k ≠ batch := fun h => h2 h.symm
        rw [if_neg h2]
        exact hf b (mem_of_mem_assign_ne h3 hb)
  | BlockSink sink batch => exact hf b hb
  | UnblockSinks => exact hf b hb
  | UpdateMinBatchIndex c =>
    simp only [Run.step] at hb
    rw [BatchedBufferedData.UpdateMinBatchIndex_in_progress c _ hc.wf_in_progress] at hb
    exact hf b ((List.dropWhile_sublist _).subset hb)
  | Scan =>
    simp only [Run.step] at hb
    rw [(Scan_result r.buf).2.2.1] at hb
    exact hf b ((prepare_in_progress_sublist hc.wf_in_progress).subset hb)

theorem CompletedSince_cons (cfg : BufferSizes) (k : Nat) (r : Run τ) (op : Op τ)
    (ops : List (Op τ)) :
    Run.CompletedSince cfg k r (op :: ops) ↔
      (op = Op.CompleteBatch k ∧ Run.noStore cfg k (r.step cfg op) ops = true) ∨
        Run.CompletedSince cfg k (r.step cfg op) ops := by
  constructor
  · rintro ⟨pre, post, h1, h2⟩
    cases pre with
    | nil =>
      simp only [List.nil_append, List.cons.injEq] at h1
      obtain ⟨rfl, rfl⟩ := h1
      exact Or.inl ⟨rfl, h2⟩
    | cons a pre2 =>
      simp only [List.cons_append, List.cons.injEq] at h1
      obtain ⟨rfl, rfl⟩ := h1
      exact Or.inr ⟨pre2, post, rfl, h2⟩
  · rintro (⟨rfl, h2⟩ | ⟨pre, post, h1, h2⟩)
    · exact ⟨[], ops, rfl, h2⟩
    · exact ⟨op :: pre, post, by rw [h1]; rfl, h2⟩

/-- The flag of the entry of batch `k` after a call sequence, for entries that
carried the flag `f` at its start. -/
theorem flag_exec (cfg : BufferSizes) (k : Nat) (ops : List (Op τ)) (r : Run τ) (f : Bool)
    (hc : r.buf.Consistent)
    (hf : ∀ b, (k, b) ∈ r.buf.in_progress_batches → b.completed = f) :
    ∀ b, (k, b) ∈ (Run.exec cfg r ops).buf.in_progress_batches →
      (b.completed = true ↔
        Run.CompletedSince cfg k r ops ∨ (f = true ∧ Run.noStore cfg k r ops = true)) := by
  induction ops generalizing r f with
  | nil =>
    intro b hb
    have h0 : ¬ Run.CompletedSince cfg k r [] := by
      rintro ⟨pre, post, h1, -⟩
      cases pre <;> simp at h1
    simp only [Run.exec] at hb
    rw [hf b hb]
    simp [h0, Run.noStore]
  | cons op ops ih =>
    intro b hb
    have hstep := flag_step cfg k r op f hc hf
    have := ih (r.step cfg op) _ (Consistent_step cfg r op hc) hstep b hb
    rw [this, CompletedSince_cons]
    simp only [Run.noStore, Bool.and_eq_true, Bool.not_eq_true']
    cases op with
    | Append chunk batch =>
      simp only [Op.flagAfter, Op.storesInto, reduceCtorEq, false_and, false_or]
      by_cases h1 : batch = k
      · subst h1
        by_cases h2 : batch = r.buf.min_batch
        · simp only [h2, ne_eq, not_true_eq_false, and_false, if_false, decide_True,
            Bool.not_true, Bool.and_false, true_and]
        · simp [h2]
      · simp [h1]
    | CompleteBatch batch =>
      simp only [Op.flagAfter, Op.storesInto, Op.CompleteBatch.injEq, true_and]
      by_cases h1 : batch = k
      · simp only [h1, if_true, true_and]
        tauto
      · simp [h1]
    | BlockSink sink batch => simp [Op.flagAfter, Op.storesInto]
    | UnblockSinks => simp [Op.flagAfter, Op.storesInto]
    | UpdateMinBatchIndex c => simp [Op.flagAfter, Op.storesInto]
    | Scan => simp [Op.flagAfter, Op.storesInto]

/-! ### The sweeps -/

theorem takeWhile_eq_filter_of_disciplined {m : StdMap (InProgressBatch τ)} {w : Nat}
    (hwf : StdMap.WF m) (hd : ∀ e ∈ m, e.1 < w → e.2.completed = true) :
    m.takeWhile (promotable w) = m.filter (fun e => decide (e.1 ≤ w)) ∧
    m.dropWhile (promotable w) = m.filter (fun e => decide (w < e.1)) := by
  induction m with
  | nil => simp
  | cons a rest ih =>
    have hwf2 := StdMap.WF_cons.1 hwf
    have hp := promotable_of_disciplined hd (List.mem_cons_self a rest)
    obtain ⟨i1, i2⟩ := ih hwf2.2 (fun e he => hd e (List.mem_cons_of_mem _ he))
    by_cases hle : a.1 ≤ w
    · have hp2 : promotable w a = true := by rw [hp]; simpa using hle
      have hnot : ¬ w < a.1 := by omega
      rw [List.takeWhile_cons_of_pos hp2, List.dropWhile_cons_of_pos hp2]
      simp only [List.filter_cons, hle, hnot, decide_True, decide_False, if_true,
        Bool.false_eq_true, if_false, i1, i2, and_self]
    · have hp2 : ¬ promotable w a = true := by rw [hp]; simpa using hle
      have hlt : w < a.1 := by omega
      rw [List.takeWhile_cons_of_neg hp2, List.dropWhile_cons_of_neg hp2]
      have hall : ∀ e ∈ rest, w < e.1 := fun e he =>
        lt_trans hlt (hwf2.1 e.1 (List.mem_map.2 ⟨e, he, rfl⟩))
      have h1 : rest.filter (fun e => decide (e.1 ≤ w)) = [] := by
        rw [List.filter_eq_nil_iff]
        intro e he
        have := hall e he
        simp only [decide_eq_true_eq]
        omega
      have h2 : rest.filter (fun e => decide (w < e.1)) = rest := by
        rw [List.filter_eq_self]
        intro e he
        simpa using hall e he
      simp only [List.filter_cons, hle, hlt, decide_True, decide_False, if_true,
        Bool.false_eq_true, if_false, h1, h2, and_self]

theorem takeWhile_dropWhile_nil {α : Type} (p : α → Bool) (l : List α) :
    (l.dropWhile p).takeWhile p = [] := by
  induction l with
  | nil => rfl
  | cons a rest ih =>
    by_cases h : p a = true
    · rw [List.dropWhile_cons_of_pos h]; exact ih
    · rw [List.dropWhile_cons_of_neg h, List.takeWhile_cons_of_neg h]

theorem walk_of_takeWhile_nil (m : StdMap (InProgressBatch τ)) (s : BatchedBufferedData τ)
    (tr : List Nat) (h : m.takeWhile (promotable s.min_batch) = []) :
    BatchedBufferedData.UpdateMinBatchIndex.walk m s tr = (s, tr) := by
  cases m with
  | nil => rfl
  | cons a rest =>
    obtain ⟨batch, bc⟩ := a
    have hp : promotable s.min_batch (batch, bc) = false := by
      by_contra hc
      have hc2 : promotable s.min_batch (batch, bc) = true := by simpa using hc
      rw [List.takeWhile_cons_of_pos hc2] at h
      exact absurd h (by simp)
    unfold BatchedBufferedData.UpdateMinBatchIndex.walk
    simp only [promotable, Bool.and_eq_false_imp, decide_eq_true_eq, Bool.or_eq_false_iff,
      decide_eq_false_iff_not] at hp
    split_ifs with g1 g2
    · rfl
    · rfl
    · exfalso
      have hle : batch ≤ s.min_batch := by omega
      have := hp hle
      exact g2 ⟨this.1, this.2⟩

theorem UpdateMinBatchIndex_idem (c : Nat) (s : BatchedBufferedData τ)
    (hwf : StdMap.WF s.in_progress_batches) :
    (s.UpdateMinBatchIndex c).UpdateMinBatchIndex c = s.UpdateMinBatchIndex c := by
  have hmin := BatchedBufferedData.UpdateMinBatchIndex_min_batch c s
  have hip := BatchedBufferedData.UpdateMinBatchIndex_in_progress c s hwf
  generalize s.UpdateMinBatchIndex c = s2 at hmin hip
  have hmax : max s2.min_batch c = s2.min_batch := by
    rw [hmin]; exact max_eq_left (le_max_right _ _)
  unfold BatchedBufferedData.UpdateMinBatchIndex
  simp only [hmax]
  rw [walk_of_takeWhile_nil]
  · rfl
  · simp only
    rw [hip, hmin]
    exact takeWhile_dropWhile_nil _ _

theorem ShouldBlockBatch_congr (cfg : BufferSizes) (s s2 : BatchedBufferedData τ)
    (h1 : s2.min_batch = s.min_batch)
    (h2 : s2.current_batch_tuple_count = s.current_batch_tuple_count)
    (h3 : s2.other_batches_tuple_count = s.other_batches_tuple_count) (b : Nat) :
    s2.ShouldBlockBatch cfg b = s.ShouldBlockBatch cfg b := by
  simp only [BatchedBufferedData.ShouldBlockBatch, BatchedBufferedData.IsMinBatch, h1, h2, h3]

theorem UnblockSinks_idem (cfg : BufferSizes) (s : BatchedBufferedData τ)
    (hwf : StdMap.WF s.blocked_sinks) :
    (s.UnblockSinks cfg).2.UnblockSinks cfg = ([], (s.UnblockSinks cfg).2) := by
  rw [UnblockSinks_eq cfg s hwf]
  simp only
  rw [UnblockSinks_eq]
  · have hsb : ∀ b, BatchedBufferedData.ShouldBlockBatch cfg
        { s with blocked_sinks := s.blocked_sinks.filter fun e => s.ShouldBlockBatch cfg e.1 } b
          = s.ShouldBlockBatch cfg b :=
      fun b => ShouldBlockBatch_congr cfg s _ rfl rfl rfl b
    simp only [hsb, List.filter_filter, Bool.not_and_self, Bool.and_self, List.filter_false,
      List.map_nil]
  · exact StdMap.WF_of_sublist (List.filter_sublist _) hwf

/-! ### Delim-join planning -/

mutual
/-- `GatherDelimScans` appends the delim-scans of the tree in pre-order. -/
theorem GatherDelimScans_eq (t : PhysicalOperator) (l : List PhysicalOperator) :
    GatherDelimScans t l =
      l ++ t.preorder.filter (fun n => decide (n.type = PhysicalOperatorType.DELIM_SCAN)) := by
  cases t with
  | mk type types card children =>
    rw [GatherDelimScans, PhysicalOperator.preorder, GatherDelimScans_loop_eq]
    by_cases h : type = PhysicalOperatorType.DELIM_SCAN <;>
      simp [h, PhysicalOperator.type, List.filter_cons]
/-- The loop of `GatherDelimScans` appends the delim-scans of the trees in
pre-order, tree after tree. -/
theorem GatherDelimScans_loop_eq (ts : List PhysicalOperator) (l : List PhysicalOperator) :
    GatherDelimScans.loop ts l =
      l ++ (PhysicalOperator.preorderAll ts).filter
        (fun n => decide (n.type = PhysicalOperatorType.DELIM_SCAN)) := by
  cases ts with
  | nil => simp [GatherDelimScans.loop, PhysicalOperator.preorderAll]
  | cons c rest =>
    rw [GatherDelimScans.loop, GatherDelimScans_eq c, GatherDelimScans_loop_eq rest,
      PhysicalOperator.preorderAll]
    simp
end

theorem distinctGroups_eq (cols : List BoundReferenceExpression) (ts : List LogicalType)
    (gs : List BoundReferenceExpression) :
    PhysicalPlanGenerator.distinctGroups cols ts gs =
      (ts ++ cols.map (·.return_type),
        gs ++ cols.map fun c => ⟨c.return_type, c.index⟩) := by
  induction cols generalizing ts gs with
  | nil => simp [PhysicalPlanGenerator.distinctGroups]
  | cons c rest ih => simp [PhysicalPlanGenerator.distinctGroups, ih]

theorem GatherDelimScans_isEmpty (child : PhysicalOperator) :
    (GatherDelimScans child []).isEmpty = true ↔
      ∀ n ∈ child.preorder, n.type ≠ PhysicalOperatorType.DELIM_SCAN := by
  rw [GatherDelimScans_eq, List.nil_append, List.isEmpty_iff, List.filter_eq_nil_iff]
  simp

/-- The result of `PlanLeftDelimJoin` when the join plan has a right child. -/
theorem PlanLeftDelimJoin_eq (gen : PhysicalPlanGenerator) (op : LogicalComparisonJoin)
    (child : PhysicalOperator) (h : (gen.PlanComparisonJoin op).children[1]? = some child) :
    gen.PlanLeftDelimJoin op =
      if (GatherDelimScans child []).isEmpty then .ok (.plain (gen.PlanComparisonJoin op))
      else .ok (.LeftDelimJoin (PhysicalPlanGenerator.delimJoinNode op
        (gen.PlanComparisonJoin op) (GatherDelimScans child []))) := by
  simp only [PhysicalPlanGenerator.PlanLeftDelimJoin, h]

/-- The result of `PlanRightDelimJoin` when the join plan has a left child. -/
theorem PlanRightDelimJoin_eq (gen : PhysicalPlanGenerator) (op : LogicalComparisonJoin)
    (child : PhysicalOperator) (h : (gen.PlanComparisonJoin op).children[0]? = some child) :
    gen.PlanRightDelimJoin op =
      if (GatherDelimScans child []).isEmpty then .ok (.plain (gen.PlanComparisonJoin op))
      else .ok (.RightDelimJoin (PhysicalPlanGenerator.delimJoinNode op
        (gen.PlanComparisonJoin op) (GatherDelimScans child []))) := by
  simp only [PhysicalPlanGenerator.PlanRightDelimJoin, h]

/-- A delim-join node returned by `PlanLeftDelimJoin` is the one built from the
delim-scans of the right child. -/
theorem PlanLeftDelimJoin_node (gen : PhysicalPlanGenerator) (op : LogicalComparisonJoin)
    (node : PhysicalDelimJoin) (h : gen.PlanLeftDelimJoin op = .ok (.LeftDelimJoin node)) :
    ∃ child, (gen.PlanComparisonJoin op).children[1]? = some child ∧
      node = PhysicalPlanGenerator.delimJoinNode op (gen.PlanComparisonJoin op)
        (GatherDelimScans child []) := by
  cases hc : (gen.PlanComparisonJoin op).children[1]? with
  | none => simp [PhysicalPlanGenerator.PlanLeftDelimJoin, hc] at h
  | some child =>
    rw [PlanLeftDelimJoin_eq gen op child hc] at h
    split_ifs at h
    · simp at h
    · simp only [Except.ok.injEq, PlannedJoin.LeftDelimJoin.injEq] at h
      exact ⟨child, rfl, h.symm⟩

/-- A delim-join node returned by `PlanRightDelimJoin` is the one built from the
delim-scans of the left child. -/
theorem PlanRightDelimJoin_node (gen : PhysicalPlanGenerator) (op : LogicalComparisonJoin)
    (node : PhysicalDelimJoin) (h : gen.PlanRightDelimJoin op = .ok (.RightDelimJoin node)) :
    ∃ child, (gen.PlanComparisonJoin op).children[0]? = some child ∧
      node = PhysicalPlanGenerator.delimJoinNode op (gen.PlanComparisonJoin op)
        (GatherDelimScans child []) := by
  cases hc : (gen.PlanComparisonJoin op).children[0]? with
  | none => simp [PhysicalPlanGenerator.PlanRightDelimJoin, hc] at h
  | some child =>
    rw [PlanRightDelimJoin_eq gen op child hc] at h
    split_ifs at h
    · simp at h
    · simp only [Except.ok.injEq, PlannedJoin.RightDelimJoin.injEq] at h
      exact ⟨child, rfl, h.symm⟩

end runs

/-! ### The claims -/

section claims

variable {τ : Type}

/-- C1, as stated, fails: the counters are `idx_t` values and wrap around.
After `Append(chunk of size 2^64 - 1, 0)` and `Append(chunk of size 1, 0)` on a
fresh buffer (both with `batch >= min_batch`) `current_batch_tuple_count` is 0
while the chunk sizes in `batches` add up to `2 ^ 64`; the next `Scan` returns
the first chunk and its subtraction underflows, taking the counter from 0
to 1. -/
theorem C1_counterexample :
    Run.admits Op.appendOk scenarioSizes (Run.fresh String) callsOverflow = true ∧
    (Run.exec scenarioSizes (Run.fresh String) callsOverflow).buf.current_batch_tuple_count = 0 ∧
    sizes (Run.exec scenarioSizes (Run.fresh String) callsOverflow).buf.batches =
      18446744073709551616 ∧
    (Run.exec scenarioSizes (Run.fresh String) callsOverflow).buf.current_batch_tuple_count ≠
      sizes (Run.exec scenarioSizes (Run.fresh String) callsOverflow).buf.batches ∧
    ((Run.exec scenarioSizes (Run.fresh String) callsOverflow).buf.Scan).1 =
      some ⟨18446744073709551615, "big"⟩ ∧
    ¬ (18446744073709551615 ≤
      (BatchedBufferedData.Scan.prepare
        (Run.exec scenarioSizes (Run.fresh String) callsOverflow).buf).current_batch_tuple_count) ∧
    ((Run.exec scenarioSizes (Run.fresh String) callsOverflow).buf.Scan).2.current_batch_tuple_count
      = 1 := by
  decide

/-- C1, amended. Tuple-count invariant. In every state reached from a freshly
constructed buffer by any sequence of calls (a fortiori by the sequences with
`batch >= min_batch` at each `Append`), `current_batch_tuple_count` is the sum
of the chunk sizes in `batches` and `other_batches_tuple_count` is the sum of
the chunk sizes over all entries of `in_progress_batches`, as `idx_t` values
(modulo `2 ^ 64`). When the sizes of the appended chunks add up to less than
`2 ^ 64`, the counters are the exact sums and neither subtraction underflows:
the chunk that a `Scan` returns is no larger than the counter it is subtracted
from, and what an `UpdateMinBatchIndex(c)` promotes is no larger than
`other_batches_tuple_count`. -/
theorem C1_tuple_count_invariant (cfg : BufferSizes) (ops : List (Op τ)) :
    ((Run.exec cfg (Run.fresh τ) ops).buf.current_batch_tuple_count =
        sizes (Run.exec cfg (Run.fresh τ) ops).buf.batches % IDX_MOD ∧
      (Run.exec cfg (Run.fresh τ) ops).buf.other_batches_tuple_count =
        sizes (inProgressChunks (Run.exec cfg (Run.fresh τ) ops).buf.in_progress_batches)
          % IDX_MOD) ∧
    (sizes (appended ops) < IDX_MOD →
      (Run.exec cfg (Run.fresh τ) ops).buf.current_batch_tuple_count =
        sizes (Run.exec cfg (Run.fresh τ) ops).buf.batches ∧
      (Run.exec cfg (Run.fresh τ) ops).buf.other_batches_tuple_count =
        sizes (inProgressChunks (Run.exec cfg (Run.fresh τ) ops).buf.in_progress_batches) ∧
      (∀ chunk, ((Run.exec cfg (Run.fresh τ) ops).buf.Scan).1 = some chunk →
        chunk.size ≤ (BatchedBufferedData.Scan.prepare
          (Run.exec cfg (Run.fresh τ) ops).buf).current_batch_tuple_count) ∧
      ∀ c : Nat,
        sizes (inProgressChunks
          ((Run.exec cfg (Run.fresh τ) ops).buf.in_progress_batches.takeWhile
            (promotable (max (Run.exec cfg (Run.fresh τ) ops).buf.min_batch c)))) ≤
          (Run.exec cfg (Run.fresh τ) ops).buf.other_batches_tuple_count) := by
  have h := Consistent_fresh cfg ops
  have hle := held_le_appended cfg ops
  generalize (Run.exec cfg (Run.fresh τ) ops).buf = s at h hle ⊢
  refine ⟨⟨h.current, h.other⟩, fun hlt => ?_⟩
  have hcur : s.current_batch_tuple_count = sizes s.batches := by
    rw [h.current]; exact Nat.mod_eq_of_lt (by omega)
  have hoth : s.other_batches_tuple_count = sizes (inProgressChunks s.in_progress_batches) := by
    rw [h.other]; exact Nat.mod_eq_of_lt (by omega)
  refine ⟨hcur, hoth, ?_, ?_⟩
  · intro chunk hchunk
    have hp := BatchedBufferedData.Consistent_prepare h
    have hcont := congrArg sizes (prepare_content s h.wf_in_progress)
    simp only [sizes_append] at hcont
    rw [(Scan_result s).1] at hchunk
    rw [hp.current, Nat.mod_eq_of_lt (by omega)]
    cases hb : (BatchedBufferedData.Scan.prepare s).batches with
    | nil => rw [hb] at hchunk; simp at hchunk
    | cons c rest =>
      rw [hb] at hchunk
      simp only [List.head?_cons, Option.some.injEq] at hchunk
      rw [← hchunk, sizes_cons]
      omega
  · intro c
    rw [hoth]
    conv_rhs =>
      rw [← List.takeWhile_append_dropWhile (promotable (max s.min_batch c))
        s.in_progress_batches]
    rw [inProgressChunks_append, sizes_append]
    omega

/-- Witness for C1 (amended): after three appends of sizes 10, 5 and 7 the counters are
the exact sums. -/
theorem C1_tuple_count_invariant_witness :
    sizes (appended callsHeld) < IDX_MOD ∧
    (Run.exec scenarioSizes (Run.fresh String) callsHeld).buf.current_batch_tuple_count =
        sizes (Run.exec scenarioSizes (Run.fresh String) callsHeld).buf.batches ∧
      (Run.exec scenarioSizes (Run.fresh String) callsHeld).buf.other_batches_tuple_count =
        sizes (inProgressChunks
          (Run.exec scenarioSizes (Run.fresh String) callsHeld).buf.in_progress_batches) :=
  ⟨by decide, ((C1_tuple_count_invariant scenarioSizes callsHeld).2 (by decide)).1,
    ((C1_tuple_count_invariant scenarioSizes callsHeld).2 (by decide)).2.1⟩

/-- C2, as stated, fails: with only `batch >= min_batch` required of `Append`,
after `UpdateMinBatchIndex(2)` has run ahead of the incomplete batch 1 a chunk
of batch 2 is returned before the chunk of batch 1. -/
theorem C2_counterexample :
    Run.admits Op.appendOk scenarioSizes (Run.fresh String) callsAhead = true ∧
    (Run.exec scenarioSizes (Run.fresh String) callsAhead).delivered =
      [⟨10, "c"⟩, ⟨10, "a"⟩, ⟨10, "b"⟩] ∧
    (Run.exec scenarioSizes (Run.fresh (Tagged String)) (tagCalls 0 callsAhead)).delivered.map
      (·.data.batch) = [2, 1, 2] ∧
    ¬ ((Run.exec scenarioSizes (Run.fresh (Tagged String))
      (tagCalls 0 callsAhead)).delivered.map (·.data.batch)).Pairwise (· ≤ ·) := by
  decide

/-- C2, amended. Batch-order delivery under the caller discipline: for every
call sequence on a fresh buffer in which each `Append` has `batch >= min_batch`
and each `UpdateMinBatchIndex(c)` is made when every in-progress entry with key
below `max(min_batch, c)` is completed, the batch indices of the chunks
returned by the successive non-null `Scan` results are non-decreasing. The
batch index of a returned chunk is read off the label that `tagCalls` gives to
the chunk of each `Append`; by `exec_tagCalls` the labelled run is the run of
the calls themselves. -/
theorem C2_batch_order_delivery (cfg : BufferSizes) (ops : List (Op τ))
    (hd : Run.admits Op.disciplined cfg (Run.fresh τ) ops = true) :
    ((Run.exec cfg (Run.fresh (Tagged τ)) (tagCalls 0 ops)).delivered.map
      (·.data.batch)).Pairwise (· ≤ ·) := by
  rw [List.pairwise_map]
  refine List.Pairwise.imp ?_ (delivered_ordered cfg ops (by rw [admits_tagCalls]; exact hd))
  intro x y hxy
  rcases hxy with h | ⟨h, -⟩
  · exact le_of_lt h
  · exact le_of_eq h

/-- Witness for C2 (amended): scenario S2 followed by three scans. -/
theorem C2_batch_order_delivery_witness :
    Run.admits Op.disciplined scenarioSizes (Run.fresh String)
      (callsS2 ++ [.Scan, .Scan, .Scan]) = true ∧
    ((Run.exec scenarioSizes (Run.fresh (Tagged String))
      (tagCalls 0 (callsS2 ++ [.Scan, .Scan, .Scan]))).delivered.map
        (·.data.batch)).Pairwise (· ≤ ·) :=
  ⟨by decide, C2_batch_order_delivery scenarioSizes (callsS2 ++ [.Scan, .Scan, .Scan]) (by decide)⟩

/-- C3, as stated, fails: chunk `b` is appended to batch 2 (position 1) before
chunk `c` (position 3, same batch), both are returned, and `c` is returned
first. -/
theorem C3_counterexample :
    Run.admits Op.appendOk scenarioSizes (Run.fresh String) callsAhead = true ∧
    (Run.exec scenarioSizes (Run.fresh (Tagged String)) (tagCalls 0 callsAhead)).delivered[2]?
      = some ⟨10, ⟨2, 1, "b"⟩⟩ ∧
    (Run.exec scenarioSizes (Run.fresh (Tagged String)) (tagCalls 0 callsAhead)).delivered[0]?
      = some ⟨10, ⟨2, 3, "c"⟩⟩ ∧
    ¬ ∀ (i j : Nat) (c1 c2 : DataChunk (Tagged String)),
      (Run.exec scenarioSizes (Run.fresh (Tagged String))
        (tagCalls 0 callsAhead)).delivered[i]? = some c1 →
      (Run.exec scenarioSizes (Run.fresh (Tagged String))
        (tagCalls 0 callsAhead)).delivered[j]? = some c2 →
      c1.data.batch = c2.data.batch → c1.data.seq < c2.data.seq → i < j :=
  ⟨by decide, by decide, by decide, fun h =>
    absurd (h 2 0 ⟨10, ⟨2, 1, "b"⟩⟩ ⟨10, ⟨2, 3, "c"⟩⟩ (by decide) (by decide) rfl (by decide))
      (by decide)⟩

/-- C3, amended. Within-batch FIFO under the caller discipline: for every call
sequence on a fresh buffer in which each `Append` has `batch >= min_batch` and
each `UpdateMinBatchIndex(c)` is made when every in-progress entry with key
below `max(min_batch, c)` is completed, if two chunks were appended to the same
batch index, `c1` before `c2`, and both are returned by `Scan` (as the `i`-th
and the `j`-th returned chunk), then `c1` is returned before `c2`. Batch index
and position of the `Append` are read off the labels given by `tagCalls`. -/
theorem C3_within_batch_fifo (cfg : BufferSizes) (ops : List (Op τ))
    (hd : Run.admits Op.disciplined cfg (Run.fresh τ) ops = true)
    (i j : Nat) (c1 c2 : DataChunk (Tagged τ))
    (h1 : (Run.exec cfg (Run.fresh (Tagged τ)) (tagCalls 0 ops)).delivered[i]? = some c1)
    (h2 : (Run.exec cfg (Run.fresh (Tagged τ)) (tagCalls 0 ops)).delivered[j]? = some c2)
    (hb : c1.data.batch = c2.data.batch) (hs : c1.data.seq < c2.data.seq) : i < j := by
  have hp := List.pairwise_iff_getElem.1
    (delivered_ordered cfg ops (by rw [admits_tagCalls]; exact hd))
  obtain ⟨hi, e1⟩ := List.getElem?_eq_some.1 h1
  obtain ⟨hj, e2⟩ := List.getElem?_eq_some.1 h2
  by_contra hij
  rcases Nat.lt_or_ge j i with hlt | hge
  · have := hp j i hj hi hlt
    rw [e1, e2] at this
    unfold Tagged.before at this
    omega
  · have hij2 : i = j := by omega
    subst hij2
    rw [e1] at e2
    rw [e2] at hs
    exact absurd hs (lt_irrefl _)

/-- Witness for C3 (amended): two chunks appended to batch 0 and others to
later batches; the two are returned at positions 0 and 1. -/
theorem C3_within_batch_fifo_witness :
    Run.admits Op.disciplined scenarioSizes (Run.fresh String)
      (callsHeld ++ [.Append ⟨3, "w"⟩ 0, .Scan, .Scan]) = true ∧
    (Run.exec scenarioSizes (Run.fresh (Tagged String))
      (tagCalls 0 (callsHeld ++ [.Append ⟨3, "w"⟩ 0, .Scan, .Scan]))).delivered[0]?
        = some ⟨10, ⟨0, 0, "x"⟩⟩ ∧
    (Run.exec scenarioSizes (Run.fresh (Tagged String))
      (tagCalls 0 (callsHeld ++ [.Append ⟨3, "w"⟩ 0, .Scan, .Scan]))).delivered[1]?
        = some ⟨3, ⟨0, 3, "w"⟩⟩ ∧
    0 < 1 :=
  ⟨by decide, by decide, by decide,
    C3_within_batch_fifo scenarioSizes (callsHeld ++ [.Append ⟨3, "w"⟩ 0, .Scan, .Scan])
      (by decide) 0 1 ⟨10, ⟨0, 0, "x"⟩⟩ ⟨3, ⟨0, 3, "w"⟩⟩ (by decide) (by decide) rfl
      (by decide)⟩

/-- C4. Exactly-once delivery. Take any finite call sequence on a fresh buffer
after which every entry of `in_progress_batches` is completed. Calling `Scan`
repeatedly then returns finitely many chunks `drained` followed by null, and
the chunks returned by all `Scan` calls, before and during the drain, are the
appended chunks, each exactly once (a permutation of them). -/
theorem C4_exactly_once (cfg : BufferSizes) (ops : List (Op τ))
    (hall : ∀ e ∈ (Run.exec cfg (Run.fresh τ) ops).buf.in_progress_batches,
      e.2.completed = true) :
    ∃ drained : List (DataChunk τ),
      (Run.exec cfg (Run.fresh τ) (ops ++ List.replicate (drained.length + 1) .Scan)).scanned =
        (Run.exec cfg (Run.fresh τ) ops).scanned ++ drained.map some ++ [none] ∧
      ((Run.exec cfg (Run.fresh τ) ops).delivered ++ drained).Perm (appended ops) := by
  refine ⟨(Run.exec cfg (Run.fresh τ) ops).buf.batches ++
    inProgressChunks (Run.exec cfg (Run.fresh τ) ops).buf.in_progress_batches, ?_, ?_⟩
  · rw [Run.exec_append]
    exact drain cfg _ _ (Consistent_fresh cfg ops) hall rfl
  · exact content_fresh cfg ops

/-- Witness for C4, scenario S1: two size-50 chunks appended to batch 0 are
returned in order by two scans and the third scan returns null. -/
theorem C4_exactly_once_witness :
    (∀ e ∈ (Run.exec scenarioSizes (Run.fresh String) callsS1).buf.in_progress_batches,
      e.2.completed = true) ∧
    (Run.exec scenarioSizes (Run.fresh String) (callsS1 ++ [.Scan, .Scan, .Scan])).scanned =
      [some ⟨50, "first"⟩, some ⟨50, "second"⟩, none] ∧
    ∃ drained : List (DataChunk String),
      (Run.exec scenarioSizes (Run.fresh String)
          (callsS1 ++ List.replicate (drained.length + 1) .Scan)).scanned =
        (Run.exec scenarioSizes (Run.fresh String) callsS1).scanned ++ drained.map some
          ++ [none] ∧
      ((Run.exec scenarioSizes (Run.fresh String) callsS1).delivered ++ drained).Perm
        (appended callsS1) :=
  ⟨by decide, by decide, C4_exactly_once scenarioSizes callsS1 (by decide)⟩

/-- C5, as stated, fails: with only `batch >= min_batch` required of `Append`,
`UpdateMinBatchIndex(2)` called while batch 1 is incomplete stops at batch 1,
so the keys 1 and 2 stay in `in_progress_batches` although `min_batch` is 2,
and the entry of the new `min_batch` is not promoted. -/
theorem C5_counterexample :
    Run.admits Op.appendOk scenarioSizes (Run.fresh String) callsStuck = true ∧
    (Run.exec scenarioSizes (Run.fresh String) callsStuck).buf.min_batch = 2 ∧
    StdMap.keys (Run.exec scenarioSizes (Run.fresh String) callsStuck).buf.in_progress_batches
      = [1, 2] ∧
    (Run.exec scenarioSizes (Run.fresh String) callsStuck).buf.batches = [] ∧
    ¬ ∀ e ∈ (Run.exec scenarioSizes (Run.fresh String) callsStuck).buf.in_progress_batches,
      (Run.exec scenarioSizes (Run.fresh String) callsStuck).buf.min_batch < e.1 := by
  decide

/-- C5, amended. In every state reached from a fresh buffer by calls that keep
to the discipline (`Append` with `batch >= min_batch`, `UpdateMinBatchIndex(c)`
only when every in-progress entry with key below `max(min_batch, c)` is
completed), every key of `in_progress_batches` is strictly greater than
`min_batch`; and a further `UpdateMinBatchIndex(c)` under that discipline moves
the chunks of the entry whose key equals the new `min_batch` to the back of
`batches`, whatever its `completed` flag, and leaves no key at or below the new
`min_batch`. -/
theorem C5_keys_above_watermark (cfg : BufferSizes) (ops : List (Op τ))
    (h : Run.admits Op.disciplined cfg (Run.fresh τ) ops = true) :
    (∀ e ∈ (Run.exec cfg (Run.fresh τ) ops).buf.in_progress_batches,
      (Run.exec cfg (Run.fresh τ) ops).buf.min_batch < e.1) ∧
    ∀ c : Nat, Op.disciplined (Run.exec cfg (Run.fresh τ) ops).buf (.UpdateMinBatchIndex c) = true →
      (∀ b, (max (Run.exec cfg (Run.fresh τ) ops).buf.min_batch c, b) ∈
          (Run.exec cfg (Run.fresh τ) ops).buf.in_progress_batches →
        b.chunks <:+ ((Run.exec cfg (Run.fresh τ) ops).buf.UpdateMinBatchIndex c).batches) ∧
      ∀ e ∈ ((Run.exec cfg (Run.fresh τ) ops).buf.UpdateMinBatchIndex c).in_progress_batches,
        ((Run.exec cfg (Run.fresh τ) ops).buf.UpdateMinBatchIndex c).min_batch < e.1 := by
  have hcons := Consistent_fresh cfg ops
  have hkeys := KeysAbove_exec cfg (Run.fresh τ) ops BatchedBufferedData.Consistent_construct
    (by simp [BatchedBufferedData.KeysAbove, Run.fresh, BatchedBufferedData.construct]) h
  generalize (Run.exec cfg (Run.fresh τ) ops).buf = s at hcons hkeys ⊢
  refine ⟨hkeys, fun c hc => ?_⟩
  have hd := disciplined_UpdateMinBatchIndex hc
  refine ⟨fun b hb => ?_, KeysAbove_UpdateMinBatchIndex hcons.wf_in_progress hd⟩
  have hmem := mem_takeWhile_of_le hcons.wf_in_progress hd hb (le_refl _)
  obtain ⟨pre, hpre⟩ := last_of_max_key
    (StdMap.WF_of_sublist (List.takeWhile_sublist _) hcons.wf_in_progress)
    (fun e he => by
      have := List.mem_takeWhile_imp he
      simp only [promotable, Bool.and_eq_true, decide_eq_true_eq] at this
      exact this.1)
    hmem
  rw [BatchedBufferedData.UpdateMinBatchIndex_batches, hpre]
  simp only [inProgressChunks_append, inProgressChunks_cons, inProgressChunks_nil,
    List.append_nil, ← List.append_assoc]
  exact List.suffix_append _ _

/-- Witness for C5 (amended): batch 1 is completed before
`UpdateMinBatchIndex(2)`; the chunk of batch 2, not completed, ends `batches`
and no key is left at or below 2. -/
theorem C5_keys_above_watermark_witness :
    Run.admits Op.disciplined scenarioSizes (Run.fresh String) callsReady = true ∧
    Op.disciplined (Run.exec scenarioSizes (Run.fresh String) callsReady).buf
      (.UpdateMinBatchIndex 2) = true ∧
    (max (Run.exec scenarioSizes (Run.fresh String) callsReady).buf.min_batch 2,
        (⟨[⟨10, "b"⟩], false⟩ : InProgressBatch String)) ∈
      (Run.exec scenarioSizes (Run.fresh String) callsReady).buf.in_progress_batches ∧
    (⟨[⟨10, "b"⟩], false⟩ : InProgressBatch String).chunks <:+
      ((Run.exec scenarioSizes (Run.fresh String) callsReady).buf.UpdateMinBatchIndex 2).batches ∧
    ∀ e ∈ ((Run.exec scenarioSizes (Run.fresh String)
        callsReady).buf.UpdateMinBatchIndex 2).in_progress_batches,
      ((Run.exec scenarioSizes (Run.fresh String) callsReady).buf.UpdateMinBatchIndex
        2).min_batch < e.1 :=
  ⟨by decide, by decide, by decide,
    ((C5_keys_above_watermark scenarioSizes callsReady (by decide)).2 2 (by decide)).1 _
      (by decide),
    ((C5_keys_above_watermark scenarioSizes callsReady (by decide)).2 2 (by decide)).2⟩

/-- C6, evaluated at a failing input: after `Append(chunk, 1)` on a fresh
buffer `Scan` returns null although `in_progress_batches` still holds batch 1,
and after `BlockSink(token, 0)` on a fresh buffer `Scan` returns null although
`blocked_sinks` still holds the token; in both runs an assertion at the end of
`Scan` is violated. -/
theorem C6_scan_null_assertions_violated :
    ((Run.exec scenarioSizes (Run.fresh String) [.Append ⟨10, "a"⟩ 1, .Scan]).scanned = [none] ∧
      (Run.exec scenarioSizes (Run.fresh String)
        [.Append ⟨10, "a"⟩ 1, .Scan]).buf.in_progress_batches ≠ []) ∧
    ((Run.exec scenarioSizes (Run.fresh String) [.BlockSink ⟨7⟩ 0, .Scan]).scanned = [none] ∧
      (Run.exec scenarioSizes (Run.fresh String)
        [.BlockSink ⟨7⟩ 0, .Scan]).buf.blocked_sinks ≠ []) := by
  decide

/-- C7, as stated, fails: on the buffer closed by a null `Scan`, `Append`
stores the chunk in `batches` and raises `current_batch_tuple_count`. -/
theorem C7_counterexample :
    closedBuffer.Closed = true ∧
    (closedBuffer.Append ⟨5, "x"⟩ 0).batches ≠ closedBuffer.batches ∧
    (closedBuffer.Append ⟨5, "x"⟩ 0).current_batch_tuple_count ≠
      closedBuffer.current_batch_tuple_count := by
  decide

/-- C7, amended. `Append` does not look at the context handle: on a closed
buffer it returns normally, does exactly what it does on the same buffer with a
live handle, and leaves the buffer closed; the chunk goes to the back of
`batches` (and its size onto `current_batch_tuple_count`) when
`batch == min_batch`, else to the back of the entry of `batch` in
`in_progress_batches`, which is marked not completed (and its size onto
`other_batches_tuple_count`). -/
theorem C7_append_on_closed_buffer (chunk : DataChunk τ) (batch : Nat)
    (s : BatchedBufferedData τ) (hclosed : s.Closed = true) :
    (s.Append chunk batch).Closed = true ∧
    s.Append chunk batch =
      { ({ s with context := true } : BatchedBufferedData τ).Append chunk batch with
        context := false } ∧
    (batch = s.min_batch →
      (s.Append chunk batch).batches = s.batches ++ [chunk] ∧
      (s.Append chunk batch).current_batch_tuple_count =
        idxAdd s.current_batch_tuple_count chunk.size) ∧
    (batch ≠ s.min_batch →
      StdMap.find batch (s.Append chunk batch).in_progress_batches =
        some ⟨((StdMap.find batch s.in_progress_batches).getD {}).chunks ++ [chunk], false⟩ ∧
      (s.Append chunk batch).other_batches_tuple_count =
        idxAdd s.other_batches_tuple_count chunk.size) := by
  have hctx : s.context = false := by
    simpa [BatchedBufferedData.Closed] using hclosed
  refine ⟨?_, ?_, ?_, ?_⟩
  · unfold BatchedBufferedData.Closed BatchedBufferedData.Append
    split_ifs <;> simp [hctx]
  · unfold BatchedBufferedData.Append
    split_ifs <;> simp [hctx]
  · intro hb
    rw [BatchedBufferedData.Append_current _ _ _ hb]
    exact ⟨rfl, rfl⟩
  · intro hb
    unfold BatchedBufferedData.Append
    rw [if_neg hb]
    exact ⟨StdMap.find_assign _ _ _, rfl⟩

/-- Witness for C7 (amended): the buffer closed by a null `Scan` takes a chunk
for batch 0. -/
theorem C7_append_on_closed_buffer_witness :
    closedBuffer.Closed = true ∧
    (closedBuffer.Append ⟨5, "x"⟩ 0).Closed = true ∧
    (closedBuffer.Append ⟨5, "x"⟩ 0).batches = closedBuffer.batches ++ [⟨5, "x"⟩] :=
  ⟨by decide, (C7_append_on_closed_buffer ⟨5, "x"⟩ 0 closedBuffer (by decide)).1,
    ((C7_append_on_closed_buffer ⟨5, "x"⟩ 0 closedBuffer (by decide)).2.2.1 (by decide)).1⟩

/-- C8. Watermark update and monotonicity. For every state and candidate `c`,
`UpdateMinBatchIndex(c)` leaves `min_batch` equal to `max(old min_batch, c)`;
and along every sequence of calls, started in any state, `min_batch` never
decreases. -/
theorem C8_watermark_monotone :
    (∀ (s : BatchedBufferedData τ) (c : Nat),
      (s.UpdateMinBatchIndex c).min_batch = max s.min_batch c) ∧
    (∀ (cfg : BufferSizes) (r : Run τ) (ops : List (Op τ)),
      r.buf.min_batch ≤ (Run.exec cfg r ops).buf.min_batch) :=
  ⟨fun s c => BatchedBufferedData.UpdateMinBatchIndex_min_batch c s,
    fun cfg r ops => exec_min_batch_le cfg r ops⟩

/-- C9. Scan auto-promotion. In every state reached from a fresh buffer: if
`batches` is empty and the smallest-key entry `(k, b)` of
`in_progress_batches` is completed, one `Scan` sets `min_batch` to
`max(min_batch, k)`, returns the first chunk of that entry (not null) and
takes that chunk's size off the `current_batch_tuple_count` that the promotion
`UpdateMinBatchIndex(k)` produced (an exact decrease when the appended sizes
add up to an `idx_t` value); if `batches` is non-empty, `Scan` returns its
front chunk and changes neither `min_batch` nor `in_progress_batches`. -/
theorem C9_scan_auto_promotion (cfg : BufferSizes) (ops : List (Op τ)) :
    (∀ (k : Nat) (b : InProgressBatch τ) (rest : StdMap (InProgressBatch τ)),
      (Run.exec cfg (Run.fresh τ) ops).buf.batches = [] →
      (Run.exec cfg (Run.fresh τ) ops).buf.in_progress_batches = (k, b) :: rest →
      b.completed = true →
        ((Run.exec cfg (Run.fresh τ) ops).buf.Scan).2.min_batch =
            max (Run.exec cfg (Run.fresh τ) ops).buf.min_batch k ∧
        ((Run.exec cfg (Run.fresh τ) ops).buf.Scan).1 = b.chunks.head? ∧
        ((Run.exec cfg (Run.fresh τ) ops).buf.Scan).1 ≠ none ∧
        ∀ chunk, ((Run.exec cfg (Run.fresh τ) ops).buf.Scan).1 = some chunk →
          ((Run.exec cfg (Run.fresh τ) ops).buf.Scan).2.current_batch_tuple_count =
              idxSub ((Run.exec cfg (Run.fresh τ) ops).buf.UpdateMinBatchIndex
                k).current_batch_tuple_count chunk.size ∧
          (sizes (appended ops) < IDX_MOD →
            ((Run.exec cfg (Run.fresh τ) ops).buf.Scan).2.current_batch_tuple_count + chunk.size =
              ((Run.exec cfg (Run.fresh τ) ops).buf.UpdateMinBatchIndex
                k).current_batch_tuple_count)) ∧
    (∀ (front : DataChunk τ) (rest : List (DataChunk τ)),
      (Run.exec cfg (Run.fresh τ) ops).buf.batches = front :: rest →
        ((Run.exec cfg (Run.fresh τ) ops).buf.Scan).1 = some front ∧
        ((Run.exec cfg (Run.fresh τ) ops).buf.Scan).2.min_batch =
          (Run.exec cfg (Run.fresh τ) ops).buf.min_batch ∧
        ((Run.exec cfg (Run.fresh τ) ops).buf.Scan).2.in_progress_batches =
          (Run.exec cfg (Run.fresh τ) ops).buf.in_progress_batches) := by
  have hcons := Consistent_fresh cfg ops
  have hle := held_le_appended cfg ops
  generalize (Run.exec cfg (Run.fresh τ) ops).buf = s at hcons hle ⊢
  constructor
  · intro k b rest hb hi hc
    have hp := prepare_of_completed hb hi hc
    obtain ⟨r1, r2, r3, r4, r5⟩ := Scan_result s
    rw [hp] at r1 r2 r3 r4 r5
    have hbat : (s.UpdateMinBatchIndex k).batches =
        b.chunks ++ inProgressChunks (rest.takeWhile (promotable (max s.min_batch k))) := by
      have hprom : promotable (max s.min_batch k) (k, b) = true := by
        simp [promotable, hc]
      rw [BatchedBufferedData.UpdateMinBatchIndex_batches, hb, hi]
      simp [List.takeWhile, hprom]
    have hne : b.chunks ≠ [] := hcons.nonempty (k, b) (by rw [hi]; exact List.mem_cons_self _ _)
    obtain ⟨first, others, hfo⟩ := List.exists_cons_of_ne_nil hne
    have hhead : (s.Scan).1 = b.chunks.head? := by
      rw [r1, hbat, hfo]; rfl
    refine ⟨?_, hhead, ?_, ?_⟩
    · rw [r4, BatchedBufferedData.UpdateMinBatchIndex_min_batch]
    · rw [hhead, hfo]; simp
    · intro chunk hchunk
      have hcur := Scan_current s chunk hchunk
      rw [hp] at hcur
      refine ⟨hcur, fun hlt => ?_⟩
      have hU := BatchedBufferedData.Consistent_UpdateMinBatchIndex k hcons
      have hS := BatchedBufferedData.Consistent_Scan hcons
      have hcont := UpdateMinBatchIndex_content k s hcons.wf_in_progress
      have hsz := congrArg sizes hcont
      simp only [sizes_append] at hsz
      have hch : chunk = first := by
        rw [hhead, hfo] at hchunk
        simpa using hchunk.symm
      rw [hS.current, hU.current, r2, hbat, hfo, hch]
      rw [hbat, hfo] at hsz
      simp only [List.cons_append, List.tail_cons, sizes_cons, sizes_append] at hsz ⊢
      rw [Nat.mod_eq_of_lt (by omega), Nat.mod_eq_of_lt (by omega)]
      omega
  · intro front rest hb
    have hp := prepare_of_batches hb
    obtain ⟨r1, r2, r3, r4, r5⟩ := Scan_result s
    rw [hp] at r1 r2 r3 r4 r5
    exact ⟨by rw [r1, hb]; rfl, r4, r3⟩

/-- Witness for C9: after scenario S2 `batches` is empty and batch 1 is
completed; `Scan` raises `min_batch` to 1, returns the chunk of batch 1 and
takes its 10 tuples off the counter. -/
theorem C9_scan_auto_promotion_witness :
    ((Run.exec scenarioSizes (Run.fresh String) callsS2).buf.batches = [] ∧
      (Run.exec scenarioSizes (Run.fresh String) callsS2).buf.in_progress_batches =
        (1, ⟨[⟨10, "one"⟩], true⟩) :: [(2, ⟨[⟨10, "two"⟩], true⟩)] ∧
      sizes (appended callsS2) < IDX_MOD) ∧
    ((Run.exec scenarioSizes (Run.fresh String) callsS2).buf.Scan).2.min_batch =
      max (Run.exec scenarioSizes (Run.fresh String) callsS2).buf.min_batch 1 ∧
    ((Run.exec scenarioSizes (Run.fresh String) callsS2).buf.Scan).1 =
      (⟨[⟨10, "one"⟩], true⟩ : InProgressBatch String).chunks.head? ∧
    ((Run.exec scenarioSizes (Run.fresh String) callsS2).buf.Scan).2.current_batch_tuple_count +
        (⟨10, "one"⟩ : DataChunk String).size =
      ((Run.exec scenarioSizes (Run.fresh String) callsS2).buf.UpdateMinBatchIndex
        1).current_batch_tuple_count :=
  ⟨⟨by decide, by decide, by decide⟩,
    ((C9_scan_auto_promotion scenarioSizes callsS2).1 1 ⟨[⟨10, "one"⟩], true⟩
      [(2, ⟨[⟨10, "two"⟩], true⟩)] (by decide) (by decide) rfl).1,
    ((C9_scan_auto_promotion scenarioSizes callsS2).1 1 ⟨[⟨10, "one"⟩], true⟩
      [(2, ⟨[⟨10, "two"⟩], true⟩)] (by decide) (by decide) rfl).2.1,
    (((C9_scan_auto_promotion scenarioSizes callsS2).1 1 ⟨[⟨10, "one"⟩], true⟩
      [(2, ⟨[⟨10, "two"⟩], true⟩)] (by decide) (by decide) rfl).2.2.2 ⟨10, "one"⟩
        (by decide)).2 (by decide)⟩

/-- C10, as stated, fails: in scenario S2 the first `Scan` does not return
null; it returns the chunk of batch 1. -/
theorem C10_counterexample :
    ((Run.exec scenarioSizes (Run.fresh String) callsS2).buf.Scan).1 ≠ none ∧
    (Run.exec scenarioSizes (Run.fresh String) (callsS2 ++ [.Scan])).scanned =
      [some ⟨10, "one"⟩] := by
  decide

/-- C10, amended. Scenario S2: on a fresh buffer (`min_batch = 0`), after
`Append(chunk of size 10, batch 1)`, `Append(chunk of size 10, batch 2)`,
`CompleteBatch(1)`, `CompleteBatch(2)`, the first `Scan` advances `min_batch`
to 1 and returns the chunk of batch 1, the next `Scan` advances `min_batch` to
2 and returns the chunk of batch 2, and the `Scan` after that returns null. -/
theorem C10_scenario_S2 :
    (Run.exec scenarioSizes (Run.fresh String) callsS2).buf.min_batch = 0 ∧
    (Run.exec scenarioSizes (Run.fresh String) (callsS2 ++ [.Scan])).scanned =
      [some ⟨10, "one"⟩] ∧
    (Run.exec scenarioSizes (Run.fresh String) (callsS2 ++ [.Scan])).buf.min_batch = 1 ∧
    (Run.exec scenarioSizes (Run.fresh String) (callsS2 ++ [.Scan, .Scan])).scanned =
      [some ⟨10, "one"⟩, some ⟨10, "two"⟩] ∧
    (Run.exec scenarioSizes (Run.fresh String) (callsS2 ++ [.Scan, .Scan])).buf.min_batch = 2 ∧
    (Run.exec scenarioSizes (Run.fresh String) (callsS2 ++ [.Scan, .Scan, .Scan])).scanned =
      [some ⟨10, "one"⟩, some ⟨10, "two"⟩, none] := by
  decide

/-- C11. UnblockSinks postcondition. For every state (the registry being a
`std::map`, its keys are ascending), `UnblockSinks` fires the callback of
exactly the registered tokens whose batch `b` has `ShouldBlockBatch(b) == false`
in that state, each once and in key order, removes exactly those entries from
`blocked_sinks`, leaves every other entry intact and changes no other field;
`ShouldBlockBatch(b)` is false exactly when `current_batch_tuple_count <
CURRENT_BATCH_BUFFER_SIZE` for `b == min_batch`, and when
`other_batches_tuple_count < OTHER_BATCHES_BUFFER_SIZE` otherwise. -/
theorem C11_unblock_sinks (cfg : BufferSizes) (s : BatchedBufferedData τ)
    (hwf : StdMap.WF s.blocked_sinks) :
    (s.UnblockSinks cfg).1 =
      (s.blocked_sinks.filter fun e => !s.ShouldBlockBatch cfg e.1).map Prod.snd ∧
    (s.UnblockSinks cfg).2 =
      { s with blocked_sinks := s.blocked_sinks.filter fun e => s.ShouldBlockBatch cfg e.1 } ∧
    ∀ b : Nat, s.ShouldBlockBatch cfg b = false ↔
      if b = s.min_batch then s.current_batch_tuple_count < cfg.CURRENT_BATCH_BUFFER_SIZE
      else s.other_batches_tuple_count < cfg.OTHER_BATCHES_BUFFER_SIZE := by
  rw [UnblockSinks_eq cfg s hwf]
  refine ⟨rfl, rfl, fun b => ?_⟩
  unfold BatchedBufferedData.ShouldBlockBatch BatchedBufferedData.IsMinBatch
  by_cases hb : b = s.min_batch
  · have hb2 : s.min_batch = b := hb.symm
    simp [hb2]
  · have hb2 : ¬ s.min_batch = b := fun h => hb h.symm
    simp [hb, hb2]

/-- Witness for C11, scenarios S3 and S4. S3: with the limit 10, batch 0 blocks
after a size-10 append, and the token registered for it is fired once the chunk
has been scanned. S4: with the limit 5 for future batches, batch 3 blocks after
a size-5 append, and its token is fired after `UpdateMinBatchIndex(3)` has
promoted the chunk. -/
theorem C11_unblock_sinks_witness :
    ((Run.exec sizesS3 (Run.fresh String) [.Append ⟨10, "full"⟩ 0]).buf.ShouldBlockBatch sizesS3 0
        = true ∧
      (Run.exec sizesS3 (Run.fresh String) (callsS3 ++ [.UnblockSinks])).fired = [⟨0⟩] ∧
      (Run.exec sizesS3 (Run.fresh String) (callsS3 ++ [.UnblockSinks])).buf.blocked_sinks = []) ∧
    ((Run.exec sizesS4 (Run.fresh String) [.Append ⟨5, "ahead"⟩ 3]).buf.ShouldBlockBatch sizesS4 3
        = true ∧
      (Run.exec sizesS4 (Run.fresh String) callsS4).buf.other_batches_tuple_count = 0 ∧
      (Run.exec sizesS4 (Run.fresh String) callsS4).buf.current_batch_tuple_count = 5 ∧
      (Run.exec sizesS4 (Run.fresh String) (callsS4 ++ [.UnblockSinks])).fired = [⟨3⟩]) ∧
    StdMap.WF (Run.exec sizesS3 (Run.fresh String) callsS3).buf.blocked_sinks ∧
    ((Run.exec sizesS3 (Run.fresh String) callsS3).buf.UnblockSinks sizesS3).1 =
      ((Run.exec sizesS3 (Run.fresh String) callsS3).buf.blocked_sinks.filter fun e =>
        !(Run.exec sizesS3 (Run.fresh String) callsS3).buf.ShouldBlockBatch sizesS3 e.1).map
          Prod.snd :=
  ⟨by decide, by decide, (Consistent_fresh sizesS3 callsS3).wf_blocked,
    (C11_unblock_sinks sizesS3 (Run.exec sizesS3 (Run.fresh String) callsS3).buf
      (Consistent_fresh sizesS3 callsS3).wf_blocked).1⟩

/-- C12. ReplenishBuffer early return. If the buffer is closed,
`ReplenishBuffer` returns `EXECUTION_ERROR`; otherwise, if `BufferIsFull()`
holds, it returns `RESULT_READY`; in both cases no blocked-sink callback is
fired, no task is executed and the buffer state is unchanged. `BufferIsFull()`
holds exactly when `batches` is non-empty and (`current_batch_tuple_count >=
CURRENT_BATCH_BUFFER_SIZE` or `other_batches_tuple_count >=
OTHER_BATCHES_BUFFER_SIZE`), and never when `batches` is empty. -/
theorem C12_replenish_early_return (ts : TaskSystem τ) (cfg : BufferSizes) (fuel : Nat)
    (s : BatchedBufferedData τ) :
    (s.Closed = true →
      s.ReplenishBuffer ts cfg fuel = some ⟨.EXECUTION_ERROR, s, [], 0⟩) ∧
    (s.Closed = false → s.BufferIsFull cfg = true →
      s.ReplenishBuffer ts cfg fuel = some ⟨.RESULT_READY, s, [], 0⟩) ∧
    (s.BufferIsFull cfg = true ↔
      s.batches ≠ [] ∧
        (s.current_batch_tuple_count ≥ cfg.CURRENT_BATCH_BUFFER_SIZE ∨
          s.other_batches_tuple_count ≥ cfg.OTHER_BATCHES_BUFFER_SIZE)) ∧
    (s.batches = [] → s.BufferIsFull cfg = false) := by
  refine ⟨?_, ?_, ?_, ?_⟩
  · intro hc
    simp [BatchedBufferedData.ReplenishBuffer, hc]
  · intro hc hfull
    simp [BatchedBufferedData.ReplenishBuffer, hc, hfull]
  · unfold BatchedBufferedData.BufferIsFull
    cases hb : s.batches with
    | nil => simp
    | cons c rest => simp
  · intro hb
    simp [BatchedBufferedData.BufferIsFull, hb]

/-- Witness for C12: the buffer closed by a null `Scan` gives `EXECUTION_ERROR`;
the open buffer of scenario S3, full after the size-10 append, gives
`RESULT_READY`; neither call touches the buffer or runs a task. -/
theorem C12_replenish_early_return_witness :
    (closedBuffer.Closed = true ∧
      closedBuffer.ReplenishBuffer busyTasks scenarioSizes 5 =
        some ⟨.EXECUTION_ERROR, closedBuffer, [], 0⟩) ∧
    ((Run.exec sizesS3 (Run.fresh String) [.Append ⟨10, "full"⟩ 0]).buf.Closed = false ∧
      (Run.exec sizesS3 (Run.fresh String) [.Append ⟨10, "full"⟩ 0]).buf.BufferIsFull sizesS3
        = true ∧
      (Run.exec sizesS3 (Run.fresh String) [.Append ⟨10, "full"⟩ 0]).buf.ReplenishBuffer
          busyTasks sizesS3 5 =
        some ⟨.RESULT_READY, (Run.exec sizesS3 (Run.fresh String) [.Append ⟨10, "full"⟩ 0]).buf,
          [], 0⟩) :=
  ⟨⟨by decide, (C12_replenish_early_return busyTasks scenarioSizes 5 closedBuffer).1 (by decide)⟩,
    by decide, by decide,
    (C12_replenish_early_return busyTasks sizesS3 5
      (Run.exec sizesS3 (Run.fresh String) [.Append ⟨10, "full"⟩ 0]).buf).2.1
        (by decide) (by decide)⟩

/-- C13. Completion flag. In every state reached from a fresh buffer and for
every entry `(k, b)` of `in_progress_batches`, `b.completed` is true if and
only if `CompleteBatch(k)` has been called after the most recent `Append` that
stored a chunk into that entry; an `Append` to a batch other than the current
one always leaves the entry of that batch with `completed == false`; and
`CompleteBatch(k)` for a `k` that is not a key of `in_progress_batches` changes
nothing in the buffer state. -/
theorem C13_completion_flag :
    (∀ (cfg : BufferSizes) (ops : List (Op τ)) (k : Nat) (b : InProgressBatch τ),
      (k, b) ∈ (Run.exec cfg (Run.fresh τ) ops).buf.in_progress_batches →
        (b.completed = true ↔ Run.CompletedSince cfg k (Run.fresh τ) ops)) ∧
    (∀ (s : BatchedBufferedData τ) (chunk : DataChunk τ) (batch : Nat),
      batch ≠ s.min_batch →
        (StdMap.find batch (s.Append chunk batch).in_progress_batches).map (·.completed) =
          some false) ∧
    (∀ (s : BatchedBufferedData τ) (k : Nat),
      k ∉ StdMap.keys s.in_progress_batches → s.CompleteBatch k = s) := by
  refine ⟨?_, ?_, ?_⟩
  · intro cfg ops k b hb
    have := flag_exec cfg k ops (Run.fresh τ) false BatchedBufferedData.Consistent_construct
      (by simp [Run.fresh, BatchedBufferedData.construct]) b hb
    simpa using this
  · intro s chunk batch hb
    unfold BatchedBufferedData.Append
    rw [if_neg hb]
    simp only [StdMap.find_assign, Option.map_some']
  · intro s k hk
    unfold BatchedBufferedData.CompleteBatch
    rw [StdMap.find_eq_none.2 hk]

/-- Witness for C13: after `Append(a, 1)`, `Append(b, 2)`, `CompleteBatch(1)`
the entry of batch 1 is completed (its completion came after its append) and
the entry of batch 2 is not. -/
theorem C13_completion_flag_witness :
    ((1, (⟨[⟨10, "a"⟩], true⟩ : InProgressBatch String)) ∈
        (Run.exec scenarioSizes (Run.fresh String) callsReady).buf.in_progress_batches ∧
      (2, (⟨[⟨10, "b"⟩], false⟩ : InProgressBatch String)) ∈
        (Run.exec scenarioSizes (Run.fresh String) callsReady).buf.in_progress_batches) ∧
    ((⟨[⟨10, "a"⟩], true⟩ : InProgressBatch String).completed = true ↔
      Run.CompletedSince scenarioSizes 1 (Run.fresh String) callsReady) ∧
    ((⟨[⟨10, "b"⟩], false⟩ : InProgressBatch String).completed = true ↔
      Run.CompletedSince scenarioSizes 2 (Run.fresh String) callsReady) :=
  ⟨by decide, (C13_completion_flag).1 scenarioSizes callsReady 1 _ (by decide),
    (C13_completion_flag).1 scenarioSizes callsReady 2 _ (by decide)⟩

/-- C14. PlanDelimJoin side selection. For join type `SINGLE` or `MARK` the
children are not flipped and the result is that of `PlanLeftDelimJoin`; for
`INNER` and `OUTER` the children are flipped with the join type kept; `LEFT`
becomes `RIGHT` and `RIGHT` becomes `LEFT`, `SEMI` becomes `RIGHT_SEMI` and
`ANTI` becomes `RIGHT_ANTI`, each with the children flipped, and in all these
cases the result is that of `PlanRightDelimJoin` on the flipped node; for every
other join type `PlanDelimJoin` raises a not-implemented error and produces no
plan. (Flipping swaps the two children, sets the join type and leaves the rest
of the node alone.) -/
theorem C14_plan_delim_join_sides (gen : PhysicalPlanGenerator) (op : LogicalComparisonJoin) :
    ((op.join_type = .SINGLE ∨ op.join_type = .MARK) →
      gen.PlanDelimJoin op = gen.PlanLeftDelimJoin op) ∧
    ((op.join_type = .INNER ∨ op.join_type = .OUTER) →
      gen.PlanDelimJoin op = gen.PlanRightDelimJoin (LogicalJoin.FlipChildren op op.join_type)) ∧
    (op.join_type = .LEFT →
      gen.PlanDelimJoin op = gen.PlanRightDelimJoin (LogicalJoin.FlipChildren op .RIGHT)) ∧
    (op.join_type = .RIGHT →
      gen.PlanDelimJoin op = gen.PlanRightDelimJoin (LogicalJoin.FlipChildren op .LEFT)) ∧
    (op.join_type = .SEMI →
      gen.PlanDelimJoin op = gen.PlanRightDelimJoin (LogicalJoin.FlipChildren op .RIGHT_SEMI)) ∧
    (op.join_type = .ANTI →
      gen.PlanDelimJoin op = gen.PlanRightDelimJoin (LogicalJoin.FlipChildren op .RIGHT_ANTI)) ∧
    (op.join_type ∉ [JoinType.SINGLE, .MARK, .INNER, .OUTER, .LEFT, .RIGHT, .SEMI, .ANTI] →
      gen.PlanDelimJoin op = .error (.NotImplemented op.join_type)) ∧
    (∀ t : JoinType,
      (LogicalJoin.FlipChildren op t).join_type = t ∧
      (∀ left right rest, op.children = left :: right :: rest →
        (LogicalJoin.FlipChildren op t).children = right :: left :: rest) ∧
      (LogicalJoin.FlipChildren op t).duplicate_eliminated_columns =
        op.duplicate_eliminated_columns ∧
      (LogicalJoin.FlipChildren op t).types = op.types ∧
      (LogicalJoin.FlipChildren op t).estimated_cardinality = op.estimated_cardinality) := by
  refine ⟨?_, ?_, ?_, ?_, ?_, ?_, ?_, ?_⟩
  · rintro (h | h) <;> simp [PhysicalPlanGenerator.PlanDelimJoin, h]
  · rintro (h | h) <;> simp [PhysicalPlanGenerator.PlanDelimJoin, h]
  · intro h; simp [PhysicalPlanGenerator.PlanDelimJoin, h]
  · intro h; simp [PhysicalPlanGenerator.PlanDelimJoin, h]
  · intro h; simp [PhysicalPlanGenerator.PlanDelimJoin, h]
  · intro h; simp [PhysicalPlanGenerator.PlanDelimJoin, h]
  · intro h
    simp only [List.mem_cons, List.mem_singleton, List.not_mem_nil, or_false, not_or] at h
    unfold PhysicalPlanGenerator.PlanDelimJoin
    cases hj : op.join_type <;> simp_all
  · intro t
    refine ⟨rfl, ?_, rfl, rfl, rfl⟩
    intro left right rest hc
    simp [LogicalJoin.FlipChildren, hc]

/-- Witness for C14, scenario S5: a `SEMI` join is planned as a right delim
join on the node flipped to `RIGHT_SEMI`; the delim-scan is found in the left
subtree of the join plan and the distinct producer groups on column 0. -/
theorem C14_plan_delim_join_sides_witness :
    joinS5.join_type = .SEMI ∧
    generatorS5.PlanDelimJoin joinS5 =
      generatorS5.PlanRightDelimJoin (LogicalJoin.FlipChildren joinS5 .RIGHT_SEMI) ∧
    (LogicalJoin.FlipChildren joinS5 .RIGHT_SEMI).join_type = .RIGHT_SEMI ∧
    (LogicalJoin.FlipChildren joinS5 .RIGHT_SEMI).children = [⟨2⟩, ⟨1⟩] ∧
    generatorS5.PlanDelimJoin joinS5 =
      .ok (.RightDelimJoin
        { types := [.INTEGER, .VARCHAR]
          join := generatorS5.PlanComparisonJoin (LogicalJoin.FlipChildren joinS5 .RIGHT_SEMI)
          delim_scans := [exampleDelimScan]
          estimated_cardinality := 42
          distinct :=
            { types := [.INTEGER], expressions := [], groups := [⟨.INTEGER, 0⟩],
              estimated_cardinality := 42 } }) :=
  ⟨rfl, (C14_plan_delim_join_sides generatorS5 joinS5).2.2.2.2.1 rfl, rfl, rfl, rfl⟩

/-- C15. Delimitation optimised away. When the child of the planned join
opposite to the delimitation side (`children[1]` for `PlanLeftDelimJoin`,
`children[0]` for `PlanRightDelimJoin`) contains no `DELIM_SCAN` operator, the
planner returns exactly the plan produced by `PlanComparisonJoin`, with no
delim-join node and no hash aggregate; and whenever that child contains at
least one `DELIM_SCAN`, the returned root is a left (resp. right) delim-join
node. -/
theorem C15_delimitation_optimised_away (gen : PhysicalPlanGenerator)
    (op : LogicalComparisonJoin) (child : PhysicalOperator) :
    ((gen.PlanComparisonJoin op).children[1]? = some child →
      ((∀ n ∈ child.preorder, n.type ≠ PhysicalOperatorType.DELIM_SCAN) →
        gen.PlanLeftDelimJoin op = .ok (.plain (gen.PlanComparisonJoin op))) ∧
      ((∃ n ∈ child.preorder, n.type = PhysicalOperatorType.DELIM_SCAN) →
        ∃ node, gen.PlanLeftDelimJoin op = .ok (.LeftDelimJoin node))) ∧
    ((gen.PlanComparisonJoin op).children[0]? = some child →
      ((∀ n ∈ child.preorder, n.type ≠ PhysicalOperatorType.DELIM_SCAN) →
        gen.PlanRightDelimJoin op = .ok (.plain (gen.PlanComparisonJoin op))) ∧
      ((∃ n ∈ child.preorder, n.type = PhysicalOperatorType.DELIM_SCAN) →
        ∃ node, gen.PlanRightDelimJoin op = .ok (.RightDelimJoin node))) := by
  constructor
  · intro hc
    rw [PlanLeftDelimJoin_eq gen op child hc]
    constructor
    · intro hno
      rw [if_pos ((GatherDelimScans_isEmpty child).2 hno)]
    · rintro ⟨n, hn, ht⟩
      have : ¬ (GatherDelimScans child []).isEmpty = true := fun he =>
        (GatherDelimScans_isEmpty child).1 he n hn ht
      rw [if_neg this]
      exact ⟨_, rfl⟩
  · intro hc
    rw [PlanRightDelimJoin_eq gen op child hc]
    constructor
    · intro hno
      rw [if_pos ((GatherDelimScans_isEmpty child).2 hno)]
    · rintro ⟨n, hn, ht⟩
      have : ¬ (GatherDelimScans child []).isEmpty = true := fun he =>
        (GatherDelimScans_isEmpty child).1 he n hn ht
      rw [if_neg this]
      exact ⟨_, rfl⟩

/-- Witness for C15, scenario S6: the join plan has no delim-scan in its left
subtree, and the planner returns the plain hash join. -/
theorem C15_delimitation_optimised_away_witness :
    (generatorS6.PlanComparisonJoin (LogicalJoin.FlipChildren joinS5 .RIGHT_SEMI)).children[0]?
      = some exampleTableScan ∧
    (∀ n ∈ exampleTableScan.preorder, n.type ≠ PhysicalOperatorType.DELIM_SCAN) ∧
    generatorS6.PlanRightDelimJoin (LogicalJoin.FlipChildren joinS5 .RIGHT_SEMI) =
      .ok (.plain (generatorS6.PlanComparisonJoin (LogicalJoin.FlipChildren joinS5 .RIGHT_SEMI))) :=
  ⟨rfl, by simp [exampleTableScan, PhysicalOperator.preorder, PhysicalOperator.preorderAll,
      PhysicalOperator.type],
    ((C15_delimitation_optimised_away generatorS6 (LogicalJoin.FlipChildren joinS5 .RIGHT_SEMI)
      exampleTableScan).2 rfl).1
      (by simp [exampleTableScan, PhysicalOperator.preorder, PhysicalOperator.preorderAll,
        PhysicalOperator.type])⟩

/-- C16. Distinct producer of a delim join. Whenever `PlanLeftDelimJoin` or
`PlanRightDelimJoin` returns a delim-join node, its `distinct` operator is a
hash aggregate with an empty aggregate-expression list whose grouping keys are,
in the same order and of the same length as `op.duplicate_eliminated_columns`,
bound references carrying the same `(return_type, index)` as the i-th
duplicate-eliminated column, and whose output types are the list of those
return types; the node carries `op.types` and `op.estimated_cardinality`. -/
theorem C16_distinct_producer (gen : PhysicalPlanGenerator) (op : LogicalComparisonJoin)
    (node : PhysicalDelimJoin)
    (h : gen.PlanLeftDelimJoin op = .ok (.LeftDelimJoin node) ∨
      gen.PlanRightDelimJoin op = .ok (.RightDelimJoin node)) :
    node.distinct.expressions = [] ∧
    node.distinct.groups =
      op.duplicate_eliminated_columns.map (fun c => ⟨c.return_type, c.index⟩) ∧
    node.distinct.groups.length = op.duplicate_eliminated_columns.length ∧
    (∀ i (hi : i < op.duplicate_eliminated_columns.length)
        (hj : i < node.distinct.groups.length),
      (node.distinct.groups.get ⟨i, hj⟩).return_type =
          (op.duplicate_eliminated_columns.get ⟨i, hi⟩).return_type ∧
        (node.distinct.groups.get ⟨i, hj⟩).index =
          (op.duplicate_eliminated_columns.get ⟨i, hi⟩).index) ∧
    node.distinct.types = op.duplicate_eliminated_columns.map (·.return_type) ∧
    node.types = op.types ∧
    node.estimated_cardinality = op.estimated_cardinality := by
  have hnode : ∃ ds, node = PhysicalPlanGenerator.delimJoinNode op (gen.PlanComparisonJoin op) ds := by
    rcases h with h | h
    · obtain ⟨child, -, e⟩ := PlanLeftDelimJoin_node gen op node h
      exact ⟨_, e⟩
    · obtain ⟨child, -, e⟩ := PlanRightDelimJoin_node gen op node h
      exact ⟨_, e⟩
  obtain ⟨ds, rfl⟩ := hnode
  have hg := distinctGroups_eq op.duplicate_eliminated_columns [] []
  simp only [List.nil_append] at hg
  refine ⟨rfl, ?_, ?_, ?_, ?_, rfl, rfl⟩
  · simp only [PhysicalPlanGenerator.delimJoinNode, hg]
  · simp only [PhysicalPlanGenerator.delimJoinNode, hg, List.length_map]
  · intro i hi hj
    simp only [PhysicalPlanGenerator.delimJoinNode, hg, List.get_eq_getElem, List.getElem_map,
      and_self]
  · simp only [PhysicalPlanGenerator.delimJoinNode, hg]

/-- Witness for C16, scenario S5: the right delim join of the `SEMI` join groups
on the bound reference `(INTEGER, 0)`. -/
theorem C16_distinct_producer_witness :
    generatorS5.PlanRightDelimJoin (LogicalJoin.FlipChildren joinS5 .RIGHT_SEMI) =
      .ok (.RightDelimJoin (PhysicalPlanGenerator.delimJoinNode
        (LogicalJoin.FlipChildren joinS5 .RIGHT_SEMI)
        (generatorS5.PlanComparisonJoin (LogicalJoin.FlipChildren joinS5 .RIGHT_SEMI))
        [exampleDelimScan])) ∧
    (PhysicalPlanGenerator.delimJoinNode (LogicalJoin.FlipChildren joinS5 .RIGHT_SEMI)
      (generatorS5.PlanComparisonJoin (LogicalJoin.FlipChildren joinS5 .RIGHT_SEMI))
      [exampleDelimScan]).distinct.groups =
        (LogicalJoin.FlipChildren joinS5 .RIGHT_SEMI).duplicate_eliminated_columns.map
          (fun c => ⟨c.return_type, c.index⟩) :=
  ⟨rfl, (C16_distinct_producer generatorS5 (LogicalJoin.FlipChildren joinS5 .RIGHT_SEMI) _
    (Or.inr rfl)).2.1⟩

/-- C17. Result-modifier round trip. For every result modifier `m` of kind
`DISTINCT`, `LIMIT`, `LIMIT_PERCENT` or `ORDER`, `FormatDeserialize` applied to
the properties written by `m.FormatSerialize` yields a modifier of the same
kind with equal fields (`limit` and `offset`, `distinct_on_targets`, `orders`),
that is `m` itself, and consumes exactly those properties; the serialized form
begins with the `type` tag, and deserialization dispatches on it: a form whose
tag is none of the four is rejected. -/
theorem C17_result_modifier_round_trip :
    (∀ (m : ResultModifier) (rest : FormatDeserializer),
      ResultModifier.FormatDeserialize (m.FormatSerialize [] ++ rest) = .ok (m, rest)) ∧
    (∀ m : ResultModifier,
      (m.FormatSerialize []).head? = some ⟨"type", .modifierType m.type⟩) ∧
    (∀ (raw : Nat) (rest : FormatDeserializer),
      ResultModifier.FormatDeserialize (⟨"type", .modifierType (.UNKNOWN raw)⟩ :: rest) =
        .error .UnsupportedType) := by
  refine ⟨?_, ?_, ?_⟩
  · intro m rest
    cases m <;> rfl
  · intro m
    cases m <;> rfl
  · intro raw rest
    rfl

/-- C18. GatherDelimScans completeness. For every finite physical operator tree
`t` and initial list `l`, `GatherDelimScans(t, l)` returns (the embedding is a
total function) and leaves `l` extended by exactly the operators of `t`, `t`
itself included, whose type is `DELIM_SCAN`, each once and in pre-order (a node
before its children, children left to right). `PlanLeftDelimJoin` applies it to
the right child (`children[1]`) of the join plan and `PlanRightDelimJoin` to the
left child (`children[0]`): what each planner returns is decided by the list
gathered from that child, starting from the empty list. Without the child the
checked index raises; when the list is empty the plain plan is returned; else
the returned delim-join node wraps the plan and carries exactly that list as
its `delim_scans`. -/
theorem C18_gather_delim_scans :
    (∀ (t : PhysicalOperator) (l : List PhysicalOperator),
      GatherDelimScans t l =
        l ++ t.preorder.filter (fun n => decide (n.type = PhysicalOperatorType.DELIM_SCAN))) ∧
    (∀ (gen : PhysicalPlanGenerator) (op : LogicalComparisonJoin),
      ((gen.PlanComparisonJoin op).children[1]? = none →
        gen.PlanLeftDelimJoin op = .error (.IndexOutOfRange 1)) ∧
      ∀ child, (gen.PlanComparisonJoin op).children[1]? = some child →
        (GatherDelimScans child [] = [] →
          gen.PlanLeftDelimJoin op = .ok (.plain (gen.PlanComparisonJoin op))) ∧
        (GatherDelimScans child [] ≠ [] →
          ∃ node, gen.PlanLeftDelimJoin op = .ok (.LeftDelimJoin node) ∧
            node.join = gen.PlanComparisonJoin op ∧
            node.delim_scans = GatherDelimScans child [] ∧
            node.delim_scans = child.preorder.filter
              (fun n => decide (n.type = PhysicalOperatorType.DELIM_SCAN)))) ∧
    (∀ (gen : PhysicalPlanGenerator) (op : LogicalComparisonJoin),
      ((gen.PlanComparisonJoin op).children[0]? = none →
        gen.PlanRightDelimJoin op = .error (.IndexOutOfRange 0)) ∧
      ∀ child, (gen.PlanComparisonJoin op).children[0]? = some child →
        (GatherDelimScans child [] = [] →
          gen.PlanRightDelimJoin op = .ok (.plain (gen.PlanComparisonJoin op))) ∧
        (GatherDelimScans child [] ≠ [] →
          ∃ node, gen.PlanRightDelimJoin op = .ok (.RightDelimJoin node) ∧
            node.join = gen.PlanComparisonJoin op ∧
            node.delim_scans = GatherDelimScans child [] ∧
            node.delim_scans = child.preorder.filter
              (fun n => decide (n.type = PhysicalOperatorType.DELIM_SCAN)))) ∧
    (∀ (gen : PhysicalPlanGenerator) (op : LogicalComparisonJoin) (node : PhysicalDelimJoin),
      gen.PlanLeftDelimJoin op = .ok (.LeftDelimJoin node) →
        ∃ child, (gen.PlanComparisonJoin op).children[1]? = some child ∧
          node.delim_scans = GatherDelimScans child []) ∧
    (∀ (gen : PhysicalPlanGenerator) (op : LogicalComparisonJoin) (node : PhysicalDelimJoin),
      gen.PlanRightDelimJoin op = .ok (.RightDelimJoin node) →
        ∃ child, (gen.PlanComparisonJoin op).children[0]? = some child ∧
          node.delim_scans = GatherDelimScans child []) := by
  refine ⟨GatherDelimScans_eq, ?_, ?_, ?_, ?_⟩
  · intro gen op
    refine ⟨fun hn => by simp [PhysicalPlanGenerator.PlanLeftDelimJoin, hn], ?_⟩
    intro child hc
    rw [PlanLeftDelimJoin_eq gen op child hc]
    constructor
    · intro he
      rw [he]
      rfl
    · intro hne
      have hemp : ¬ (GatherDelimScans child []).isEmpty = true := by
        rw [List.isEmpty_iff]; exact hne
      rw [if_neg hemp]
      refine ⟨_, rfl, rfl, rfl, ?_⟩
      simp only [PhysicalPlanGenerator.delimJoinNode, GatherDelimScans_eq, List.nil_append]
  · intro gen op
    refine ⟨fun hn => by simp [PhysicalPlanGenerator.PlanRightDelimJoin, hn], ?_⟩
    intro child hc
    rw [PlanRightDelimJoin_eq gen op child hc]
    constructor
    · intro he
      rw [he]
      rfl
    · intro hne
      have hemp : ¬ (GatherDelimScans child []).isEmpty = true := by
        rw [List.isEmpty_iff]; exact hne
      rw [if_neg hemp]
      refine ⟨_, rfl, rfl, rfl, ?_⟩
      simp only [PhysicalPlanGenerator.delimJoinNode, GatherDelimScans_eq, List.nil_append]
  · intro gen op node h
    obtain ⟨child, hc, rfl⟩ := PlanLeftDelimJoin_node gen op node h
    exact ⟨child, hc, rfl⟩
  · intro gen op node h
    obtain ⟨child, hc, rfl⟩ := PlanRightDelimJoin_node gen op node h
    exact ⟨child, hc, rfl⟩

/-- Witness for C18. Gathering from a projection over a delim-scan extends the
list by that delim-scan, after what the list held. Left planner: for a `SINGLE` join whose plan has the
delim-scan in its right subtree, `PlanLeftDelimJoin` returns a left delim-join
node carrying the delim-scan gathered from `children[1]`. Right planner
(scenario S5): `PlanRightDelimJoin` returns a right delim-join node carrying the
delim-scan gathered from `children[0]`. -/
theorem C18_gather_delim_scans_witness :
    GatherDelimScans exampleProjection [exampleTableScan] =
      [exampleTableScan, exampleDelimScan] ∧
    ((generatorRight.PlanComparisonJoin joinSingle).children[1]? = some exampleProjection ∧
      GatherDelimScans exampleProjection [] ≠ [] ∧
      ∃ node, generatorRight.PlanLeftDelimJoin joinSingle = .ok (.LeftDelimJoin node) ∧
        node.join = generatorRight.PlanComparisonJoin joinSingle ∧
        node.delim_scans = GatherDelimScans exampleProjection [] ∧
        node.delim_scans = exampleProjection.preorder.filter
          (fun n => decide (n.type = PhysicalOperatorType.DELIM_SCAN))) ∧
    ((generatorS5.PlanComparisonJoin (LogicalJoin.FlipChildren joinS5 .RIGHT_SEMI)).children[0]?
        = some exampleProjection ∧
      ∃ node, generatorS5.PlanRightDelimJoin (LogicalJoin.FlipChildren joinS5 .RIGHT_SEMI) =
          .ok (.RightDelimJoin node) ∧
        node.join = generatorS5.PlanComparisonJoin (LogicalJoin.FlipChildren joinS5 .RIGHT_SEMI) ∧
        node.delim_scans = GatherDelimScans exampleProjection [] ∧
        node.delim_scans = exampleProjection.preorder.filter
          (fun n => decide (n.type = PhysicalOperatorType.DELIM_SCAN))) :=
  ⟨rfl,
    ⟨rfl,
      fun h => List.cons_ne_nil exampleDelimScan []
        ((rfl : [exampleDelimScan] = GatherDelimScans exampleProjection []).trans h),
      (((C18_gather_delim_scans).2.1 generatorRight joinSingle).2 exampleProjection rfl).2
        (fun h => List.cons_ne_nil exampleDelimScan []
          ((rfl : [exampleDelimScan] = GatherDelimScans exampleProjection []).trans h))⟩,
    ⟨rfl,
      (((C18_gather_delim_scans).2.2.1 generatorS5
        (LogicalJoin.FlipChildren joinS5 .RIGHT_SEMI)).2 exampleProjection rfl).2
        (fun h => List.cons_ne_nil exampleDelimScan []
          ((rfl : [exampleDelimScan] = GatherDelimScans exampleProjection []).trans h))⟩⟩

/-- C19, as stated, fails in its last clause: the call that `Scan` makes does
not always satisfy the condition. After `Append(a, 1)`, `Append(b, 2)`,
`UpdateMinBatchIndex(5)`, `CompleteBatch(1)` (every `Append` with
`batch >= min_batch`), `Scan` calls `UpdateMinBatchIndex(1)` in a state where
the keys 1 and 2 are not above `min_batch = 5` and batch 2, below the watermark,
is not completed; afterwards key 2 is still in `in_progress_batches`. -/
theorem C19_counterexample :
    Run.admits Op.appendOk scenarioSizes (Run.fresh String) callsLate = true ∧
    (Run.exec scenarioSizes (Run.fresh String) callsLate).buf.min_batch = 5 ∧
    BatchedBufferedData.Scan.prepare (Run.exec scenarioSizes (Run.fresh String) callsLate).buf =
      (Run.exec scenarioSizes (Run.fresh String) callsLate).buf.UpdateMinBatchIndex 1 ∧
    (¬ ∀ e ∈ (Run.exec scenarioSizes (Run.fresh String) callsLate).buf.in_progress_batches,
      (Run.exec scenarioSizes (Run.fresh String) callsLate).buf.min_batch < e.1) ∧
    (¬ ∀ e ∈ (Run.exec scenarioSizes (Run.fresh String) callsLate).buf.in_progress_batches,
      e.1 < max (Run.exec scenarioSizes (Run.fresh String) callsLate).buf.min_batch 1 →
        e.2.completed = true) ∧
    StdMap.keys
      ((Run.exec scenarioSizes (Run.fresh String) callsLate).buf.Scan).2.in_progress_batches
        = [2] := by
  decide

/-- C19, amended. If before the call every key of `in_progress_batches` is
strictly greater than `min_batch` and every entry whose key is strictly less
than `max(min_batch, c)` is completed, then after `UpdateMinBatchIndex(c)` every
remaining key is strictly greater than the new `min_batch`, the entries with
key at most the new `min_batch` have been removed and their chunks appended to
the back of `batches` in ascending key order (within an entry in append order),
and the entries with larger keys are unchanged. The call that `Scan` makes
(`UpdateMinBatchIndex(k)` for the first entry `(k, b)`, when `batches` is empty
and `b` is completed) satisfies this condition in every state in which the keys
are above `min_batch`, hence in every state reached from a fresh buffer under
the caller discipline (`Append` with `batch >= min_batch`,
`UpdateMinBatchIndex` under this very condition). -/
theorem C19_promotion_under_condition :
    (∀ (c : Nat) (s : BatchedBufferedData τ), StdMap.WF s.in_progress_batches →
      (∀ e ∈ s.in_progress_batches, s.min_batch < e.1) →
      (∀ e ∈ s.in_progress_batches, e.1 < max s.min_batch c → e.2.completed = true) →
        (∀ e ∈ (s.UpdateMinBatchIndex c).in_progress_batches,
          (s.UpdateMinBatchIndex c).min_batch < e.1) ∧
        (s.UpdateMinBatchIndex c).in_progress_batches =
          s.in_progress_batches.filter (fun e => decide (max s.min_batch c < e.1)) ∧
        (s.UpdateMinBatchIndex c).batches =
          s.batches ++ inProgressChunks
            (s.in_progress_batches.filter (fun e => decide (e.1 ≤ max s.min_batch c)))) ∧
    (∀ (s : BatchedBufferedData τ) (k : Nat) (b : InProgressBatch τ)
      (rest : StdMap (InProgressBatch τ)), StdMap.WF s.in_progress_batches →
      (∀ e ∈ s.in_progress_batches, s.min_batch < e.1) →
      s.batches = [] → s.in_progress_batches = (k, b) :: rest → b.completed = true →
        BatchedBufferedData.Scan.prepare s = s.UpdateMinBatchIndex k ∧
        ∀ e ∈ s.in_progress_batches, e.1 < max s.min_batch k → e.2.completed = true) ∧
    (∀ (cfg : BufferSizes) (ops : List (Op τ)),
      Run.admits Op.disciplined cfg (Run.fresh τ) ops = true →
        StdMap.WF (Run.exec cfg (Run.fresh τ) ops).buf.in_progress_batches ∧
        ∀ e ∈ (Run.exec cfg (Run.fresh τ) ops).buf.in_progress_batches,
          (Run.exec cfg (Run.fresh τ) ops).buf.min_batch < e.1) := by
  refine ⟨?_, ?_, ?_⟩
  · intro c s hwf _ hdone
    obtain ⟨t1, t2⟩ := takeWhile_eq_filter_of_disciplined hwf hdone
    refine ⟨KeysAbove_UpdateMinBatchIndex hwf hdone, ?_, ?_⟩
    · rw [BatchedBufferedData.UpdateMinBatchIndex_in_progress c s hwf, t2]
    · rw [BatchedBufferedData.UpdateMinBatchIndex_batches, t1]
  · intro s k b rest hwf hkeys hb hi hc
    exact ⟨prepare_of_completed hb hi hc, prepare_disciplined hwf hkeys hi⟩
  · intro cfg ops hd
    exact ⟨(Consistent_fresh cfg ops).wf_in_progress,
      KeysAbove_exec cfg (Run.fresh τ) ops BatchedBufferedData.Consistent_construct
        (by simp [BatchedBufferedData.KeysAbove, Run.fresh, BatchedBufferedData.construct]) hd⟩

/-- Witness for C19 (amended): with batches 1 (completed) and 2 in progress,
`UpdateMinBatchIndex(2)` promotes both and leaves no key behind. -/
theorem C19_promotion_under_condition_witness :
    (StdMap.WF (Run.exec scenarioSizes (Run.fresh String) callsReady).buf.in_progress_batches ∧
      (∀ e ∈ (Run.exec scenarioSizes (Run.fresh String) callsReady).buf.in_progress_batches,
        (Run.exec scenarioSizes (Run.fresh String) callsReady).buf.min_batch < e.1) ∧
      (∀ e ∈ (Run.exec scenarioSizes (Run.fresh String) callsReady).buf.in_progress_batches,
        e.1 < max (Run.exec scenarioSizes (Run.fresh String) callsReady).buf.min_batch 2 →
          e.2.completed = true)) ∧
    ((Run.exec scenarioSizes (Run.fresh String) callsReady).buf.UpdateMinBatchIndex 2).batches =
      [⟨10, "a"⟩, ⟨10, "b"⟩] ∧
    ((Run.exec scenarioSizes (Run.fresh String) callsReady).buf.UpdateMinBatchIndex
      2).in_progress_batches =
        (Run.exec scenarioSizes (Run.fresh String) callsReady).buf.in_progress_batches.filter
          (fun e => decide
            (max (Run.exec scenarioSizes (Run.fresh String) callsReady).buf.min_batch 2 < e.1)) :=
  ⟨⟨(Consistent_fresh scenarioSizes callsReady).wf_in_progress, by decide, by decide⟩,
    by decide,
    ((C19_promotion_under_condition).1 2 (Run.exec scenarioSizes (Run.fresh String) callsReady).buf
      (Consistent_fresh scenarioSizes callsReady).wf_in_progress (by decide) (by decide)).2.1⟩

/-- C20. Idempotence of the sweeps. For every buffer state (the maps being
`std::map`s, their keys are ascending) and every candidate `c`, calling
`UpdateMinBatchIndex(c)` twice in a row yields the same state as calling it
once; a second `UnblockSinks` immediately after a first fires no callback and
leaves the state unchanged; and the tokens one `UnblockSinks` fires are those
of a sub-list of the registered entries, so that over the two calls a
registered token's callback is invoked at most once. -/
theorem C20_sweeps_idempotent :
    (∀ (c : Nat) (s : BatchedBufferedData τ), StdMap.WF s.in_progress_batches →
      (s.UpdateMinBatchIndex c).UpdateMinBatchIndex c = s.UpdateMinBatchIndex c) ∧
    (∀ (cfg : BufferSizes) (s : BatchedBufferedData τ), StdMap.WF s.blocked_sinks →
      (s.UnblockSinks cfg).2.UnblockSinks cfg = ([], (s.UnblockSinks cfg).2) ∧
      ∃ entries : StdMap BlockedSink, entries.Sublist s.blocked_sinks ∧
        (s.UnblockSinks cfg).1 ++ ((s.UnblockSinks cfg).2.UnblockSinks cfg).1 =
          entries.map Prod.snd) := by
  refine ⟨fun c s hwf => UpdateMinBatchIndex_idem c s hwf, fun cfg s hwf => ?_⟩
  have h2 := UnblockSinks_idem cfg s hwf
  refine ⟨h2, s.blocked_sinks.filter (fun e => !s.ShouldBlockBatch cfg e.1),
    List.filter_sublist _, ?_⟩
  rw [h2, UnblockSinks_eq cfg s hwf]
  simp

/-- Witness for C20: in scenario S4 a second `UpdateMinBatchIndex(3)` changes
nothing, and after the `UnblockSinks` that fires the token of batch 3 a second
one fires nothing. -/
theorem C20_sweeps_idempotent_witness :
    ((Run.exec sizesS4 (Run.fresh String) callsS4).buf.UpdateMinBatchIndex 3 =
      (Run.exec sizesS4 (Run.fresh String) callsS4).buf) ∧
    ((Run.exec sizesS4 (Run.fresh String) callsS4).buf.UnblockSinks sizesS4).1 = [⟨3⟩] ∧
    ((Run.exec sizesS4 (Run.fresh String) callsS4).buf.UnblockSinks sizesS4).2.UnblockSinks sizesS4 =
      ([], ((Run.exec sizesS4 (Run.fresh String) callsS4).buf.UnblockSinks sizesS4).2) ∧
    ((Run.exec sizesS4 (Run.fresh String) [.Append ⟨5, "ahead"⟩ 3]).buf.UpdateMinBatchIndex
        3).UpdateMinBatchIndex 3 =
      (Run.exec sizesS4 (Run.fresh String) [.Append ⟨5, "ahead"⟩ 3]).buf.UpdateMinBatchIndex 3 :=
  ⟨by decide, by decide,
    ((C20_sweeps_idempotent).2 sizesS4 (Run.exec sizesS4 (Run.fresh String) callsS4).buf
      (Consistent_fresh sizesS4 callsS4).wf_blocked).1,
    (C20_sweeps_idempotent).1 3 (Run.exec sizesS4 (Run.fresh String) [.Append ⟨5, "ahead"⟩ 3]).buf
      (Consistent_fresh sizesS4 [.Append ⟨5, "ahead"⟩ 3]).wf_in_progress⟩

end claims

end duckdb
